import Mathlib

/-!
# DISR feature selection (FEAST `FSToolbox/DISR.c`)

A shallow embedding of the C function

    void DISR(int k, int noOfSamples, int noOfFeatures,
              double *featureMatrix, double *classColumn, double *outputFeatures)

and theorems about it.

Modelling conventions.

* `double` is an arbitrary type `D` together with the handful of operations
  the function applies to doubles (`DoubleOps`): the literals `0.0` and `-1`,
  `+`, `/`, `>` and `==`.  Nothing is assumed about them except that the
  literal `-1` compares equal to itself.  NaN and infinities are therefore
  covered: every theorem holds for every such arithmetic.
* The MIToolbox routines `calculateMutualInformation`, `calculateJointEntropy`
  and `mergeArrays` are not part of this source file; they are parameters
  (`Collaborators`).  `mergeArrays` writes its result to a scratch buffer in C;
  here it returns the merged vector.
* Every array of the C function is a `List`; every subscript goes through
  `readAt` / `writeAt`, which fail with `Fault.outOfBounds` when the subscript
  is outside the allocated block.  `CALLOC_FUNC` blocks start zeroed.
* `int` values are unbounded integers: the sizes `k*noOfFeatures` and
  `noOfFeatures*noOfSamples` are the sizes of successfully allocated blocks
  and are assumed to fit an `int`.
* `outputFeatures` holds small integers stored in doubles; the conversions
  `int -> double -> int` are exact there, so the buffer is a `List Int`.
* Statements about every point of a run and about the number of computations
  are made on `DISRLogged`: the same loops, carrying a record of each
  iteration of the innermost loop; it returns the output of `DISR`.
* Statements about a maximum assume that `>` is a strict weak order on the
  values compared (`StrictWeakOn`), as it is on doubles that are not NaN.
-/

namespace FEAST

/-- Faults of the checked memory model. -/
inductive Fault where
  | outOfBounds
  deriving DecidableEq, Repr

/-- The operations `DISR.c` applies to values of type `double`. -/
structure DoubleOps (D : Type) where
  /-- the literal `0.0` (also the content of a fresh `calloc` block) -/
  zero : D
  /-- the literal `-1`, the "unknown" mark of the cache -/
  negOne : D
  /-- the sum `a + b` -/
  add : D → D → D
  /-- the quotient `a / b` -/
  div : D → D → D
  /-- the comparison `a > b` -/
  gt : D → D → Bool
  /-- the comparison `a == b` -/
  eq : D → D → Bool
  /-- the comparison `-1 == -1` holds -/
  eq_negOne : eq negOne negOne = true

/-- The MIToolbox routines called by `DISR.c`. -/
structure Collaborators (D : Type) where
  /-- the routine `calculateMutualInformation(firstVector, secondVector, vectorLength)` -/
  calculateMutualInformation : List D → List D → Int → D
  /-- the routine `calculateJointEntropy(firstVector, secondVector, vectorLength)` -/
  calculateJointEntropy : List D → List D → Int → D
  /-- the routine `mergeArrays(firstVector, secondVector, outputVector, vectorLength)`,
  returning the content of `outputVector` -/
  mergeArrays : List D → List D → Int → List D

/-- Checked read `a[i]`. -/
def readAt {α : Type} (a : List α) (i : Int) : Except Fault α :=
  if 0 ≤ i then
    match a[i.toNat]? with
    | some v => .ok v
    | none => .error .outOfBounds
  else .error .outOfBounds

/-- Checked write `a[i] = v`. -/
def writeAt {α : Type} (a : List α) (i : Int) (v : α) : Except Fault (List α) :=
  if 0 ≤ i ∧ i.toNat < a.length then .ok (a.set i.toNat v) else .error .outOfBounds

/-- The loop `for (i = lo; i < lo + count; i++) body`. -/
def forRange {σ : Type} (body : Nat → σ → Except Fault σ) : Nat → Nat → σ → Except Fault σ
  | _, 0, s => .ok s
  | lo, count + 1, s =>
    match body lo s with
    | .ok s' => forRange body (lo + 1) count s'
    | .error e => .error e

/-- The block `featureMatrix + j*noOfSamples` of `noOfSamples` doubles. -/
def column {D : Type} (featureMatrix : List D) (noOfSamples : Int) (j : Nat) : List D :=
  (featureMatrix.drop ((j : Int) * noOfSamples).toNat).take noOfSamples.toNat

/-- Locals of the seed loop (lines 93-105). -/
structure SeedState (D : Type) where
  classMI : List D
  maxMI : D
  maxMICounter : Int

/-- One iteration of the loop of lines 93-105. -/
def seedBody {D : Type} (ops : DoubleOps D) (col : Collaborators D) (noOfSamples : Int)
    (feature2D : List (List D)) (classColumn : List D) (i : Nat) (s : SeedState D) :
    Except Fault (SeedState D) := do
  let fi ← readAt feature2D i
  let classMI ← writeAt s.classMI i (col.calculateMutualInformation fi classColumn noOfSamples)
  let ci ← readAt classMI i
  if ops.gt ci s.maxMI then
    pure { classMI := classMI, maxMI := ci, maxMICounter := i }
  else
    pure { s with classMI := classMI }

/-- State of the innermost loop (lines 131-148): the cache and `currentScore`. -/
structure PairState (D : Type) where
  featureMIMatrix : List D
  currentScore : D

/-- One iteration of the loop of lines 131-148. -/
def pairBody {D : Type} (ops : DoubleOps D) (col : Collaborators D)
    (noOfSamples noOfFeatures : Int) (feature2D : List (List D)) (classColumn : List D)
    (outputFeatures : List Int) (j : Nat) (x : Nat) (s : PairState D) :
    Except Fault (PairState D) := do
  let arrayPosition : Int := (x : Int) * noOfFeatures + (j : Int)
  let cell ← readAt s.featureMIMatrix arrayPosition
  let featureMIMatrix ←
    if ops.eq cell ops.negOne then do
      let sx ← readAt outputFeatures x
      let fx ← readAt feature2D sx
      let fj ← readAt feature2D j
      let mergedVector := col.mergeArrays fx fj noOfSamples
      let mi := col.calculateMutualInformation mergedVector classColumn noOfSamples
      let tripEntropy := col.calculateJointEntropy mergedVector classColumn noOfSamples
      writeAt s.featureMIMatrix arrayPosition (ops.div mi tripEntropy)
    else
      pure s.featureMIMatrix
  let cell' ← readAt featureMIMatrix arrayPosition
  pure { featureMIMatrix := featureMIMatrix, currentScore := ops.add s.currentScore cell' }

/-- State of the loop over the features (lines 123-156).  The locals
`currentScore` and `totalFeatureMI` are reset for every candidate (the second
is never read) and are not part of the state. -/
structure RoundState (D : Type) where
  featureMIMatrix : List D
  score : D
  currentHighestFeature : Int

/-- One iteration of the loop of lines 123-156, in round `i`. -/
def featureBody {D : Type} (ops : DoubleOps D) (col : Collaborators D)
    (noOfSamples noOfFeatures : Int) (feature2D : List (List D)) (classColumn : List D)
    (selectedFeatures : List Nat) (outputFeatures : List Int) (i : Nat) (j : Nat)
    (s : RoundState D) : Except Fault (RoundState D) := do
  let sel ← readAt selectedFeatures j
  if sel = 0 then
    let p ← forRange
      (pairBody ops col noOfSamples noOfFeatures feature2D classColumn outputFeatures j)
      0 i { featureMIMatrix := s.featureMIMatrix, currentScore := ops.zero }
    if ops.gt p.currentScore s.score then
      pure { featureMIMatrix := p.featureMIMatrix, score := p.currentScore,
             currentHighestFeature := j }
    else
      pure { s with featureMIMatrix := p.featureMIMatrix }
  else
    pure s

/-- The arrays that live across the rounds. -/
structure Mem (D : Type) where
  selectedFeatures : List Nat
  featureMIMatrix : List D
  outputFeatures : List Int

/-- One round of the loop of lines 116-161. -/
def roundBody {D : Type} (ops : DoubleOps D) (col : Collaborators D)
    (noOfSamples noOfFeatures : Int) (feature2D : List (List D)) (classColumn : List D)
    (i : Nat) (m : Mem D) : Except Fault (Mem D) := do
  let r ← forRange
    (featureBody ops col noOfSamples noOfFeatures feature2D classColumn
      m.selectedFeatures m.outputFeatures i)
    0 noOfFeatures.toNat
    { featureMIMatrix := m.featureMIMatrix, score := ops.zero, currentHighestFeature := 0 }
  let selectedFeatures ← writeAt m.selectedFeatures r.currentHighestFeature 1
  let outputFeatures ← writeAt m.outputFeatures i r.currentHighestFeature
  pure { selectedFeatures := selectedFeatures, featureMIMatrix := r.featureMIMatrix,
         outputFeatures := outputFeatures }

/-- The array `feature2D` after the loop of lines 82-85. -/
def initFeature2D {D : Type} (featureMatrix : List D) (noOfSamples noOfFeatures : Int) :
    Except Fault (List (List D)) :=
  forRange (fun j f => writeAt f j (column featureMatrix noOfSamples j))
    0 noOfFeatures.toNat (List.replicate noOfFeatures.toNat [])

/-- The cache after the loop of lines 87-90. -/
def initMatrix {D : Type} (ops : DoubleOps D) (sizeOfMatrix : Int) : Except Fault (List D) :=
  forRange (fun i f => writeAt f i ops.negOne)
    0 sizeOfMatrix.toNat (List.replicate sizeOfMatrix.toNat ops.zero)

/-- The seed loop of lines 93-105, from `maxMI = 0.0`, `maxMICounter = -1`. -/
def seedLoop {D : Type} (ops : DoubleOps D) (col : Collaborators D)
    (noOfSamples noOfFeatures : Int) (feature2D : List (List D)) (classColumn : List D) :
    Except Fault (SeedState D) :=
  forRange (seedBody ops col noOfSamples feature2D classColumn)
    0 noOfFeatures.toNat
    { classMI := List.replicate noOfFeatures.toNat ops.zero, maxMI := ops.zero,
      maxMICounter := -1 }

/-- Lines 59-108: allocation, initialisation, the seed loop and the selection
of the seed.  The block `outputFeatures` of `k` entries belongs to the caller;
the function writes each entry before reading it, so its initial content
(zeros here) does not matter. -/
def seedPhase {D : Type} (ops : DoubleOps D) (col : Collaborators D)
    (k noOfSamples noOfFeatures : Int) (featureMatrix classColumn : List D) :
    Except Fault (List (List D) × SeedState D × Mem D) := do
  let selectedFeatures : List Nat := List.replicate noOfFeatures.toNat 0
  let sizeOfMatrix : Int := k * noOfFeatures
  let feature2D ← initFeature2D featureMatrix noOfSamples noOfFeatures
  let featureMIMatrix ← initMatrix ops sizeOfMatrix
  let seed ← seedLoop ops col noOfSamples noOfFeatures feature2D classColumn
  let selectedFeatures ← writeAt selectedFeatures seed.maxMICounter 1
  let outputFeatures ← writeAt (List.replicate k.toNat (0 : Int)) 0 seed.maxMICounter
  pure (feature2D, seed,
    { selectedFeatures := selectedFeatures, featureMIMatrix := featureMIMatrix,
      outputFeatures := outputFeatures })

/-- The greedy loop of lines 116-161. -/
def greedyRounds {D : Type} (ops : DoubleOps D) (col : Collaborators D)
    (k noOfSamples noOfFeatures : Int) (feature2D : List (List D)) (classColumn : List D)
    (m : Mem D) : Except Fault (Mem D) :=
  forRange (roundBody ops col noOfSamples noOfFeatures feature2D classColumn)
    1 (k - 1).toNat m

/-- The loop of lines 163-166: `outputFeatures[i] += 1`. -/
def finalize (k : Int) (outputFeatures : List Int) : Except Fault (List Int) :=
  forRange (fun i out => do
      let v ← readAt out i
      writeAt out i (v + 1))
    0 k.toNat outputFeatures

/-- The function `DISR` of `DISR.c`; the result is the content of
`outputFeatures` (a block of `k` entries) on return. -/
def DISR {D : Type} (ops : DoubleOps D) (col : Collaborators D)
    (k noOfSamples noOfFeatures : Int) (featureMatrix classColumn : List D) :
    Except Fault (List Int) := do
  let (feature2D, _, m) ← seedPhase ops col k noOfSamples noOfFeatures featureMatrix classColumn
  let m ← greedyRounds ops col k noOfSamples noOfFeatures feature2D classColumn m
  finalize k m.outputFeatures

/-! ### The variant without the cache

The same algorithm with lines 133-147 replaced by an unconditional computation
of `R(x, j)`: no cell of `featureMIMatrix` is read or written. -/

/-- One iteration of the innermost loop when `R(x, j)` is recomputed each time
it is needed; the state is `currentScore`. -/
def pairBodyUncached {D : Type} (ops : DoubleOps D) (col : Collaborators D)
    (noOfSamples : Int) (feature2D : List (List D)) (classColumn : List D)
    (outputFeatures : List Int) (j : Nat) (x : Nat) (currentScore : D) : Except Fault D := do
  let sx ← readAt outputFeatures x
  let fx ← readAt feature2D sx
  let fj ← readAt feature2D j
  let mergedVector := col.mergeArrays fx fj noOfSamples
  let mi := col.calculateMutualInformation mergedVector classColumn noOfSamples
  let tripEntropy := col.calculateJointEntropy mergedVector classColumn noOfSamples
  pure (ops.add currentScore (ops.div mi tripEntropy))

/-- One iteration of the loop over the features, without the cache; the state
is `(score, currentHighestFeature)`. -/
def featureBodyUncached {D : Type} (ops : DoubleOps D) (col : Collaborators D)
    (noOfSamples : Int) (feature2D : List (List D)) (classColumn : List D)
    (selectedFeatures : List Nat) (outputFeatures : List Int) (i : Nat) (j : Nat)
    (s : D × Int) : Except Fault (D × Int) := do
  let sel ← readAt selectedFeatures j
  if sel = 0 then
    let currentScore ← forRange
      (pairBodyUncached ops col noOfSamples feature2D classColumn outputFeatures j) 0 i ops.zero
    if ops.gt currentScore s.1 then
      pure (currentScore, (j : Int))
    else
      pure s
  else
    pure s

/-- One round without the cache; the state is `(selectedFeatures, outputFeatures)`. -/
def roundBodyUncached {D : Type} (ops : DoubleOps D) (col : Collaborators D)
    (noOfSamples noOfFeatures : Int) (feature2D : List (List D)) (classColumn : List D)
    (i : Nat) (m : List Nat × List Int) : Except Fault (List Nat × List Int) := do
  let r ← forRange
    (featureBodyUncached ops col noOfSamples feature2D classColumn m.1 m.2 i)
    0 noOfFeatures.toNat (ops.zero, 0)
  let selectedFeatures ← writeAt m.1 r.2 1
  let outputFeatures ← writeAt m.2 i r.2
  pure (selectedFeatures, outputFeatures)

/-- The function `DISR` without memoisation. -/
def DISRUncached {D : Type} (ops : DoubleOps D) (col : Collaborators D)
    (k noOfSamples noOfFeatures : Int) (featureMatrix classColumn : List D) :
    Except Fault (List Int) := do
  let (feature2D, _, m) ← seedPhase ops col k noOfSamples noOfFeatures featureMatrix classColumn
  let m ← forRange (roundBodyUncached ops col noOfSamples noOfFeatures feature2D classColumn)
    1 (k - 1).toNat (m.selectedFeatures, m.outputFeatures)
  finalize k m.2

/-! ### The selection as a function

The values the loops compute, written as recursive functions of the inputs. -/

/-- The value stored in `classMI[i]`. -/
def classMIOf {D : Type} (col : Collaborators D) (noOfSamples : Int)
    (featureMatrix classColumn : List D) (i : Nat) : D :=
  col.calculateMutualInformation (column featureMatrix noOfSamples i) classColumn noOfSamples

/-- The pair `(maxMI, maxMICounter)` after `i` iterations of the seed loop. -/
def seedScan {D : Type} (ops : DoubleOps D) (col : Collaborators D) (noOfSamples : Int)
    (featureMatrix classColumn : List D) : Nat → D × Int
  | 0 => (ops.zero, -1)
  | i + 1 =>
    if ops.gt (classMIOf col noOfSamples featureMatrix classColumn i)
        (seedScan ops col noOfSamples featureMatrix classColumn i).1 then
      (classMIOf col noOfSamples featureMatrix classColumn i, (i : Int))
    else seedScan ops col noOfSamples featureMatrix classColumn i

/-- The value of `maxMICounter` after the seed loop. -/
def seedIndex {D : Type} (ops : DoubleOps D) (col : Collaborators D)
    (noOfSamples noOfFeatures : Int) (featureMatrix classColumn : List D) : Int :=
  (seedScan ops col noOfSamples featureMatrix classColumn noOfFeatures.toNat).2

/-- The value `R(x, j)` for the feature `sx` selected in round `x`:
`mi / tripEntropy` of the merge of features `sx` and `j`. -/
def relevance {D : Type} (ops : DoubleOps D) (col : Collaborators D) (noOfSamples : Int)
    (featureMatrix classColumn : List D) (sx j : Nat) : D :=
  ops.div
    (col.calculateMutualInformation
      (col.mergeArrays (column featureMatrix noOfSamples sx) (column featureMatrix noOfSamples j)
        noOfSamples) classColumn noOfSamples)
    (col.calculateJointEntropy
      (col.mergeArrays (column featureMatrix noOfSamples sx) (column featureMatrix noOfSamples j)
        noOfSamples) classColumn noOfSamples)

/-- The value of `currentScore` for candidate `j` after the loop over the
features `outs` selected so far: `((0.0 + R(0,j)) + R(1,j)) + ...`. -/
def totalScore {D : Type} (ops : DoubleOps D) (col : Collaborators D) (noOfSamples : Int)
    (featureMatrix classColumn : List D) (outs : List Nat) (j : Nat) : D :=
  outs.foldl
    (fun acc sx => ops.add acc (relevance ops col noOfSamples featureMatrix classColumn sx j))
    ops.zero

/-- The pair `(score, currentHighestFeature)` after `j` iterations of the
loop over the features, in the round that follows the selections `outs`. -/
def pickScan {D : Type} (ops : DoubleOps D) (col : Collaborators D) (noOfSamples : Int)
    (featureMatrix classColumn : List D) (outs : List Nat) : Nat → D × Int
  | 0 => (ops.zero, 0)
  | j + 1 =>
    if j ∈ outs then pickScan ops col noOfSamples featureMatrix classColumn outs j
    else if ops.gt (totalScore ops col noOfSamples featureMatrix classColumn outs j)
        (pickScan ops col noOfSamples featureMatrix classColumn outs j).1 then
      (totalScore ops col noOfSamples featureMatrix classColumn outs j, (j : Int))
    else pickScan ops col noOfSamples featureMatrix classColumn outs j

/-- The feature written to `outputFeatures` by the round that follows the
selections `outs`. -/
def pick {D : Type} (ops : DoubleOps D) (col : Collaborators D)
    (noOfSamples noOfFeatures : Int) (featureMatrix classColumn : List D) (outs : List Nat) : Nat :=
  (pickScan ops col noOfSamples featureMatrix classColumn outs noOfFeatures.toNat).2.toNat

/-- The features selected by the seed step and the first `r` rounds, in order
(0-based). -/
def selectSeq {D : Type} (ops : DoubleOps D) (col : Collaborators D)
    (noOfSamples noOfFeatures : Int) (featureMatrix classColumn : List D) : Nat → List Nat
  | 0 => [(seedIndex ops col noOfSamples noOfFeatures featureMatrix classColumn).toNat]
  | r + 1 =>
    selectSeq ops col noOfSamples noOfFeatures featureMatrix classColumn r ++
      [pick ops col noOfSamples noOfFeatures featureMatrix classColumn
        (selectSeq ops col noOfSamples noOfFeatures featureMatrix classColumn r)]

/-- The result of `DISR` in closed form: a fault when `k < 1` or the seed loop
found no index, else the `k` selected features, 1-based. -/
def selection {D : Type} (ops : DoubleOps D) (col : Collaborators D)
    (k noOfSamples noOfFeatures : Int) (featureMatrix classColumn : List D) :
    Except Fault (List Int) :=
  if 1 ≤ k ∧ 0 ≤ seedIndex ops col noOfSamples noOfFeatures featureMatrix classColumn then
    .ok ((selectSeq ops col noOfSamples noOfFeatures featureMatrix classColumn (k - 1).toNat).map
      (fun (s : Nat) => (s : Int) + 1))
  else .error .outOfBounds


/-! ### Invariants of the run -/

/-- The cache holds, in every cell, the mark `-1` or the value `R(x, j)` of its
row `x` and column `j`. -/
def CacheOK {D : Type} (ops : DoubleOps D) (col : Collaborators D) (noOfSamples : Int)
    (featureMatrix classColumn : List D) (N size : Nat) (outs : List Nat) (fmm : List D) : Prop :=
  fmm.length = size ∧ ∀ p, p < size → fmm[p]? = some ops.negOne ∨
    ∃ sx, outs[p / N]? = some sx ∧
      fmm[p]? = some (relevance ops col noOfSamples featureMatrix classColumn sx (p % N))

/-- The arrays `selectedFeatures` and `outputFeatures` record the selections `outs`. -/
def SelOutOK (N K : Nat) (outs : List Nat) (sel : List Nat) (out : List Int) : Prop :=
  sel.length = N ∧ (∀ j, j < N → sel[j]? = some (if j ∈ outs then 1 else 0)) ∧
  out.length = K ∧ (∀ (x sx : Nat), outs[x]? = some sx → out[x]? = some (sx : Int)) ∧
  (∀ sx, sx ∈ outs → sx < N) ∧ outs.length ≤ K

/-- The state in which the seed step leaves the arrays. -/
def seedMem {D : Type} (ops : DoubleOps D) (col : Collaborators D)
    (k noOfSamples noOfFeatures : Int) (featureMatrix classColumn : List D) : Mem D :=
  { selectedFeatures := (List.replicate noOfFeatures.toNat 0).set
      (seedIndex ops col noOfSamples noOfFeatures featureMatrix classColumn).toNat 1,
    featureMIMatrix := List.replicate (k * noOfFeatures).toNat ops.negOne,
    outputFeatures := (List.replicate k.toNat (0 : Int)).set 0
      (seedIndex ops col noOfSamples noOfFeatures featureMatrix classColumn) }

/-! ### A concrete arithmetic and concrete collaborators

Used to evaluate the function on explicit inputs. -/

/-- Decidable equality of results. -/
instance instDecEqExcept {ε α : Type} [DecidableEq ε] [DecidableEq α] : DecidableEq (Except ε α)
  | .ok a, .ok b => if h : a = b then isTrue (by rw [h]) else isFalse (fun h' => h (by cases h'; rfl))
  | .error a, .error b =>
    if h : a = b then isTrue (by rw [h]) else isFalse (fun h' => h (by cases h'; rfl))
  | .ok _, .error _ => isFalse (fun h => by cases h)
  | .error _, .ok _ => isFalse (fun h => by cases h)

/-- A concrete arithmetic for examples: IEEE-754 doubles without rounding and
without signed zero.  `fin num den` is the rational `num / den` in lowest
terms, `den > 0`. -/
inductive Dbl where
  | nan
  | ninf
  | pinf
  | fin (num : Int) (den : Nat)
  deriving DecidableEq, Repr

namespace Dbl

/-- The double `n / d` for integers `n` and `d ≥ 0`; division by zero follows IEEE. -/
def quot (n : Int) (d : Nat) : Dbl :=
  if d = 0 then (if n = 0 then nan else if 0 < n then pinf else ninf)
  else fin (n / (Nat.gcd n.natAbs d : Int)) (d / Nat.gcd n.natAbs d)

/-- The double of an integer. -/
def ofInt (n : Int) : Dbl := fin n 1

/-- The sum; `inf + -inf` and every sum with a NaN are NaN. -/
def add : Dbl → Dbl → Dbl
  | fin a b, fin c d => quot (a * d + c * b) (b * d)
  | nan, _ => nan
  | _, nan => nan
  | pinf, ninf => nan
  | ninf, pinf => nan
  | pinf, _ => pinf
  | _, pinf => pinf
  | ninf, _ => ninf
  | _, ninf => ninf

/-- The quotient; `0/0` and `inf/inf` are NaN, `x/0` is an infinity of the sign of `x`. -/
def div : Dbl → Dbl → Dbl
  | fin a b, fin c d => if 0 ≤ c then quot (a * d) (b * c.natAbs) else quot (-(a * d)) (b * c.natAbs)
  | nan, _ => nan
  | _, nan => nan
  | fin _ _, _ => fin 0 1
  | pinf, fin c _ => if 0 ≤ c then pinf else ninf
  | ninf, fin c _ => if 0 ≤ c then ninf else pinf
  | _, _ => nan

/-- The comparison `a > b`; false when either side is NaN. -/
def gt : Dbl → Dbl → Bool
  | fin a b, fin c d => decide (c * b < a * d)
  | pinf, fin _ _ => true
  | pinf, ninf => true
  | fin _ _, ninf => true
  | _, _ => false

/-- The comparison `a == b`; false when either side is NaN. -/
def eq : Dbl → Dbl → Bool
  | fin a b, fin c d => decide (a * d = c * b)
  | pinf, pinf => true
  | ninf, ninf => true
  | _, _ => false

end Dbl

/-- The arithmetic of `Dbl`. -/
def dblOps : DoubleOps Dbl where
  zero := .ofInt 0
  negOne := .ofInt (-1)
  add := Dbl.add
  div := Dbl.div
  gt := Dbl.gt
  eq := Dbl.eq
  eq_negOne := by decide

/-- The exponent `e` with `2 ^ e = m`, when there is one. -/
def exactLog2 (m : Nat) : Option Nat := (List.range m).find? (fun e => 2 ^ e = m)

/-- Modelled from the spec: the entropy in bits of the empirical distribution of a
sequence, on the sequences in which every value occurs equally often and the
number of distinct values is a power of two `2 ^ e` (the entropy is then `e`);
`none` on the other sequences. -/
def entropyBits {α : Type} [DecidableEq α] (l : List α) : Option Nat :=
  if l.dedup.all (fun v => l.count v * l.dedup.length = l.length) then exactLog2 l.dedup.length
  else none

/-- Modelled from the spec: `MutualInformation(vectorA, vectorB, length)`, the discrete
mutual information `H(A) + H(B) - H(A,B)` in bits, on the sequences where
`entropyBits` gives the three entropies; `nan` elsewhere. -/
def miBits (a b : List Dbl) (n : Int) : Dbl :=
  match entropyBits (a.take n.toNat), entropyBits (b.take n.toNat),
    entropyBits ((a.take n.toNat).zip (b.take n.toNat)) with
  | some x, some y, some z => .ofInt ((x : Int) + (y : Int) - (z : Int))
  | _, _, _ => .nan

/-- Modelled from the spec: `JointEntropy(vectorA, vectorB, length)` in bits, on the
sequences where `entropyBits` gives it; `nan` elsewhere. -/
def jeBits (a b : List Dbl) (n : Int) : Dbl :=
  match entropyBits ((a.take n.toNat).zip (b.take n.toNat)) with
  | some z => .ofInt (z : Int)
  | none => .nan

/-- Modelled from the spec: `MergeArrays(vectorA, vectorB, length)`, each element the
number of the joint state of the pair `(A[t], B[t])`. -/
def mergeStates (a b : List Dbl) (n : Int) : List Dbl :=
  ((a.take n.toNat).zip (b.take n.toNat)).map (fun p =>
    .ofInt ((((a.take n.toNat).zip (b.take n.toNat)).dedup.indexOf p : Int) + 1))

/-- The collaborators of the examples. -/
def bitsCollab : Collaborators Dbl where
  calculateMutualInformation := miBits
  calculateJointEntropy := jeBits
  mergeArrays := mergeStates

/-- A vector of doubles from integers. -/
def vec (l : List Int) : List Dbl := l.map Dbl.ofInt

/-! ### Comparisons that order the values of a scan -/

/-- The comparison `gt` (the `>` of the doubles) is a strict weak order on the
values `vals`: irreflexive, transitive, and with a transitive "not greater".
This is what `>` is on doubles that are not NaN. -/
def StrictWeakOn {D : Type} (gt : D → D → Bool) (vals : List D) : Prop :=
  (∀ a, a ∈ vals → gt a a = false) ∧
  (∀ a, a ∈ vals → ∀ b, b ∈ vals → ∀ c, c ∈ vals →
    gt a b = true → gt b c = true → gt a c = true) ∧
  (∀ a, a ∈ vals → ∀ b, b ∈ vals → ∀ c, c ∈ vals →
    gt a b = false → gt b c = false → gt a c = false)

/-- Decidability of `StrictWeakOn` on an explicit list of values. -/
instance instDecidableStrictWeakOn {D : Type} (gt : D → D → Bool) (vals : List D) :
    Decidable (StrictWeakOn gt vals) :=
  inferInstanceAs (Decidable (_ ∧ _ ∧ _))

/-- The scan shared by the seed loop and the loop over the features: starting
from `init`, each candidate `j` whose value compares greater than the recorded
one replaces it. -/
def bestScan {D : Type} (gt : D → D → Bool) (val : Nat → D) (cand : Nat → Bool)
    (init : D × Int) : Nat → D × Int
  | 0 => init
  | j + 1 =>
    if cand j = true ∧ gt (val j) (bestScan gt val cand init j).1 = true then (val j, (j : Int))
    else bestScan gt val cand init j

/-! ### The run with a record of the cache

The same loops, carrying along a list of records: one record for each
iteration of the innermost loop (lines 131-148), in the order of execution.
The records are not read by the run. -/

/-- What one iteration of the innermost loop did: the round `i`, the row `x`
and the column `j` of the cell it used, whether it computed the cell (the test
`featureMIMatrix[arrayPosition] == -1` of line 134 succeeded, so `mergeArrays`,
`calculateMutualInformation` and `calculateJointEntropy` were called once), and
the cache after the iteration. -/
structure CacheEvent (D : Type) where
  round : Nat
  row : Nat
  feature : Nat
  computed : Bool
  cache : List D

/-- One iteration of the loop of lines 131-148 (`pairBody`), recorded. -/
def pairBodyLogged {D : Type} (ops : DoubleOps D) (col : Collaborators D)
    (noOfSamples noOfFeatures : Int) (feature2D : List (List D)) (classColumn : List D)
    (outputFeatures : List Int) (i j x : Nat) (s : PairState D × List (CacheEvent D)) :
    Except Fault (PairState D × List (CacheEvent D)) := do
  let cell ← readAt s.1.featureMIMatrix ((x : Int) * noOfFeatures + (j : Int))
  let s' ← pairBody ops col noOfSamples noOfFeatures feature2D classColumn outputFeatures j x s.1
  pure (s', s.2 ++ [{ round := i, row := x, feature := j,
                      computed := ops.eq cell ops.negOne, cache := s'.featureMIMatrix }])

/-- One iteration of the loop of lines 123-156 (`featureBody`), with the
innermost loop recorded. -/
def featureBodyLogged {D : Type} (ops : DoubleOps D) (col : Collaborators D)
    (noOfSamples noOfFeatures : Int) (feature2D : List (List D)) (classColumn : List D)
    (selectedFeatures : List Nat) (outputFeatures : List Int) (i : Nat) (j : Nat)
    (s : RoundState D × List (CacheEvent D)) :
    Except Fault (RoundState D × List (CacheEvent D)) := do
  let sel ← readAt selectedFeatures j
  if sel = 0 then
    let p ← forRange
      (pairBodyLogged ops col noOfSamples noOfFeatures feature2D classColumn outputFeatures i j)
      0 i ({ featureMIMatrix := s.1.featureMIMatrix, currentScore := ops.zero }, s.2)
    if ops.gt p.1.currentScore s.1.score then
      pure ({ featureMIMatrix := p.1.featureMIMatrix, score := p.1.currentScore,
              currentHighestFeature := j }, p.2)
    else
      pure ({ s.1 with featureMIMatrix := p.1.featureMIMatrix }, p.2)
  else
    pure s

/-- One round of the loop of lines 116-161 (`roundBody`), recorded. -/
def roundBodyLogged {D : Type} (ops : DoubleOps D) (col : Collaborators D)
    (noOfSamples noOfFeatures : Int) (feature2D : List (List D)) (classColumn : List D)
    (i : Nat) (m : Mem D × List (CacheEvent D)) :
    Except Fault (Mem D × List (CacheEvent D)) := do
  let r ← forRange
    (featureBodyLogged ops col noOfSamples noOfFeatures feature2D classColumn
      m.1.selectedFeatures m.1.outputFeatures i)
    0 noOfFeatures.toNat
    ({ featureMIMatrix := m.1.featureMIMatrix, score := ops.zero, currentHighestFeature := 0 },
      m.2)
  let selectedFeatures ← writeAt m.1.selectedFeatures r.1.currentHighestFeature 1
  let outputFeatures ← writeAt m.1.outputFeatures i r.1.currentHighestFeature
  pure ({ selectedFeatures := selectedFeatures, featureMIMatrix := r.1.featureMIMatrix,
          outputFeatures := outputFeatures }, r.2)

/-- The function `DISR` with the record of its innermost iterations: the output
and the records in the order of execution. -/
def DISRLogged {D : Type} (ops : DoubleOps D) (col : Collaborators D)
    (k noOfSamples noOfFeatures : Int) (featureMatrix classColumn : List D) :
    Except Fault (List Int × List (CacheEvent D)) := do
  let (feature2D, _, m) ← seedPhase ops col k noOfSamples noOfFeatures featureMatrix classColumn
  let m ← forRange (roundBodyLogged ops col noOfSamples noOfFeatures feature2D classColumn)
    1 (k - 1).toNat (m, [])
  let out ← finalize k m.1.outputFeatures
  pure (out, m.2)

/-- The cells the run computed, in the order of their computation. -/
def computedCells {D : Type} (log : List (CacheEvent D)) : List (Nat × Nat) :=
  (log.filter (fun e => e.computed)).map (fun e => (e.row, e.feature))

/-- Every cell of `ca` that holds a value other than the mark (not `== -1`)
holds the same value in `cb`. -/
def Stable {D : Type} (ops : DoubleOps D) (ca cb : List D) : Prop :=
  ∀ (q : Nat) (v : D), ca[q]? = some v → ops.eq v ops.negOne = false → cb[q]? = some v

/-- A record is consistent with the selections `outs`: its cell lies in a row
of a completed round, and every cell of its cache holds the mark or, in a row
below its round, the value `R` of its row and column. -/
def EventOK {D : Type} (ops : DoubleOps D) (col : Collaborators D) (noOfSamples : Int)
    (featureMatrix classColumn : List D) (N K : Nat) (outs : List Nat) (e : CacheEvent D) :
    Prop :=
  e.row < e.round ∧ e.round ≤ outs.length ∧ e.round < K ∧ e.feature < N ∧
  e.cache.length = K * N ∧
  ∀ q, q < K * N → e.cache[q]? = some ops.negOne ∨
    ∃ sx, q / N < e.round ∧ outs[q / N]? = some sx ∧
      e.cache[q]? = some (relevance ops col noOfSamples featureMatrix classColumn sx (q % N))

/-- The records `log` are consistent with the selections `outs` and the current
cache `ca`. -/
def LogOK {D : Type} (ops : DoubleOps D) (col : Collaborators D) (noOfSamples : Int)
    (featureMatrix classColumn : List D) (N K : Nat) (outs : List Nat) (ca : List D)
    (log : List (CacheEvent D)) : Prop :=
  (∀ e, e ∈ log →
    EventOK ops col noOfSamples featureMatrix classColumn N K outs e ∧ Stable ops e.cache ca) ∧
  log.Pairwise (fun e e' => Stable ops e.cache e'.cache) ∧
  ((∀ sx j, sx < N → j < N →
      ops.eq (relevance ops col noOfSamples featureMatrix classColumn sx j) ops.negOne = false) →
    (computedCells log).Nodup ∧
    ∀ e, e ∈ log → e.computed = true →
      ∃ v, ca[e.row * N + e.feature]? = some v ∧ ops.eq v ops.negOne = false)

/-! ### Memory and loops -/

theorem readAt_natCast {α : Type} (a : List α) (i : Nat) (v : α) (h : a[i]? = some v) :
    readAt a (i : Int) = .ok v := by
  simp [readAt, h]

theorem writeAt_natCast {α : Type} (a : List α) (i : Nat) (v : α) (h : i < a.length) :
    writeAt a (i : Int) v = .ok (a.set i v) := by
  simp [writeAt, h]

theorem writeAt_neg {α : Type} (a : List α) (i : Int) (v : α) (h : i < 0) :
    writeAt a i v = .error .outOfBounds := by
  simp [writeAt, not_le.mpr h]

theorem writeAt_nil {α : Type} (i : Int) (v : α) :
    writeAt ([] : List α) i v = .error .outOfBounds := by
  simp [writeAt]

theorem bind_ok {α β : Type} (a : α) (f : α → Except Fault β) :
    (Except.ok a >>= f) = f a := rfl

/-- Loop invariants: an invariant that every iteration re-establishes holds
after the loop, and the loop does not fault. -/
theorem forRange_inv {σ : Type} (body : Nat → σ → Except Fault σ) (P : Nat → σ → Prop)
    (count : Nat) : ∀ (lo : Nat) (s : σ), P lo s →
    (∀ i s, lo ≤ i → i < lo + count → P i s → ∃ s', body i s = .ok s' ∧ P (i + 1) s') →
    ∃ s', forRange body lo count s = .ok s' ∧ P (lo + count) s' := by
  induction count with
  | zero => intro lo s h0 _; exact ⟨s, rfl, by simpa using h0⟩
  | succ c ih =>
    intro lo s h0 hstep
    obtain ⟨s1, hb, h1⟩ := hstep lo s (le_refl _) (by omega) h0
    obtain ⟨s2, hr, h2⟩ := ih (lo + 1) s1 h1 (fun i t hi hlt hP =>
      hstep i t (by omega) (by omega) hP)
    refine ⟨s2, ?_, ?_⟩
    · simp only [forRange, hb]; exact hr
    · have : lo + (c + 1) = lo + 1 + c := by omega
      rw [this]; exact h2

/-- A loop that stores `g i` at position `i` for every `i` fills the block. -/
theorem forRange_fill {α : Type} (g : Nat → α) (l : List α) :
    forRange (fun i f => writeAt f i (g i)) 0 l.length l = .ok ((List.range l.length).map g) := by
  obtain ⟨f, hf, hlen, hget⟩ := forRange_inv (fun i f => writeAt f i (g i))
    (fun i f => f.length = l.length ∧ ∀ p, p < i → f[p]? = some (g p)) l.length 0 l
    ⟨rfl, fun p hp => absurd hp (Nat.not_lt_zero p)⟩
    (fun i f _ hi hP => by
      obtain ⟨hl, hg⟩ := hP
      refine ⟨f.set i (g i), writeAt_natCast f i (g i) (by omega), by simp [hl], ?_⟩
      intro p hp
      rcases Nat.lt_or_ge p i with h | h
      · rw [List.getElem?_set_ne (by omega)]; exact hg p h
      · have : p = i := by omega
        subst this
        exact List.getElem?_set_self (by omega))
  rw [hf]
  congr 1
  apply List.ext_getElem?
  intro p
  rcases Nat.lt_or_ge p l.length with h | h
  · rw [hget p (by omega)]
    simp [List.getElem?_map, List.getElem?_range h]
  · rw [List.getElem?_eq_none (by omega), List.getElem?_eq_none (by simpa using h)]

theorem initFeature2D_eq {D : Type} (featureMatrix : List D) (noOfSamples noOfFeatures : Int) :
    initFeature2D featureMatrix noOfSamples noOfFeatures
      = .ok ((List.range noOfFeatures.toNat).map (column featureMatrix noOfSamples)) := by
  have h := forRange_fill (column featureMatrix noOfSamples)
    (List.replicate noOfFeatures.toNat ([] : List D))
  simpa [initFeature2D] using h

theorem initMatrix_eq {D : Type} (ops : DoubleOps D) (sizeOfMatrix : Int) :
    initMatrix ops sizeOfMatrix = .ok (List.replicate sizeOfMatrix.toNat ops.negOne) := by
  have h := forRange_fill (fun _ => ops.negOne) (List.replicate sizeOfMatrix.toNat ops.zero)
  simp only [List.length_replicate] at h
  rw [initMatrix, h]
  congr 1
  apply List.ext_getElem?
  intro p
  rcases Nat.lt_or_ge p sizeOfMatrix.toNat with hp | hp
  · simp [List.getElem?_map, List.getElem?_range hp, List.getElem?_replicate, hp]
  · rw [List.getElem?_eq_none (by simpa using hp), List.getElem?_eq_none (by simpa using hp)]

theorem finalize_eq (K : Nat) (out : List Int) (h : out.length = K) :
    finalize (K : Int) out = .ok (out.map (fun v => v + 1)) := by
  obtain ⟨f, hf, hlen, hget⟩ := forRange_inv
    (fun (i : Nat) (o : List Int) => (do
      let v ← readAt o i
      writeAt o i (v + 1) : Except Fault (List Int)))
    (fun i f => f.length = K ∧ ∀ p, f[p]? = if p < i then (out[p]?).map (fun v => v + 1) else out[p]?)
    K 0 out ⟨h, fun p => by simp⟩
    (fun i f _ hi hP => by
      obtain ⟨hl, hg⟩ := hP
      have hi' : i < out.length := by omega
      have hfi : f[i]? = some out[i] := by
        rw [hg i]; simp [List.getElem?_eq_getElem hi']
      refine ⟨f.set i (out[i] + 1), ?_, by simp [hl], ?_⟩
      · show (readAt f (i : Int) >>= fun v => writeAt f (i : Int) (v + 1)) = _
        rw [readAt_natCast f i _ hfi, bind_ok]
        exact writeAt_natCast f i _ (by omega)
      · intro p
        rw [List.getElem?_set]
        by_cases hpi : i = p
        · subst hpi
          simp [hl, (by omega : i < K), List.getElem?_eq_getElem hi']
        · simp only [hpi, if_false, hg p]
          by_cases hp : p < i
          · simp [hp, (by omega : p < i + 1)]
          · rw [if_neg hp, if_neg (by omega : ¬ p < i + 1)])
  simp only [finalize, Int.toNat_natCast]
  rw [hf]
  congr 1
  apply List.ext_getElem?
  intro p
  rw [hget p, List.getElem?_map]
  by_cases hp : p < 0 + K
  · rw [if_pos hp]
  · rw [if_neg hp, List.getElem?_eq_none (by omega : out.length ≤ p)]; rfl


/-! ### The seed step -/

theorem feature2D_get {D : Type} (featureMatrix : List D) (noOfSamples : Int) (N j : Nat)
    (h : j < N) :
    ((List.range N).map (column featureMatrix noOfSamples))[j]?
      = some (column featureMatrix noOfSamples j) := by
  simp [List.getElem?_map, List.getElem?_range h]

theorem seedScan_bounds {D : Type} (ops : DoubleOps D) (col : Collaborators D) (noOfSamples : Int)
    (featureMatrix classColumn : List D) (i : Nat) :
    -1 ≤ (seedScan ops col noOfSamples featureMatrix classColumn i).2 ∧
    (seedScan ops col noOfSamples featureMatrix classColumn i).2 < i := by
  induction i with
  | zero => simp [seedScan]
  | succ i ih =>
    simp only [seedScan]
    split
    · constructor <;> push_cast <;> omega
    · constructor
      · exact ih.1
      · push_cast; omega

theorem seedLoop_eq {D : Type} (ops : DoubleOps D) (col : Collaborators D)
    (noOfSamples noOfFeatures : Int) (featureMatrix classColumn : List D) :
    seedLoop ops col noOfSamples noOfFeatures
        ((List.range noOfFeatures.toNat).map (column featureMatrix noOfSamples)) classColumn
      = .ok { classMI := (List.range noOfFeatures.toNat).map
                (classMIOf col noOfSamples featureMatrix classColumn),
              maxMI := (seedScan ops col noOfSamples featureMatrix classColumn
                noOfFeatures.toNat).1,
              maxMICounter := seedIndex ops col noOfSamples noOfFeatures featureMatrix
                classColumn } := by
  generalize hN : noOfFeatures.toNat = N
  obtain ⟨s, hs, hlen, hget, hscan⟩ := forRange_inv
    (seedBody ops col noOfSamples
      ((List.range N).map (column featureMatrix noOfSamples)) classColumn)
    (fun i s => s.classMI.length = N ∧
      (∀ p, p < i → s.classMI[p]? = some (classMIOf col noOfSamples featureMatrix classColumn p)) ∧
      (s.maxMI, s.maxMICounter) = seedScan ops col noOfSamples featureMatrix classColumn i)
    N 0 { classMI := List.replicate N ops.zero, maxMI := ops.zero, maxMICounter := -1 }
    ⟨by simp, fun p hp => absurd hp (Nat.not_lt_zero p), rfl⟩
    (fun i s _ hi hP => by
      obtain ⟨hl, hg, hsc⟩ := hP
      have hi' : i < N := by omega
      simp only [seedBody]
      rw [readAt_natCast _ i _ (feature2D_get featureMatrix noOfSamples N i hi'), bind_ok,
        writeAt_natCast _ i _ (by omega), bind_ok,
        readAt_natCast _ i _ (List.getElem?_set_self (by omega)), bind_ok]
      have h1 : s.maxMI = (seedScan ops col noOfSamples featureMatrix classColumn i).1 := by
        rw [← hsc]
      have h2 : s.maxMICounter = (seedScan ops col noOfSamples featureMatrix classColumn i).2 := by
        rw [← hsc]
      have hcl : ∀ p, p < i + 1 →
          (s.classMI.set i (col.calculateMutualInformation (column featureMatrix noOfSamples i)
            classColumn noOfSamples))[p]?
            = some (classMIOf col noOfSamples featureMatrix classColumn p) := by
        intro p hp
        rcases Nat.lt_or_ge p i with h | h
        · rw [List.getElem?_set_ne (by omega)]; exact hg p h
        · have : p = i := by omega
          subst this
          rw [List.getElem?_set_self (by omega)]; rfl
      by_cases hgt : ops.gt (col.calculateMutualInformation (column featureMatrix noOfSamples i)
          classColumn noOfSamples) s.maxMI = true
      · rw [if_pos hgt]
        refine ⟨_, rfl, by simp [hl], hcl, ?_⟩
        rw [h1] at hgt
        simp only [seedScan, classMIOf, hgt, if_true]
      · rw [if_neg hgt]
        refine ⟨_, rfl, by simp [hl], hcl, ?_⟩
        rw [h1] at hgt
        simp only [seedScan, classMIOf, hgt]
        simpa using hsc)
  simp only [seedLoop, seedIndex, hN]
  rw [hs]
  congr 1
  have hcm : s.classMI = (List.range N).map (classMIOf col noOfSamples featureMatrix classColumn) := by
    apply List.ext_getElem?
    intro p
    rcases Nat.lt_or_ge p N with h | h
    · rw [hget p (by omega)]
      simp [List.getElem?_map, List.getElem?_range h]
    · rw [List.getElem?_eq_none (by omega), List.getElem?_eq_none (by simpa using h)]
  have h1 : s.maxMI = (seedScan ops col noOfSamples featureMatrix classColumn N).1 := by
    have := congrArg Prod.fst hscan; simpa using this
  have h2 : s.maxMICounter = (seedScan ops col noOfSamples featureMatrix classColumn N).2 := by
    have := congrArg Prod.snd hscan; simpa using this
  cases s
  simp only at hcm h1 h2
  subst hcm h1 h2
  rfl


/-! ### One round -/

theorem pure_bind_eq {α β : Type} (a : α) (f : α → Except Fault β) :
    ((pure a : Except Fault α) >>= f) = f a := rfl

theorem cell_index (N x j : Nat) (hj : j < N) :
    (x * N + j) / N = x ∧ (x * N + j) % N = j := by
  have hN : 0 < N := by omega
  constructor
  · rw [Nat.add_comm, Nat.add_mul_div_right _ _ hN, Nat.div_eq_of_lt hj, Nat.zero_add]
  · rw [Nat.add_comm, Nat.add_mul_mod_self_right, Nat.mod_eq_of_lt hj]

theorem totalScore_take_succ {D : Type} (ops : DoubleOps D) (col : Collaborators D)
    (noOfSamples : Int) (featureMatrix classColumn : List D) (outs : List Nat) (j x sx : Nat)
    (h : outs[x]? = some sx) :
    totalScore ops col noOfSamples featureMatrix classColumn (outs.take (x + 1)) j
      = ops.add (totalScore ops col noOfSamples featureMatrix classColumn (outs.take x) j)
          (relevance ops col noOfSamples featureMatrix classColumn sx j) := by
  simp [totalScore, List.take_succ, h, List.foldl_append]

theorem pairLoop_eq {D : Type} (ops : DoubleOps D) (col : Collaborators D)
    (noOfSamples : Int) (featureMatrix classColumn : List D) (N K size : Nat)
    (outs : List Nat) (sel : List Nat) (out : List Int) (fmm : List D) (j : Nat)
    (hso : SelOutOK N K outs sel out) (hsize : outs.length * N ≤ size) (hj : j < N)
    (hc : CacheOK ops col noOfSamples featureMatrix classColumn N size outs fmm) :
    ∃ fmm', forRange
        (pairBody ops col noOfSamples (N : Int)
          ((List.range N).map (column featureMatrix noOfSamples)) classColumn out j)
        0 outs.length { featureMIMatrix := fmm, currentScore := ops.zero }
      = .ok { featureMIMatrix := fmm',
              currentScore := totalScore ops col noOfSamples featureMatrix classColumn outs j } ∧
      CacheOK ops col noOfSamples featureMatrix classColumn N size outs fmm' := by
  obtain ⟨hsl, hsg, hol, hog, hlt, hlen⟩ := hso
  obtain ⟨s, hs, hcache, hscore⟩ := forRange_inv
    (pairBody ops col noOfSamples (N : Int)
      ((List.range N).map (column featureMatrix noOfSamples)) classColumn out j)
    (fun x s => CacheOK ops col noOfSamples featureMatrix classColumn N size outs s.featureMIMatrix ∧
      s.currentScore = totalScore ops col noOfSamples featureMatrix classColumn (outs.take x) j)
    outs.length 0 { featureMIMatrix := fmm, currentScore := ops.zero }
    ⟨hc, by simp [totalScore]⟩
    (fun x s _ hx hP => by
      obtain ⟨⟨hfl, hfc⟩, hsc⟩ := hP
      have hx' : x < outs.length := by omega
      obtain ⟨sx, hsx⟩ : ∃ sx, outs[x]? = some sx := ⟨_, List.getElem?_eq_getElem hx'⟩
      have hsxN : sx < N := hlt _ (List.getElem?_mem hsx)
      have hpos : (x : Int) * (N : Int) + (j : Int) = ((x * N + j : Nat) : Int) := by
        push_cast; rfl
      have hp : x * N + j < size := by
        have : (x + 1) * N ≤ outs.length * N := Nat.mul_le_mul_right N hx'
        have h2 : (x + 1) * N = x * N + N := by ring
        omega
      obtain ⟨hdiv, hmod⟩ := cell_index N x j hj
      obtain ⟨c, hcell⟩ : ∃ c, s.featureMIMatrix[x * N + j]? = some c :=
        ⟨_, List.getElem?_eq_getElem (by omega)⟩
      simp only [pairBody]
      rw [hpos, readAt_natCast _ _ _ hcell, bind_ok]
      by_cases heq : ops.eq c ops.negOne = true
      · rw [if_pos heq, readAt_natCast _ x _ (hog x _ hsx), bind_ok,
          readAt_natCast _ _ _ (feature2D_get featureMatrix noOfSamples N _ hsxN), bind_ok,
          readAt_natCast _ j _ (feature2D_get featureMatrix noOfSamples N j hj), bind_ok,
          writeAt_natCast _ _ _ (by omega), bind_ok,
          readAt_natCast _ _ _ (List.getElem?_set_self (by omega)), bind_ok]
        refine ⟨_, rfl, ⟨by simp [hfl], ?_⟩, ?_⟩
        · intro p hpp
          by_cases hpe : x * N + j = p
          · subst hpe
            right
            refine ⟨sx, by rw [hdiv]; exact hsx, ?_⟩
            rw [List.getElem?_set_self (by omega), hmod]
            rfl
          · simp only [List.getElem?_set_ne hpe]
            exact hfc p hpp
        · show ops.add s.currentScore _ = _
          rw [totalScore_take_succ ops col noOfSamples featureMatrix classColumn outs j x _ hsx, hsc]
          rfl
      · rw [if_neg heq, pure_bind_eq, readAt_natCast _ _ _ hcell, bind_ok]
        refine ⟨_, rfl, ⟨hfl, hfc⟩, ?_⟩
        show ops.add s.currentScore _ = _
        rw [totalScore_take_succ ops col noOfSamples featureMatrix classColumn outs j x _ hsx, hsc]
        rcases hfc _ hp with h | ⟨sx', h1, h2⟩
        · rw [hcell] at h
          injection h with h
          rw [h, ops.eq_negOne] at heq
          exact absurd rfl heq
        · rw [hdiv, hsx] at h1
          injection h1 with h1
          rw [hcell, hmod] at h2
          injection h2 with h2
          rw [h2, h1])
  refine ⟨s.featureMIMatrix, ?_, hcache⟩
  rw [hs]
  simp only [Nat.zero_add, List.take_length] at hscore
  rw [← hscore]


theorem pickScan_bounds {D : Type} (ops : DoubleOps D) (col : Collaborators D) (noOfSamples : Int)
    (featureMatrix classColumn : List D) (outs : List Nat) (j : Nat) :
    0 ≤ (pickScan ops col noOfSamples featureMatrix classColumn outs j).2 ∧
    ((pickScan ops col noOfSamples featureMatrix classColumn outs j).2 < j ∨
     (pickScan ops col noOfSamples featureMatrix classColumn outs j).2 = 0) := by
  induction j with
  | zero => simp [pickScan]
  | succ j ih =>
    have hstep : ∀ c : Int, (0 ≤ c ∧ (c < j ∨ c = 0)) → (0 ≤ c ∧ (c < ((j + 1 : Nat) : Int) ∨ c = 0)) := by
      intro c hc
      refine ⟨hc.1, ?_⟩
      rcases hc.2 with h | h
      · left; push_cast; omega
      · right; exact h
    simp only [pickScan]
    split
    · exact hstep _ ih
    · split
      · constructor
        · exact Int.natCast_nonneg j
        · left; push_cast; omega
      · exact hstep _ ih

theorem pick_lt {D : Type} (ops : DoubleOps D) (col : Collaborators D) (noOfSamples : Int)
    (featureMatrix classColumn : List D) (outs : List Nat) (N : Nat) (hN : 0 < N) :
    pick ops col noOfSamples (N : Int) featureMatrix classColumn outs < N ∧
    (pickScan ops col noOfSamples featureMatrix classColumn outs N).2
      = ((pick ops col noOfSamples (N : Int) featureMatrix classColumn outs : Nat) : Int) := by
  have h := pickScan_bounds ops col noOfSamples featureMatrix classColumn outs N
  simp only [pick, Int.toNat_natCast]
  constructor
  · rcases h.2 with h2 | h2 <;> omega
  · omega

theorem featureLoop_eq {D : Type} (ops : DoubleOps D) (col : Collaborators D)
    (noOfSamples : Int) (featureMatrix classColumn : List D) (N K size : Nat)
    (outs : List Nat) (sel : List Nat) (out : List Int) (fmm : List D)
    (hso : SelOutOK N K outs sel out) (hsize : outs.length * N ≤ size)
    (hc : CacheOK ops col noOfSamples featureMatrix classColumn N size outs fmm) :
    ∃ fmm', forRange
        (featureBody ops col noOfSamples (N : Int)
          ((List.range N).map (column featureMatrix noOfSamples)) classColumn sel out outs.length)
        0 N { featureMIMatrix := fmm, score := ops.zero, currentHighestFeature := 0 }
      = .ok { featureMIMatrix := fmm',
              score := (pickScan ops col noOfSamples featureMatrix classColumn outs N).1,
              currentHighestFeature :=
                (pickScan ops col noOfSamples featureMatrix classColumn outs N).2 } ∧
      CacheOK ops col noOfSamples featureMatrix classColumn N size outs fmm' := by
  obtain ⟨s, hs, hcache, hscan⟩ := forRange_inv
    (featureBody ops col noOfSamples (N : Int)
      ((List.range N).map (column featureMatrix noOfSamples)) classColumn sel out outs.length)
    (fun j s => CacheOK ops col noOfSamples featureMatrix classColumn N size outs s.featureMIMatrix ∧
      (s.score, s.currentHighestFeature)
        = pickScan ops col noOfSamples featureMatrix classColumn outs j)
    N 0 { featureMIMatrix := fmm, score := ops.zero, currentHighestFeature := 0 }
    ⟨hc, rfl⟩
    (fun j s _ hj hP => by
      obtain ⟨hca, hsc⟩ := hP
      have hj' : j < N := by omega
      have h1 : s.score = (pickScan ops col noOfSamples featureMatrix classColumn outs j).1 := by
        rw [← hsc]
      simp only [featureBody]
      rw [readAt_natCast _ j _ (hso.2.1 j hj'), bind_ok]
      by_cases hmem : j ∈ outs
      · rw [if_pos hmem, if_neg (by decide)]
        refine ⟨s, rfl, hca, ?_⟩
        rw [hsc]
        simp only [pickScan, if_pos hmem]
      · rw [if_neg hmem, if_pos rfl]
        obtain ⟨fmm', hp, hca'⟩ := pairLoop_eq ops col noOfSamples featureMatrix classColumn
          N K size outs sel out s.featureMIMatrix j hso hsize hj' hca
        rw [hp, bind_ok]
        by_cases hgt : ops.gt (totalScore ops col noOfSamples featureMatrix classColumn outs j)
            s.score = true
        · rw [if_pos hgt]
          refine ⟨_, rfl, hca', ?_⟩
          rw [h1] at hgt
          simp only [pickScan, if_neg hmem, hgt, if_true]
        · rw [if_neg hgt]
          refine ⟨_, rfl, hca', ?_⟩
          rw [h1] at hgt
          simp only [pickScan, if_neg hmem, hgt]
          simpa using hsc)
  refine ⟨s.featureMIMatrix, ?_, hcache⟩
  rw [hs]
  simp only [Nat.zero_add] at hscan
  have h1 := congrArg Prod.fst hscan
  have h2 := congrArg Prod.snd hscan
  simp only at h1 h2
  rw [← h1, ← h2]

theorem selOutOK_snoc (N K : Nat) (outs : List Nat) (sel : List Nat) (out : List Int) (c : Nat)
    (hso : SelOutOK N K outs sel out) (hc : c < N) (hK : outs.length < K) :
    SelOutOK N K (outs ++ [c]) (sel.set c 1) (out.set outs.length (c : Int)) := by
  obtain ⟨hsl, hsg, hol, hog, hlt, hlen⟩ := hso
  refine ⟨by simp [hsl], ?_, by simp [hol], ?_, ?_, by simp; omega⟩
  · intro j hj
    by_cases hjc : c = j
    · subst hjc
      rw [List.getElem?_set_self (by omega)]
      simp
    · rw [List.getElem?_set_ne hjc, hsg j hj]
      have : (j ∈ outs ++ [c]) ↔ j ∈ outs := by
        simp only [List.mem_append, List.mem_singleton]
        constructor
        · rintro (h | h)
          · exact h
          · exact absurd h.symm hjc
        · intro h; exact Or.inl h
      simp only [this]
  · intro x sx hx
    rcases Nat.lt_trichotomy x outs.length with h | h | h
    · rw [List.getElem?_append_left h] at hx
      rw [List.getElem?_set_ne (by omega)]
      exact hog x sx hx
    · subst h
      rw [List.getElem?_concat_length] at hx
      injection hx with hx
      subst hx
      exact List.getElem?_set_self (by omega)
    · rw [List.getElem?_eq_none (by simp; omega)] at hx
      exact absurd hx (by simp)
  · intro sx hsx
    simp only [List.mem_append, List.mem_singleton] at hsx
    rcases hsx with h | h
    · exact hlt sx h
    · omega

theorem cacheOK_snoc {D : Type} (ops : DoubleOps D) (col : Collaborators D)
    (noOfSamples : Int) (featureMatrix classColumn : List D) (N size : Nat)
    (outs : List Nat) (fmm : List D) (c : Nat)
    (hc : CacheOK ops col noOfSamples featureMatrix classColumn N size outs fmm) :
    CacheOK ops col noOfSamples featureMatrix classColumn N size (outs ++ [c]) fmm := by
  refine ⟨hc.1, fun p hp => ?_⟩
  rcases hc.2 p hp with h | ⟨sx, h1, h2⟩
  · exact Or.inl h
  · refine Or.inr ⟨sx, ?_, h2⟩
    have hlt : p / N < outs.length := by
      rcases Nat.lt_or_ge (p / N) outs.length with h | h
      · exact h
      · rw [List.getElem?_eq_none h] at h1
        exact absurd h1 (by simp)
    rw [List.getElem?_append_left hlt]
    exact h1

theorem roundBody_eq {D : Type} (ops : DoubleOps D) (col : Collaborators D)
    (noOfSamples : Int) (featureMatrix classColumn : List D) (N K : Nat)
    (outs : List Nat) (m : Mem D) (hN : 0 < N) (hK : outs.length < K)
    (hso : SelOutOK N K outs m.selectedFeatures m.outputFeatures)
    (hc : CacheOK ops col noOfSamples featureMatrix classColumn N (K * N) outs
      m.featureMIMatrix) :
    ∃ m', roundBody ops col noOfSamples (N : Int)
        ((List.range N).map (column featureMatrix noOfSamples)) classColumn outs.length m
      = .ok m' ∧
      SelOutOK N K (outs ++ [pick ops col noOfSamples (N : Int) featureMatrix classColumn outs])
        m'.selectedFeatures m'.outputFeatures ∧
      CacheOK ops col noOfSamples featureMatrix classColumn N (K * N)
        (outs ++ [pick ops col noOfSamples (N : Int) featureMatrix classColumn outs])
        m'.featureMIMatrix := by
  have hsize : outs.length * N ≤ K * N := Nat.mul_le_mul_right N (by omega)
  obtain ⟨fmm', hf, hca⟩ := featureLoop_eq ops col noOfSamples featureMatrix classColumn N K
    (K * N) outs m.selectedFeatures m.outputFeatures m.featureMIMatrix hso hsize hc
  obtain ⟨hpl, hpe⟩ := pick_lt ops col noOfSamples featureMatrix classColumn outs N hN
  simp only [roundBody, Int.toNat_natCast]
  rw [hf, bind_ok]
  simp only [hpe]
  rw [writeAt_natCast _ _ _ (by rw [hso.1]; exact hpl), bind_ok,
    writeAt_natCast _ _ _ (by rw [hso.2.2.1]; exact hK), bind_ok]
  exact ⟨_, rfl, selOutOK_snoc N K outs _ _ _ hso hpl hK,
    cacheOK_snoc ops col noOfSamples featureMatrix classColumn N (K * N) outs fmm' _ hca⟩


/-! ### The whole run -/

theorem selectSeq_length {D : Type} (ops : DoubleOps D) (col : Collaborators D)
    (noOfSamples noOfFeatures : Int) (featureMatrix classColumn : List D) (r : Nat) :
    (selectSeq ops col noOfSamples noOfFeatures featureMatrix classColumn r).length = r + 1 := by
  induction r with
  | zero => rfl
  | succ r ih => simp [selectSeq, ih]

theorem seedIndex_lt {D : Type} (ops : DoubleOps D) (col : Collaborators D)
    (noOfSamples noOfFeatures : Int) (featureMatrix classColumn : List D) :
    -1 ≤ seedIndex ops col noOfSamples noOfFeatures featureMatrix classColumn ∧
    seedIndex ops col noOfSamples noOfFeatures featureMatrix classColumn < noOfFeatures.toNat :=
  seedScan_bounds ops col noOfSamples featureMatrix classColumn noOfFeatures.toNat

theorem seedPhase_ok {D : Type} (ops : DoubleOps D) (col : Collaborators D)
    (k noOfSamples noOfFeatures : Int) (featureMatrix classColumn : List D)
    (hk : 1 ≤ k) (hc : 0 ≤ seedIndex ops col noOfSamples noOfFeatures featureMatrix classColumn) :
    seedPhase ops col k noOfSamples noOfFeatures featureMatrix classColumn
      = .ok ((List.range noOfFeatures.toNat).map (column featureMatrix noOfSamples),
          { classMI := (List.range noOfFeatures.toNat).map
              (classMIOf col noOfSamples featureMatrix classColumn),
            maxMI := (seedScan ops col noOfSamples featureMatrix classColumn
              noOfFeatures.toNat).1,
            maxMICounter := seedIndex ops col noOfSamples noOfFeatures featureMatrix
              classColumn },
          seedMem ops col k noOfSamples noOfFeatures featureMatrix classColumn) := by
  have hlt := (seedIndex_lt ops col noOfSamples noOfFeatures featureMatrix classColumn).2
  simp only [seedPhase]
  rw [initFeature2D_eq, bind_ok, initMatrix_eq, bind_ok, seedLoop_eq, bind_ok]
  simp only []
  have hw1 : writeAt (List.replicate noOfFeatures.toNat 0)
      (seedIndex ops col noOfSamples noOfFeatures featureMatrix classColumn) 1
      = .ok ((List.replicate noOfFeatures.toNat 0).set
          (seedIndex ops col noOfSamples noOfFeatures featureMatrix classColumn).toNat 1) := by
    simp only [writeAt, List.length_replicate]
    rw [if_pos ⟨hc, by omega⟩]
  have hw2 : writeAt (List.replicate k.toNat (0 : Int)) 0
      (seedIndex ops col noOfSamples noOfFeatures featureMatrix classColumn)
      = .ok ((List.replicate k.toNat (0 : Int)).set 0
          (seedIndex ops col noOfSamples noOfFeatures featureMatrix classColumn)) := by
    simp only [writeAt, List.length_replicate]
    rw [if_pos ⟨le_refl _, by simp; omega⟩]
    rfl
  rw [hw1, bind_ok, hw2, bind_ok]
  rfl

theorem seedPhase_error {D : Type} (ops : DoubleOps D) (col : Collaborators D)
    (k noOfSamples noOfFeatures : Int) (featureMatrix classColumn : List D)
    (h : ¬ (1 ≤ k ∧ 0 ≤ seedIndex ops col noOfSamples noOfFeatures featureMatrix classColumn)) :
    seedPhase ops col k noOfSamples noOfFeatures featureMatrix classColumn
      = .error .outOfBounds := by
  have hlt := (seedIndex_lt ops col noOfSamples noOfFeatures featureMatrix classColumn).2
  simp only [seedPhase]
  rw [initFeature2D_eq, bind_ok, initMatrix_eq, bind_ok, seedLoop_eq, bind_ok]
  simp only []
  by_cases hc : 0 ≤ seedIndex ops col noOfSamples noOfFeatures featureMatrix classColumn
  · have hk : ¬ 1 ≤ k := fun hk => h ⟨hk, hc⟩
    have hw1 : writeAt (List.replicate noOfFeatures.toNat 0)
        (seedIndex ops col noOfSamples noOfFeatures featureMatrix classColumn) 1
        = .ok ((List.replicate noOfFeatures.toNat 0).set
            (seedIndex ops col noOfSamples noOfFeatures featureMatrix classColumn).toNat 1) := by
      simp only [writeAt, List.length_replicate]
      rw [if_pos ⟨hc, by omega⟩]
    have hk0 : k.toNat = 0 := by omega
    rw [hw1, bind_ok, hk0]
    simp only [List.replicate_zero, writeAt_nil]
    rfl
  · rw [writeAt_neg _ _ _ (by omega)]
    rfl

theorem seedMem_ok {D : Type} (ops : DoubleOps D) (col : Collaborators D)
    (noOfSamples : Int) (featureMatrix classColumn : List D) (N K : Nat) (hK : 1 ≤ K)
    (hc : 0 ≤ seedIndex ops col noOfSamples (N : Int) featureMatrix classColumn) :
    SelOutOK N K (selectSeq ops col noOfSamples (N : Int) featureMatrix classColumn 0)
      (seedMem ops col (K : Int) noOfSamples (N : Int) featureMatrix classColumn).selectedFeatures
      (seedMem ops col (K : Int) noOfSamples (N : Int) featureMatrix classColumn).outputFeatures ∧
    CacheOK ops col noOfSamples featureMatrix classColumn N (K * N)
      (selectSeq ops col noOfSamples (N : Int) featureMatrix classColumn 0)
      (seedMem ops col (K : Int) noOfSamples (N : Int) featureMatrix classColumn).featureMIMatrix := by
  have hlt := (seedIndex_lt ops col noOfSamples (N : Int) featureMatrix classColumn).2
  simp only [Int.toNat_natCast] at hlt
  generalize hcv : seedIndex ops col noOfSamples (N : Int) featureMatrix classColumn = c at *
  obtain ⟨C, rfl⟩ := Int.eq_ofNat_of_zero_le hc
  have hCN : C < N := by omega
  have hKN : ((K : Int) * (N : Int)).toNat = K * N := by
    rw [← Nat.cast_mul, Int.toNat_natCast]
  simp only [seedMem, selectSeq, hcv, Int.toNat_natCast, hKN]
  refine ⟨⟨by simp, ?_, by simp, ?_, ?_, by simpa using hK⟩, by simp, ?_⟩
  · intro j hj
    by_cases hjc : C = j
    · subst hjc
      rw [List.getElem?_set_self (by simpa using hCN)]
      simp
    · rw [List.getElem?_set_ne hjc]
      have hne : ¬ j = C := fun h => hjc h.symm
      simp [List.getElem?_replicate, hj, hne]
  · intro x sx hx
    rcases Nat.eq_zero_or_pos x with h | h
    · subst h
      simp only [List.getElem?_cons_zero, Option.some.injEq] at hx
      subst hx
      exact List.getElem?_set_self (by simpa using hK)
    · rw [List.getElem?_eq_none (by simp; omega)] at hx
      exact absurd hx (by simp)
  · intro sx hsx
    simp only [List.mem_singleton] at hsx
    omega
  · intro p hp
    left
    simp [List.getElem?_replicate, hp]

theorem greedyRounds_eq {D : Type} (ops : DoubleOps D) (col : Collaborators D)
    (noOfSamples : Int) (featureMatrix classColumn : List D) (N K : Nat) (hK : 1 ≤ K)
    (hc : 0 ≤ seedIndex ops col noOfSamples (N : Int) featureMatrix classColumn) :
    ∃ m, greedyRounds ops col (K : Int) noOfSamples (N : Int)
        ((List.range N).map (column featureMatrix noOfSamples)) classColumn
        (seedMem ops col (K : Int) noOfSamples (N : Int) featureMatrix classColumn) = .ok m ∧
      m.outputFeatures
        = (selectSeq ops col noOfSamples (N : Int) featureMatrix classColumn (K - 1)).map
            (fun (s : Nat) => (s : Int)) := by
  have hlt := (seedIndex_lt ops col noOfSamples (N : Int) featureMatrix classColumn).2
  simp only [Int.toNat_natCast] at hlt
  have hN : 0 < N := by omega
  obtain ⟨h0a, h0b⟩ := seedMem_ok ops col noOfSamples featureMatrix classColumn N K hK hc
  obtain ⟨m, hm, hso, -⟩ := forRange_inv
    (roundBody ops col noOfSamples (N : Int)
      ((List.range N).map (column featureMatrix noOfSamples)) classColumn)
    (fun i m =>
      SelOutOK N K (selectSeq ops col noOfSamples (N : Int) featureMatrix classColumn (i - 1))
        m.selectedFeatures m.outputFeatures ∧
      CacheOK ops col noOfSamples featureMatrix classColumn N (K * N)
        (selectSeq ops col noOfSamples (N : Int) featureMatrix classColumn (i - 1))
        m.featureMIMatrix)
    (K - 1) 1 (seedMem ops col (K : Int) noOfSamples (N : Int) featureMatrix classColumn)
    ⟨h0a, h0b⟩
    (fun i m hi1 hi2 hP => by
      obtain ⟨hso, hca⟩ := hP
      have hlen := selectSeq_length ops col noOfSamples (N : Int) featureMatrix classColumn (i - 1)
      have hlen' : (selectSeq ops col noOfSamples (N : Int) featureMatrix classColumn
          (i - 1)).length = i := by omega
      obtain ⟨m', hm', hso', hca'⟩ := roundBody_eq ops col noOfSamples featureMatrix classColumn
        N K _ m hN (by omega) hso hca
      rw [hlen'] at hm'
      refine ⟨m', hm', ?_⟩
      have hsel : selectSeq ops col noOfSamples (N : Int) featureMatrix classColumn (i + 1 - 1)
          = selectSeq ops col noOfSamples (N : Int) featureMatrix classColumn (i - 1) ++
            [pick ops col noOfSamples (N : Int) featureMatrix classColumn
              (selectSeq ops col noOfSamples (N : Int) featureMatrix classColumn (i - 1))] := by
        obtain ⟨r, rfl⟩ : ∃ r, i = r + 1 := ⟨i - 1, by omega⟩
        simp only [Nat.add_sub_cancel, selectSeq]
      show SelOutOK N K (selectSeq ops col noOfSamples (N : Int) featureMatrix classColumn
          (i + 1 - 1)) m'.selectedFeatures m'.outputFeatures ∧
        CacheOK ops col noOfSamples featureMatrix classColumn N (K * N)
          (selectSeq ops col noOfSamples (N : Int) featureMatrix classColumn (i + 1 - 1))
          m'.featureMIMatrix
      rw [hsel]
      exact ⟨hso', hca'⟩)
  have hK1 : ((K : Int) - 1).toNat = K - 1 := by omega
  refine ⟨m, by simpa only [greedyRounds, hK1] using hm, ?_⟩
  have hK2 : 1 + (K - 1) - 1 = K - 1 := by omega
  rw [hK2] at hso
  obtain ⟨-, -, hol, hog, -, -⟩ := hso
  have hlen := selectSeq_length ops col noOfSamples (N : Int) featureMatrix classColumn (K - 1)
  apply List.ext_getElem?
  intro x
  rw [List.getElem?_map]
  rcases Nat.lt_or_ge x K with hx | hx
  · obtain ⟨sx, hsx⟩ : ∃ sx, (selectSeq ops col noOfSamples (N : Int) featureMatrix classColumn
        (K - 1))[x]? = some sx := ⟨_, List.getElem?_eq_getElem (by omega)⟩
    rw [hog x sx hsx]
    simp only [hsx, Option.map_some']
  · rw [List.getElem?_eq_none (by omega)]
    simp only [List.getElem?_eq_none (by omega : (selectSeq ops col noOfSamples (N : Int)
      featureMatrix classColumn (K - 1)).length ≤ x), Option.map_none']

/-- The function `DISR` computes `selection`: it faults when `k < 1` or when the
seed loop finds no index, and otherwise returns the seed followed by the picks
of the rounds, 1-based. -/
theorem DISR_eq_selection {D : Type} (ops : DoubleOps D) (col : Collaborators D)
    (k noOfSamples noOfFeatures : Int) (featureMatrix classColumn : List D) :
    DISR ops col k noOfSamples noOfFeatures featureMatrix classColumn
      = selection ops col k noOfSamples noOfFeatures featureMatrix classColumn := by
  by_cases h : 1 ≤ k ∧ 0 ≤ seedIndex ops col noOfSamples noOfFeatures featureMatrix classColumn
  · obtain ⟨hk, hc⟩ := h
    have hlt := (seedIndex_lt ops col noOfSamples noOfFeatures featureMatrix classColumn).2
    obtain ⟨K, rfl⟩ := Int.eq_ofNat_of_zero_le (by omega : 0 ≤ k)
    obtain ⟨N, rfl⟩ := Int.eq_ofNat_of_zero_le (by omega : 0 ≤ noOfFeatures)
    obtain ⟨m, hm, hout⟩ := greedyRounds_eq ops col noOfSamples featureMatrix classColumn N K
      (by omega) hc
    have hK1 : ((K : Int) - 1).toNat = K - 1 := by omega
    simp only [DISR, selection, if_pos (And.intro hk hc), hK1]
    rw [seedPhase_ok ops col _ _ _ _ _ hk hc, bind_ok]
    simp only [Int.toNat_natCast]
    rw [hm, bind_ok, hout, finalize_eq K _ (by
      rw [List.length_map, selectSeq_length]; omega)]
    simp [List.map_map, Function.comp]
  · simp only [DISR, selection, if_neg h]
    rw [seedPhase_error ops col _ _ _ _ _ h]
    rfl



/-! ### The run without the cache -/

theorem pairLoopUncached_eq {D : Type} (ops : DoubleOps D) (col : Collaborators D)
    (noOfSamples : Int) (featureMatrix classColumn : List D) (N K : Nat)
    (outs : List Nat) (sel : List Nat) (out : List Int) (j : Nat)
    (hso : SelOutOK N K outs sel out) (hj : j < N) :
    forRange
        (pairBodyUncached ops col noOfSamples
          ((List.range N).map (column featureMatrix noOfSamples)) classColumn out j)
        0 outs.length ops.zero
      = .ok (totalScore ops col noOfSamples featureMatrix classColumn outs j) := by
  obtain ⟨hsl, hsg, hol, hog, hlt, hlen⟩ := hso
  obtain ⟨s, hs, hscore⟩ := forRange_inv
    (pairBodyUncached ops col noOfSamples
      ((List.range N).map (column featureMatrix noOfSamples)) classColumn out j)
    (fun x s => s = totalScore ops col noOfSamples featureMatrix classColumn (outs.take x) j)
    outs.length 0 ops.zero (by simp [totalScore])
    (fun x s _ hx hP => by
      have hx' : x < outs.length := by omega
      obtain ⟨sx, hsx⟩ : ∃ sx, outs[x]? = some sx := ⟨_, List.getElem?_eq_getElem hx'⟩
      have hsxN : sx < N := hlt _ (List.getElem?_mem hsx)
      simp only [pairBodyUncached]
      rw [readAt_natCast _ x _ (hog x _ hsx), bind_ok,
        readAt_natCast _ _ _ (feature2D_get featureMatrix noOfSamples N _ hsxN), bind_ok,
        readAt_natCast _ j _ (feature2D_get featureMatrix noOfSamples N j hj), bind_ok]
      refine ⟨_, rfl, ?_⟩
      rw [totalScore_take_succ ops col noOfSamples featureMatrix classColumn outs j x _ hsx, hP]
      rfl)
  rw [hs, hscore]
  simp only [Nat.zero_add, List.take_length]

theorem featureLoopUncached_eq {D : Type} (ops : DoubleOps D) (col : Collaborators D)
    (noOfSamples : Int) (featureMatrix classColumn : List D) (N K : Nat)
    (outs : List Nat) (sel : List Nat) (out : List Int)
    (hso : SelOutOK N K outs sel out) :
    forRange
        (featureBodyUncached ops col noOfSamples
          ((List.range N).map (column featureMatrix noOfSamples)) classColumn sel out outs.length)
        0 N (ops.zero, 0)
      = .ok (pickScan ops col noOfSamples featureMatrix classColumn outs N) := by
  obtain ⟨s, hs, hscan⟩ := forRange_inv
    (featureBodyUncached ops col noOfSamples
      ((List.range N).map (column featureMatrix noOfSamples)) classColumn sel out outs.length)
    (fun j s => s = pickScan ops col noOfSamples featureMatrix classColumn outs j)
    N 0 (ops.zero, 0) rfl
    (fun j s _ hj hP => by
      have hj' : j < N := by omega
      simp only [featureBodyUncached]
      rw [readAt_natCast _ j _ (hso.2.1 j hj'), bind_ok]
      by_cases hmem : j ∈ outs
      · rw [if_pos hmem, if_neg (by decide)]
        refine ⟨s, rfl, ?_⟩
        rw [hP]
        simp only [pickScan, if_pos hmem]
      · rw [if_neg hmem, if_pos rfl,
          pairLoopUncached_eq ops col noOfSamples featureMatrix classColumn N K outs sel out j
            hso hj', bind_ok]
        by_cases hgt : ops.gt (totalScore ops col noOfSamples featureMatrix classColumn outs j)
            s.1 = true
        · rw [if_pos hgt]
          refine ⟨_, rfl, ?_⟩
          rw [hP] at hgt
          simp only [pickScan, if_neg hmem, hgt, if_true]
        · rw [if_neg hgt]
          refine ⟨_, rfl, ?_⟩
          rw [hP] at hgt
          simp only [pickScan, if_neg hmem, hgt]
          simpa using hP)
  rw [hs, hscan, Nat.zero_add]

theorem roundBodyUncached_eq {D : Type} (ops : DoubleOps D) (col : Collaborators D)
    (noOfSamples : Int) (featureMatrix classColumn : List D) (N K : Nat)
    (outs : List Nat) (m : List Nat × List Int) (hN : 0 < N) (hK : outs.length < K)
    (hso : SelOutOK N K outs m.1 m.2) :
    ∃ m', roundBodyUncached ops col noOfSamples (N : Int)
        ((List.range N).map (column featureMatrix noOfSamples)) classColumn outs.length m
      = .ok m' ∧
      SelOutOK N K (outs ++ [pick ops col noOfSamples (N : Int) featureMatrix classColumn outs])
        m'.1 m'.2 := by
  obtain ⟨hpl, hpe⟩ := pick_lt ops col noOfSamples featureMatrix classColumn outs N hN
  simp only [roundBodyUncached, Int.toNat_natCast]
  rw [featureLoopUncached_eq ops col noOfSamples featureMatrix classColumn N K outs _ _ hso,
    bind_ok]
  simp only [hpe]
  rw [writeAt_natCast _ _ _ (by rw [hso.1]; exact hpl), bind_ok,
    writeAt_natCast _ _ _ (by rw [hso.2.2.1]; exact hK), bind_ok]
  exact ⟨_, rfl, selOutOK_snoc N K outs _ _ _ hso hpl hK⟩

theorem roundsUncached_eq {D : Type} (ops : DoubleOps D) (col : Collaborators D)
    (noOfSamples : Int) (featureMatrix classColumn : List D) (N K : Nat) (hK : 1 ≤ K)
    (hc : 0 ≤ seedIndex ops col noOfSamples (N : Int) featureMatrix classColumn) :
    ∃ m, forRange (roundBodyUncached ops col noOfSamples (N : Int)
        ((List.range N).map (column featureMatrix noOfSamples)) classColumn) 1 (K - 1)
        ((seedMem ops col (K : Int) noOfSamples (N : Int) featureMatrix classColumn).selectedFeatures,
         (seedMem ops col (K : Int) noOfSamples (N : Int) featureMatrix classColumn).outputFeatures)
        = .ok m ∧
      m.2 = (selectSeq ops col noOfSamples (N : Int) featureMatrix classColumn (K - 1)).map
            (fun (s : Nat) => (s : Int)) := by
  have hlt := (seedIndex_lt ops col noOfSamples (N : Int) featureMatrix classColumn).2
  simp only [Int.toNat_natCast] at hlt
  have hN : 0 < N := by omega
  obtain ⟨h0a, -⟩ := seedMem_ok ops col noOfSamples featureMatrix classColumn N K hK hc
  obtain ⟨m, hm, hso⟩ := forRange_inv
    (roundBodyUncached ops col noOfSamples (N : Int)
      ((List.range N).map (column featureMatrix noOfSamples)) classColumn)
    (fun i m =>
      SelOutOK N K (selectSeq ops col noOfSamples (N : Int) featureMatrix classColumn (i - 1))
        m.1 m.2)
    (K - 1) 1
    ((seedMem ops col (K : Int) noOfSamples (N : Int) featureMatrix classColumn).selectedFeatures,
     (seedMem ops col (K : Int) noOfSamples (N : Int) featureMatrix classColumn).outputFeatures)
    h0a
    (fun i m hi1 hi2 hP => by
      have hlen := selectSeq_length ops col noOfSamples (N : Int) featureMatrix classColumn (i - 1)
      have hlen' : (selectSeq ops col noOfSamples (N : Int) featureMatrix classColumn
          (i - 1)).length = i := by omega
      obtain ⟨m', hm', hso'⟩ := roundBodyUncached_eq ops col noOfSamples featureMatrix classColumn
        N K _ m hN (by omega) hP
      rw [hlen'] at hm'
      refine ⟨m', hm', ?_⟩
      have hsel : selectSeq ops col noOfSamples (N : Int) featureMatrix classColumn (i + 1 - 1)
          = selectSeq ops col noOfSamples (N : Int) featureMatrix classColumn (i - 1) ++
            [pick ops col noOfSamples (N : Int) featureMatrix classColumn
              (selectSeq ops col noOfSamples (N : Int) featureMatrix classColumn (i - 1))] := by
        obtain ⟨r, rfl⟩ : ∃ r, i = r + 1 := ⟨i - 1, by omega⟩
        simp only [Nat.add_sub_cancel, selectSeq]
      show SelOutOK N K (selectSeq ops col noOfSamples (N : Int) featureMatrix classColumn
          (i + 1 - 1)) m'.1 m'.2
      rw [hsel]
      exact hso')
  refine ⟨m, hm, ?_⟩
  have hK2 : 1 + (K - 1) - 1 = K - 1 := by omega
  rw [hK2] at hso
  obtain ⟨-, -, hol, hog, -, -⟩ := hso
  have hlen := selectSeq_length ops col noOfSamples (N : Int) featureMatrix classColumn (K - 1)
  apply List.ext_getElem?
  intro x
  rw [List.getElem?_map]
  rcases Nat.lt_or_ge x K with hx | hx
  · obtain ⟨sx, hsx⟩ : ∃ sx, (selectSeq ops col noOfSamples (N : Int) featureMatrix classColumn
        (K - 1))[x]? = some sx := ⟨_, List.getElem?_eq_getElem (by omega)⟩
    rw [hog x sx hsx]
    simp only [hsx, Option.map_some']
  · rw [List.getElem?_eq_none (by omega)]
    simp only [List.getElem?_eq_none (by omega : (selectSeq ops col noOfSamples (N : Int)
      featureMatrix classColumn (K - 1)).length ≤ x), Option.map_none']

/-- The variant without the cache computes `selection` as well. -/
theorem DISRUncached_eq_selection {D : Type} (ops : DoubleOps D) (col : Collaborators D)
    (k noOfSamples noOfFeatures : Int) (featureMatrix classColumn : List D) :
    DISRUncached ops col k noOfSamples noOfFeatures featureMatrix classColumn
      = selection ops col k noOfSamples noOfFeatures featureMatrix classColumn := by
  by_cases h : 1 ≤ k ∧ 0 ≤ seedIndex ops col noOfSamples noOfFeatures featureMatrix classColumn
  · obtain ⟨hk, hc⟩ := h
    have hlt := (seedIndex_lt ops col noOfSamples noOfFeatures featureMatrix classColumn).2
    obtain ⟨K, rfl⟩ := Int.eq_ofNat_of_zero_le (by omega : 0 ≤ k)
    obtain ⟨N, rfl⟩ := Int.eq_ofNat_of_zero_le (by omega : 0 ≤ noOfFeatures)
    obtain ⟨m, hm, hout⟩ := roundsUncached_eq ops col noOfSamples featureMatrix classColumn N K
      (by omega) hc
    have hK1 : ((K : Int) - 1).toNat = K - 1 := by omega
    simp only [DISRUncached, selection, if_pos (And.intro hk hc), hK1]
    rw [seedPhase_ok ops col _ _ _ _ _ hk hc, bind_ok]
    simp only [Int.toNat_natCast]
    rw [hm, bind_ok, hout, finalize_eq K _ (by
      rw [List.length_map, selectSeq_length]; omega)]
    simp [List.map_map, Function.comp]
  · simp only [DISRUncached, selection, if_neg h]
    rw [seedPhase_error ops col _ _ _ _ _ h]
    rfl


/-! ### Consequences of the closed form -/

theorem selectSeq_take {D : Type} (ops : DoubleOps D) (col : Collaborators D)
    (noOfSamples noOfFeatures : Int) (featureMatrix classColumn : List D) (r d : Nat) :
    (selectSeq ops col noOfSamples noOfFeatures featureMatrix classColumn (r + d)).take (r + 1)
      = selectSeq ops col noOfSamples noOfFeatures featureMatrix classColumn r := by
  induction d with
  | zero =>
    rw [Nat.add_zero]
    exact List.take_of_length_le (by rw [selectSeq_length])
  | succ d ih =>
    have h : r + (d + 1) = (r + d) + 1 := by omega
    rw [h]
    simp only [selectSeq]
    rw [List.take_append_of_le_length (by rw [selectSeq_length]; omega)]
    exact ih

theorem selectSeq_head {D : Type} (ops : DoubleOps D) (col : Collaborators D)
    (noOfSamples noOfFeatures : Int) (featureMatrix classColumn : List D) (r : Nat) :
    ∃ rest, selectSeq ops col noOfSamples noOfFeatures featureMatrix classColumn r
      = (seedIndex ops col noOfSamples noOfFeatures featureMatrix classColumn).toNat :: rest := by
  induction r with
  | zero => exact ⟨[], rfl⟩
  | succ r ih =>
    obtain ⟨rest, h⟩ := ih
    exact ⟨rest ++ [pick ops col noOfSamples noOfFeatures featureMatrix classColumn
      (selectSeq ops col noOfSamples noOfFeatures featureMatrix classColumn r)], by
      simp only [selectSeq]; rw [h]; rfl⟩

/-- The seed loop leaves `maxMICounter = -1` exactly when no `classMI[i]`
compares greater than `0.0`. -/
theorem seedScan_neg_iff {D : Type} (ops : DoubleOps D) (col : Collaborators D)
    (noOfSamples : Int) (featureMatrix classColumn : List D) (i : Nat) :
    ((seedScan ops col noOfSamples featureMatrix classColumn i).2 = -1 ↔
      ∀ p, p < i → ops.gt (classMIOf col noOfSamples featureMatrix classColumn p) ops.zero
        = false) ∧
    ((seedScan ops col noOfSamples featureMatrix classColumn i).2 = -1 →
      (seedScan ops col noOfSamples featureMatrix classColumn i).1 = ops.zero) := by
  induction i with
  | zero => simp [seedScan]
  | succ i ih =>
    obtain ⟨ih1, ih2⟩ := ih
    by_cases hneg : (seedScan ops col noOfSamples featureMatrix classColumn i).2 = -1
    · have hz := ih2 hneg
      have hall := ih1.mp hneg
      by_cases hgt : ops.gt (classMIOf col noOfSamples featureMatrix classColumn i) ops.zero = true
      · have hs : seedScan ops col noOfSamples featureMatrix classColumn (i + 1)
            = (classMIOf col noOfSamples featureMatrix classColumn i, (i : Int)) := by
          simp only [seedScan, hz, hgt, if_true]
        rw [hs]
        refine ⟨⟨fun h => absurd h (by simp only; omega), fun h => ?_⟩,
          fun h => absurd h (by simp only; omega)⟩
        have := h i (Nat.lt_succ_self i)
        rw [hgt] at this
        exact absurd this (by decide)
      · have hs : seedScan ops col noOfSamples featureMatrix classColumn (i + 1)
            = seedScan ops col noOfSamples featureMatrix classColumn i := by
          simp only [seedScan, hz, hgt]
          simp
        rw [hs]
        refine ⟨⟨fun _ p hp => ?_, fun _ => hneg⟩, ih2⟩
        rcases Nat.lt_or_ge p i with h | h
        · exact hall p h
        · have : p = i := by omega
          subst this
          simpa using hgt
    · have hnall : ¬ ∀ p, p < i →
          ops.gt (classMIOf col noOfSamples featureMatrix classColumn p) ops.zero = false :=
        fun h => hneg (ih1.mpr h)
      have hb := (seedScan_bounds ops col noOfSamples featureMatrix classColumn i).1
      have hne : (seedScan ops col noOfSamples featureMatrix classColumn (i + 1)).2 ≠ -1 := by
        simp only [seedScan]
        split
        · simp only; omega
        · exact hneg
      refine ⟨⟨fun h => absurd h hne, fun h => ?_⟩, fun h => absurd h hne⟩
      exact absurd (fun p hp => h p (by omega)) hnall

theorem seedIndex_nonneg_iff {D : Type} (ops : DoubleOps D) (col : Collaborators D)
    (noOfSamples noOfFeatures : Int) (featureMatrix classColumn : List D) :
    0 ≤ seedIndex ops col noOfSamples noOfFeatures featureMatrix classColumn ↔
      ∃ p : Nat, (p : Int) < noOfFeatures ∧
        ops.gt (classMIOf col noOfSamples featureMatrix classColumn p) ops.zero = true := by
  have h := (seedScan_neg_iff ops col noOfSamples featureMatrix classColumn noOfFeatures.toNat).1
  have hb := (seedIndex_lt ops col noOfSamples noOfFeatures featureMatrix classColumn).1
  simp only [seedIndex] at hb ⊢
  constructor
  · intro h0
    by_contra hcon
    have : (seedScan ops col noOfSamples featureMatrix classColumn noOfFeatures.toNat).2 = -1 := by
      apply h.mpr
      intro p hp
      by_contra hg
      exact hcon ⟨p, by omega, by simpa using hg⟩
    omega
  · rintro ⟨p, hp, hg⟩
    by_contra hcon
    have hneg : (seedScan ops col noOfSamples featureMatrix classColumn noOfFeatures.toNat).2 = -1 := by
      omega
    have := h.mp hneg p (by omega)
    rw [hg] at this
    exact absurd this (by decide)


theorem selectSeq_lt {D : Type} (ops : DoubleOps D) (col : Collaborators D)
    (noOfSamples noOfFeatures : Int) (featureMatrix classColumn : List D)
    (hc : 0 ≤ seedIndex ops col noOfSamples noOfFeatures featureMatrix classColumn) (r : Nat) :
    ∀ s, s ∈ selectSeq ops col noOfSamples noOfFeatures featureMatrix classColumn r →
      (s : Int) < noOfFeatures := by
  have hlt := (seedIndex_lt ops col noOfSamples noOfFeatures featureMatrix classColumn).2
  obtain ⟨N, rfl⟩ := Int.eq_ofNat_of_zero_le (by omega : 0 ≤ noOfFeatures)
  induction r with
  | zero =>
    intro s hs
    simp only [selectSeq, List.mem_singleton] at hs
    subst hs
    simp only [Int.toNat_natCast] at hlt
    omega
  | succ r ih =>
    intro s hs
    simp only [selectSeq, List.mem_append, List.mem_singleton] at hs
    rcases hs with h | h
    · exact ih s h
    · subst h
      simp only [Int.toNat_natCast] at hlt
      have := (pick_lt ops col noOfSamples featureMatrix classColumn
        (selectSeq ops col noOfSamples (N : Int) featureMatrix classColumn r) N (by omega)).1
      omega

/-- Every value of an output that `DISR` returns lies in `[1, noOfFeatures]`. -/
theorem DISR_output_range {D : Type} (ops : DoubleOps D) (col : Collaborators D)
    (k noOfSamples noOfFeatures : Int) (featureMatrix classColumn : List D) (out : List Int)
    (h : DISR ops col k noOfSamples noOfFeatures featureMatrix classColumn = .ok out) :
    ∀ v, v ∈ out → 1 ≤ v ∧ v ≤ noOfFeatures := by
  rw [DISR_eq_selection] at h
  simp only [selection] at h
  by_cases hc : 1 ≤ k ∧ 0 ≤ seedIndex ops col noOfSamples noOfFeatures featureMatrix classColumn
  · rw [if_pos hc] at h
    injection h with h
    subst h
    intro v hv
    simp only [List.mem_map] at hv
    obtain ⟨s, hs, rfl⟩ := hv
    have := selectSeq_lt ops col noOfSamples noOfFeatures featureMatrix classColumn hc.2 _ s hs
    constructor <;> omega
  · rw [if_neg hc] at h
    cases h

/-- The run returns an output exactly when `k ≥ 1` and some `classMI[i]`
compares greater than `0.0`; otherwise it faults. -/
theorem DISR_ok_iff {D : Type} (ops : DoubleOps D) (col : Collaborators D)
    (k noOfSamples noOfFeatures : Int) (featureMatrix classColumn : List D) :
    (∃ out, DISR ops col k noOfSamples noOfFeatures featureMatrix classColumn = .ok out) ↔
      1 ≤ k ∧ ∃ p : Nat, (p : Int) < noOfFeatures ∧
        ops.gt (classMIOf col noOfSamples featureMatrix classColumn p) ops.zero = true := by
  rw [DISR_eq_selection, ← seedIndex_nonneg_iff]
  simp only [selection]
  constructor
  · rintro ⟨out, h⟩
    by_contra hc
    rw [if_neg hc] at h
    cases h
  · intro h
    rw [if_pos h]
    exact ⟨_, rfl⟩

theorem seedScan_value {D : Type} (ops : DoubleOps D) (col : Collaborators D)
    (noOfSamples : Int) (featureMatrix classColumn : List D) (i : Nat) :
    (seedScan ops col noOfSamples featureMatrix classColumn i).1 = ops.zero ∨
    ∃ p, p < i ∧ (seedScan ops col noOfSamples featureMatrix classColumn i).1
      = classMIOf col noOfSamples featureMatrix classColumn p := by
  induction i with
  | zero => exact Or.inl rfl
  | succ i ih =>
    simp only [seedScan]
    split
    · exact Or.inr ⟨i, Nat.lt_succ_self i, rfl⟩
    · rcases ih with h | ⟨p, hp, h⟩
      · exact Or.inl h
      · exact Or.inr ⟨p, by omega, h⟩

/-- The seed loop stops at index `a` when `classMI[a]` is positive, beats every
earlier value and is beaten by no later one. -/
theorem seedScan_eq_of_first_max {D : Type} (ops : DoubleOps D) (col : Collaborators D)
    (noOfSamples : Int) (featureMatrix classColumn : List D) (a : Nat)
    (hpos : ops.gt (classMIOf col noOfSamples featureMatrix classColumn a) ops.zero = true)
    (hlow : ∀ p, p < a → ops.gt (classMIOf col noOfSamples featureMatrix classColumn a)
      (classMIOf col noOfSamples featureMatrix classColumn p) = true)
    (d : Nat)
    (hmax : ∀ p, a < p → p < a + 1 + d →
      ops.gt (classMIOf col noOfSamples featureMatrix classColumn p)
        (classMIOf col noOfSamples featureMatrix classColumn a) = false) :
    seedScan ops col noOfSamples featureMatrix classColumn (a + 1 + d)
      = (classMIOf col noOfSamples featureMatrix classColumn a, (a : Int)) := by
  induction d with
  | zero =>
    have hgt : ops.gt (classMIOf col noOfSamples featureMatrix classColumn a)
        (seedScan ops col noOfSamples featureMatrix classColumn a).1 = true := by
      rcases seedScan_value ops col noOfSamples featureMatrix classColumn a with h | ⟨p, hp, h⟩
      · rw [h]; exact hpos
      · rw [h]; exact hlow p hp
    simp only [Nat.add_zero, seedScan, hgt, if_true]
  | succ d ih =>
    have ih' := ih (fun p h1 h2 => hmax p h1 (by omega))
    have hstep : a + 1 + (d + 1) = (a + 1 + d) + 1 := by omega
    have hng := hmax (a + 1 + d) (by omega) (by omega)
    rw [hstep]
    simp only [seedScan, ih', hng]
    simp

/-- The variant without the cache, run on three features of four samples. -/
theorem DISRUncached_example :
    DISRUncached dblOps bitsCollab 3 4 3 (vec [0, 1, 0, 1, 0, 0, 1, 1, 0, 1, 1, 0])
      (vec [0, 0, 1, 1]) = .ok [2, 1, 3] := by
  decide

/-! ### The claims -/

/-- C1 (defect of the code). For a constant class column every `classMI[i]` is 0, so
index 0 is the lowest index that attains the maximum and the claim requires
`outputFeatures[0] = 1`; the seed loop leaves `maxMICounter = -1` and the
write `selectedFeatures[-1] = 1` is outside the block. -/
theorem seed_misses_all_zero_relevance :
    (∀ i, i < 2 → classMIOf bitsCollab 2 (vec [0, 1, 1, 0]) (vec [0, 0]) i = Dbl.ofInt 0) ∧
    seedIndex dblOps bitsCollab 2 2 (vec [0, 1, 1, 0]) (vec [0, 0]) = -1 ∧
    DISR dblOps bitsCollab 1 2 2 (vec [0, 1, 1, 0]) (vec [0, 0]) = .error .outOfBounds := by
  decide

/-- C2 (defect of the code). For `k = 2` of 2 features and a constant class column the
run does not produce two distinct feature indices: no feature is marked
selected by the seed step, which faults at `selectedFeatures[-1]`. -/
theorem no_distinct_outputs_on_constant_class :
    seedIndex dblOps bitsCollab 2 2 (vec [0, 1, 1, 0]) (vec [1, 1]) = -1 ∧
    DISR dblOps bitsCollab 2 2 2 (vec [0, 1, 1, 0]) (vec [1, 1]) = .error .outOfBounds ∧
    ¬ ∃ out, DISR dblOps bitsCollab 2 2 2 (vec [0, 1, 1, 0]) (vec [1, 1]) = .ok out ∧
        out.length = 2 ∧ out.Nodup := by
  refine ⟨by decide, by decide, ?_⟩
  rintro ⟨out, h, -⟩
  have he : DISR dblOps bitsCollab 2 2 2 (vec [0, 1, 1, 0]) (vec [1, 1])
      = .error .outOfBounds := by decide
  rw [he] at h
  cases h

/-- C3 (defect of the code). For one feature that carries no information about the class
the value the seed step stores, `maxMICounter + 1 = 0`, is not in `[1, noOfFeatures]`,
and the run faults at `selectedFeatures[-1]`. -/
theorem seed_value_out_of_range :
    seedIndex dblOps bitsCollab 2 1 (vec [0, 0]) (vec [0, 1]) + 1 = 0 ∧
    DISR dblOps bitsCollab 1 2 1 (vec [0, 0]) (vec [0, 1]) = .error .outOfBounds ∧
    ¬ ∃ out, DISR dblOps bitsCollab 1 2 1 (vec [0, 0]) (vec [0, 1]) = .ok out ∧
        ∀ v, v ∈ out → 1 ≤ v ∧ v ≤ 1 := by
  refine ⟨by decide, by decide, ?_⟩
  rintro ⟨out, h, -⟩
  have he : DISR dblOps bitsCollab 1 2 1 (vec [0, 0]) (vec [0, 1])
      = .error .outOfBounds := by decide
  rw [he] at h
  cases h

/-- C4. The function `DISR` with its cache and the variant that recomputes `R(x, j)`
each time return the same result (the same output sequence, or the same fault)
on every input. -/
theorem cache_equivalence {D : Type} (ops : DoubleOps D) (col : Collaborators D)
    (k noOfSamples noOfFeatures : Int) (featureMatrix classColumn : List D) :
    DISR ops col k noOfSamples noOfFeatures featureMatrix classColumn
      = DISRUncached ops col k noOfSamples noOfFeatures featureMatrix classColumn := by
  rw [DISR_eq_selection, DISRUncached_eq_selection]

/-- C5. For `1 ≤ m ≤ k` the first `m` entries of the output of `DISR` run with `k`
are the output of `DISR` run with `m`, on the same matrix and class column
(and the run with `k` faults exactly when the run with `m` does). -/
theorem prefix_stability {D : Type} (ops : DoubleOps D) (col : Collaborators D)
    (m k noOfSamples noOfFeatures : Int) (featureMatrix classColumn : List D)
    (hm : 1 ≤ m) (hmk : m ≤ k) :
    Except.map (List.take m.toNat)
        (DISR ops col k noOfSamples noOfFeatures featureMatrix classColumn)
      = DISR ops col m noOfSamples noOfFeatures featureMatrix classColumn := by
  rw [DISR_eq_selection, DISR_eq_selection]
  simp only [selection]
  by_cases hc : 0 ≤ seedIndex ops col noOfSamples noOfFeatures featureMatrix classColumn
  · rw [if_pos ⟨by omega, hc⟩, if_pos ⟨hm, hc⟩]
    simp only [Except.map]
    congr 1
    rw [← List.map_take]
    congr 1
    obtain ⟨d, hd⟩ : ∃ d : Nat, (k - 1).toNat = (m - 1).toNat + d :=
      ⟨(k - 1).toNat - (m - 1).toNat, by omega⟩
    have hm1 : m.toNat = (m - 1).toNat + 1 := by omega
    rw [hd, hm1]
    exact selectSeq_take ops col noOfSamples noOfFeatures featureMatrix classColumn _ d
  · rw [if_neg (fun h => hc h.2), if_neg (fun h => hc h.2)]
    rfl

/-- C5, on an example: three features of four samples, `m = 2` and `k = 3`. -/
theorem prefix_stability_witness :
    DISR dblOps bitsCollab 3 4 3 (vec [0, 1, 0, 1, 0, 0, 1, 1, 0, 1, 1, 0]) (vec [0, 0, 1, 1])
      = .ok [2, 1, 3] ∧
    Except.map (List.take (2 : Int).toNat)
        (DISR dblOps bitsCollab 3 4 3 (vec [0, 1, 0, 1, 0, 0, 1, 1, 0, 1, 1, 0])
          (vec [0, 0, 1, 1]))
      = DISR dblOps bitsCollab 2 4 3 (vec [0, 1, 0, 1, 0, 0, 1, 1, 0, 1, 1, 0])
          (vec [0, 0, 1, 1]) :=
  ⟨by decide, prefix_stability dblOps bitsCollab 2 3 4 3 _ _ (by decide) (by decide)⟩

/-- C6 (defect of the code). For `k = noOfFeatures` and a constant class column the
output is no permutation of `1..noOfFeatures`: the seed loop finds no index
(the value it stores would be 0 after the conversion) and the run faults at
`selectedFeatures[-1]`; shown for one feature and for three. -/
theorem select_all_faults_on_constant_class :
    seedIndex dblOps bitsCollab 2 1 (vec [0, 1]) (vec [5, 5]) + 1 = 0 ∧
    DISR dblOps bitsCollab 1 2 1 (vec [0, 1]) (vec [5, 5]) = .error .outOfBounds ∧
    seedIndex dblOps bitsCollab 4 3 (vec [0, 1, 0, 1, 0, 0, 1, 1, 0, 1, 1, 0]) (vec [5, 5, 5, 5])
      = -1 ∧
    DISR dblOps bitsCollab 3 4 3 (vec [0, 1, 0, 1, 0, 0, 1, 1, 0, 1, 1, 0]) (vec [5, 5, 5, 5])
      = .error .outOfBounds ∧
    ¬ ∃ out, DISR dblOps bitsCollab 3 4 3 (vec [0, 1, 0, 1, 0, 0, 1, 1, 0, 1, 1, 0])
        (vec [5, 5, 5, 5]) = .ok out ∧ out.Perm [1, 2, 3] := by
  refine ⟨by decide, by decide, by decide, by decide, ?_⟩
  rintro ⟨out, h, -⟩
  have he : DISR dblOps bitsCollab 3 4 3 (vec [0, 1, 0, 1, 0, 0, 1, 1, 0, 1, 1, 0])
      (vec [5, 5, 5, 5]) = .error .outOfBounds := by decide
  rw [he] at h
  cases h

/-- With `k = 1` the greedy loop runs no round, and `DISR` is the seed step
followed by the conversion to 1-based indices: its result is the one-entry
sequence `[maxMICounter + 1]` when the seed loop found an index, and the fault
of the seed step itself when it found none. -/
theorem k_one_is_seed_step {D : Type} (ops : DoubleOps D) (col : Collaborators D)
    (noOfSamples noOfFeatures : Int) (featureMatrix classColumn : List D) :
    (∀ (feature2D : List (List D)) (m : Mem D),
      greedyRounds ops col 1 noOfSamples noOfFeatures feature2D classColumn m = .ok m) ∧
    DISR ops col 1 noOfSamples noOfFeatures featureMatrix classColumn
      = (seedPhase ops col 1 noOfSamples noOfFeatures featureMatrix classColumn >>=
          fun r => finalize 1 r.2.2.outputFeatures) ∧
    DISR ops col 1 noOfSamples noOfFeatures featureMatrix classColumn
      = (if 0 ≤ seedIndex ops col noOfSamples noOfFeatures featureMatrix classColumn then
          .ok [seedIndex ops col noOfSamples noOfFeatures featureMatrix classColumn + 1]
         else .error .outOfBounds) := by
  refine ⟨fun _ _ => rfl, ?_, ?_⟩
  · simp only [DISR]
    cases seedPhase ops col 1 noOfSamples noOfFeatures featureMatrix classColumn with
    | error e => rfl
    | ok r => rfl
  · rw [DISR_eq_selection]
    simp only [selection]
    by_cases hc : 0 ≤ seedIndex ops col noOfSamples noOfFeatures featureMatrix classColumn
    · rw [if_pos ⟨le_refl _, hc⟩, if_pos hc]
      have h0 : ((1 : Int) - 1).toNat = 0 := by decide
      rw [h0]
      simp only [selectSeq, List.map_cons, List.map_nil]
      rw [Int.toNat_of_nonneg hc]
    · rw [if_neg (fun h => hc h.2), if_neg hc]

/-- C7 (defect of the code). With `k = 1` no greedy round runs, but the output is not
for every input a one-entry sequence holding the 1-based result of the seed
step. For a constant class column every `classMI[i]` is 0 and the seed loop
leaves `maxMICounter = -1`: the store `selectedFeatures[-1] = 1` of line 107 is
outside the block and the run faults, no output of length 1 is produced; lines
108 and 163-166 taken alone would leave the value 0, which is not the 1-based
index of any feature. -/
theorem k_one_seed_step_faults :
    (∀ (feature2D : List (List Dbl)) (m : Mem Dbl),
      greedyRounds dblOps bitsCollab 1 4 2 feature2D (vec [2, 2, 2, 2]) m = .ok m) ∧
    (∀ i, i < 2 → classMIOf bitsCollab 4 (vec [0, 1, 0, 1, 0, 0, 1, 1]) (vec [2, 2, 2, 2]) i
      = Dbl.ofInt 0) ∧
    seedIndex dblOps bitsCollab 4 2 (vec [0, 1, 0, 1, 0, 0, 1, 1]) (vec [2, 2, 2, 2]) = -1 ∧
    writeAt (List.replicate 2 (0 : Nat))
      (seedIndex dblOps bitsCollab 4 2 (vec [0, 1, 0, 1, 0, 0, 1, 1]) (vec [2, 2, 2, 2])) 1
      = .error .outOfBounds ∧
    (writeAt (List.replicate 1 (0 : Int)) 0
      (seedIndex dblOps bitsCollab 4 2 (vec [0, 1, 0, 1, 0, 0, 1, 1]) (vec [2, 2, 2, 2]))
      >>= finalize 1) = .ok [0] ∧
    DISR dblOps bitsCollab 1 4 2 (vec [0, 1, 0, 1, 0, 0, 1, 1]) (vec [2, 2, 2, 2])
      = .error .outOfBounds ∧
    ¬ ∃ out, DISR dblOps bitsCollab 1 4 2 (vec [0, 1, 0, 1, 0, 0, 1, 1]) (vec [2, 2, 2, 2])
        = .ok out ∧ out.length = 1 := by
  refine ⟨fun _ _ => rfl, by decide, by decide, by decide, by decide, by decide, ?_⟩
  rintro ⟨out, h, -⟩
  have he : DISR dblOps bitsCollab 1 4 2 (vec [0, 1, 0, 1, 0, 0, 1, 1]) (vec [2, 2, 2, 2])
      = .error .outOfBounds := by decide
  rw [he] at h
  cases h

/-- C8 (defect of the code). With `noOfSamples = 1` every mutual information is 0, the seed
loop leaves `maxMICounter = -1`, and the access `selectedFeatures[-1]` is
outside the block: the run faults. -/
theorem single_sample_faults :
    (∀ i, i < 2 → classMIOf bitsCollab 1 (vec [3, 7]) (vec [1]) i = Dbl.ofInt 0) ∧
    seedIndex dblOps bitsCollab 1 2 (vec [3, 7]) (vec [1]) = -1 ∧
    DISR dblOps bitsCollab 1 1 2 (vec [3, 7]) (vec [1]) = .error .outOfBounds ∧
    DISR dblOps bitsCollab 2 1 2 (vec [3, 7]) (vec [1]) = .error .outOfBounds := by
  decide


/-- C9 (counterexample). Four samples, three features; the second feature is the only
one identical to the class column, the first is the class column with its two
labels exchanged and carries the same mutual information: the tie goes to the
lower index and the first output is 1, not the index 2 of the second feature. -/
theorem perfect_predictor_not_first :
    column (vec [1, 1, 0, 0, 0, 0, 1, 1, 0, 1, 0, 1]) 4 1 = vec [0, 0, 1, 1] ∧
    column (vec [1, 1, 0, 0, 0, 0, 1, 1, 0, 1, 0, 1]) 4 0 ≠ vec [0, 0, 1, 1] ∧
    column (vec [1, 1, 0, 0, 0, 0, 1, 1, 0, 1, 0, 1]) 4 2 ≠ vec [0, 0, 1, 1] ∧
    DISR dblOps bitsCollab 3 4 3 (vec [1, 1, 0, 0, 0, 0, 1, 1, 0, 1, 0, 1]) (vec [0, 0, 1, 1])
      = .ok [1, 2, 3] ∧
    ¬ ∃ rest, DISR dblOps bitsCollab 3 4 3 (vec [1, 1, 0, 0, 0, 0, 1, 1, 0, 1, 0, 1])
        (vec [0, 0, 1, 1]) = .ok ((((1 : Nat) : Int) + 1) :: rest) := by
  refine ⟨by decide, by decide, by decide, by decide, ?_⟩
  rintro ⟨rest, h⟩
  have he : DISR dblOps bitsCollab 3 4 3 (vec [1, 1, 0, 0, 0, 0, 1, 1, 0, 1, 0, 1])
      (vec [0, 0, 1, 1]) = .ok [1, 2, 3] := by decide
  rw [he] at h
  injection h with h
  injection h with h1 h2
  exact absurd h1 (by decide)

/-- C9 (amended). If feature `a` is identical to the class column, the mutual
information of the class column with itself is positive, no feature has a
greater mutual information with the class, and every feature of lower index
has a smaller one, then for `k ≥ 1` the first output of `DISR` is `a + 1`. -/
theorem perfect_predictor_first {D : Type} (ops : DoubleOps D) (col : Collaborators D)
    (k noOfSamples noOfFeatures : Int) (featureMatrix classColumn : List D) (a : Nat)
    (hk : 1 ≤ k) (ha : (a : Int) < noOfFeatures)
    (hA : column featureMatrix noOfSamples a = classColumn)
    (hpos : ops.gt (col.calculateMutualInformation classColumn classColumn noOfSamples) ops.zero
      = true)
    (hmax : ∀ p : Nat, (p : Int) < noOfFeatures →
      ops.gt (classMIOf col noOfSamples featureMatrix classColumn p)
        (col.calculateMutualInformation classColumn classColumn noOfSamples) = false)
    (hlow : ∀ p : Nat, p < a →
      ops.gt (col.calculateMutualInformation classColumn classColumn noOfSamples)
        (classMIOf col noOfSamples featureMatrix classColumn p) = true) :
    ∃ rest, DISR ops col k noOfSamples noOfFeatures featureMatrix classColumn
      = .ok (((a : Int) + 1) :: rest) := by
  have hca : classMIOf col noOfSamples featureMatrix classColumn a
      = col.calculateMutualInformation classColumn classColumn noOfSamples := by
    simp only [classMIOf, hA]
  obtain ⟨d, hd⟩ : ∃ d : Nat, noOfFeatures.toNat = a + 1 + d :=
    ⟨noOfFeatures.toNat - (a + 1), by omega⟩
  have hseed : seedIndex ops col noOfSamples noOfFeatures featureMatrix classColumn = (a : Int) := by
    simp only [seedIndex, hd]
    rw [seedScan_eq_of_first_max ops col noOfSamples featureMatrix classColumn a
      (by rw [hca]; exact hpos) (fun p hp => by rw [hca]; exact hlow p hp) d
      (fun p _ hp => by rw [hca]; exact hmax p (by omega))]
  obtain ⟨rest, hrest⟩ := selectSeq_head ops col noOfSamples noOfFeatures featureMatrix
    classColumn (k - 1).toNat
  rw [hseed, Int.toNat_natCast] at hrest
  refine ⟨rest.map (fun (s : Nat) => (s : Int) + 1), ?_⟩
  rw [DISR_eq_selection]
  simp only [selection]
  rw [if_pos ⟨hk, by rw [hseed]; exact Int.natCast_nonneg a⟩, hrest]
  rfl

/-- C9 (amended), on an example: four samples, three features, the second feature
identical to the class column and the only informative one. -/
theorem perfect_predictor_first_witness :
    ∃ rest, DISR dblOps bitsCollab 3 4 3 (vec [0, 1, 0, 1, 0, 0, 1, 1, 0, 1, 1, 0])
        (vec [0, 0, 1, 1]) = .ok ((((1 : Nat) : Int) + 1) :: rest) :=
  perfect_predictor_first dblOps bitsCollab 3 4 3 (vec [0, 1, 0, 1, 0, 0, 1, 1, 0, 1, 1, 0])
    (vec [0, 0, 1, 1]) 1 (by decide) (by decide) (by decide) (by decide)
    (fun p hp => by
      have hp3 : p < 3 := by omega
      interval_cases p <;> decide)
    (fun p hp => by
      have hp0 : p = 0 := by omega
      subst hp0
      decide)

theorem selectSeq_getElem {D : Type} (ops : DoubleOps D) (col : Collaborators D)
    (noOfSamples noOfFeatures : Int) (featureMatrix classColumn : List D) (i d : Nat) :
    (selectSeq ops col noOfSamples noOfFeatures featureMatrix classColumn (i + 1 + d))[i + 1]?
      = some (pick ops col noOfSamples noOfFeatures featureMatrix classColumn
          (selectSeq ops col noOfSamples noOfFeatures featureMatrix classColumn i)) := by
  have h := selectSeq_take ops col noOfSamples noOfFeatures featureMatrix classColumn (i + 1) d
  have hlen := selectSeq_length ops col noOfSamples noOfFeatures featureMatrix classColumn i
  have h2 : ((selectSeq ops col noOfSamples noOfFeatures featureMatrix classColumn
      (i + 1 + d)).take (i + 1 + 1))[i + 1]?
      = (selectSeq ops col noOfSamples noOfFeatures featureMatrix classColumn (i + 1))[i + 1]? := by
    rw [h]
  rw [List.getElem?_take, if_pos (by omega)] at h2
  rw [h2]
  simp only [selectSeq]
  rw [← hlen]
  exact List.getElem?_concat_length _ _

/-- The loop over the features leaves `(score, currentHighestFeature)` at
`(0.0, 0)` when no unselected feature has a total score greater than `0.0`. -/
theorem pickScan_fallback {D : Type} (ops : DoubleOps D) (col : Collaborators D)
    (noOfSamples : Int) (featureMatrix classColumn : List D) (outs : List Nat) (m : Nat)
    (h : ∀ j, j < m → j ∉ outs →
      ops.gt (totalScore ops col noOfSamples featureMatrix classColumn outs j) ops.zero = false) :
    pickScan ops col noOfSamples featureMatrix classColumn outs m = (ops.zero, 0) := by
  induction m with
  | zero => rfl
  | succ m ih =>
    have ih' := ih (fun j hj => h j (by omega))
    simp only [pickScan]
    by_cases hmem : m ∈ outs
    · rw [if_pos hmem]; exact ih'
    · rw [if_neg hmem, ih']
      have := h m (Nat.lt_succ_self m) hmem
      simp only [this]
      simp

/-- The loop over the features ends on an unselected feature as soon as some
unselected feature has a total score greater than `0.0`. -/
theorem pickScan_cases {D : Type} (ops : DoubleOps D) (col : Collaborators D)
    (noOfSamples : Int) (featureMatrix classColumn : List D) (outs : List Nat) (m : Nat) :
    (pickScan ops col noOfSamples featureMatrix classColumn outs m = (ops.zero, 0) ∧
      ∀ j, j < m → j ∉ outs →
        ops.gt (totalScore ops col noOfSamples featureMatrix classColumn outs j) ops.zero
          = false) ∨
    ∃ w : Nat, (pickScan ops col noOfSamples featureMatrix classColumn outs m).2 = (w : Int) ∧
      w < m ∧ w ∉ outs ∧
      (pickScan ops col noOfSamples featureMatrix classColumn outs m).1
        = totalScore ops col noOfSamples featureMatrix classColumn outs w := by
  induction m with
  | zero => exact Or.inl ⟨rfl, fun j hj => absurd hj (Nat.not_lt_zero j)⟩
  | succ m ih =>
    simp only [pickScan]
    by_cases hmem : m ∈ outs
    · rw [if_pos hmem]
      rcases ih with ⟨h1, h2⟩ | ⟨w, h1, h2, h3, h4⟩
      · refine Or.inl ⟨h1, fun j hj hjo => ?_⟩
        rcases Nat.lt_or_ge j m with h | h
        · exact h2 j h hjo
        · have : j = m := by omega
          subst this
          exact absurd hmem hjo
      · exact Or.inr ⟨w, h1, by omega, h3, h4⟩
    · rw [if_neg hmem]
      by_cases hgt : ops.gt (totalScore ops col noOfSamples featureMatrix classColumn outs m)
          (pickScan ops col noOfSamples featureMatrix classColumn outs m).1 = true
      · rw [if_pos hgt]
        exact Or.inr ⟨m, rfl, Nat.lt_succ_self m, hmem, rfl⟩
      · rw [if_neg hgt]
        rcases ih with ⟨h1, h2⟩ | ⟨w, h1, h2, h3, h4⟩
        · refine Or.inl ⟨h1, fun j hj hjo => ?_⟩
          rcases Nat.lt_or_ge j m with h | h
          · exact h2 j h hjo
          · have : j = m := by omega
            subst this
            rw [h1] at hgt
            simpa using hgt
        · exact Or.inr ⟨w, h1, by omega, h3, h4⟩

theorem pick_unselected {D : Type} (ops : DoubleOps D) (col : Collaborators D)
    (noOfSamples noOfFeatures : Int) (featureMatrix classColumn : List D) (outs : List Nat)
    (h : ∃ j : Nat, (j : Int) < noOfFeatures ∧ j ∉ outs ∧
      ops.gt (totalScore ops col noOfSamples featureMatrix classColumn outs j) ops.zero = true) :
    pick ops col noOfSamples noOfFeatures featureMatrix classColumn outs ∉ outs := by
  obtain ⟨j, hj, hjo, hgt⟩ := h
  rcases pickScan_cases ops col noOfSamples featureMatrix classColumn outs noOfFeatures.toNat
    with ⟨-, h2⟩ | ⟨w, h1, -, h3, -⟩
  · have := h2 j (by omega) hjo
    rw [hgt] at this
    exact absurd this (by decide)
  · simp only [pick, h1, Int.toNat_natCast]
    exact h3

theorem pick_fallback {D : Type} (ops : DoubleOps D) (col : Collaborators D)
    (noOfSamples noOfFeatures : Int) (featureMatrix classColumn : List D) (outs : List Nat)
    (h : ∀ j : Nat, (j : Int) < noOfFeatures → j ∉ outs →
      ops.gt (totalScore ops col noOfSamples featureMatrix classColumn outs j) ops.zero = false) :
    pick ops col noOfSamples noOfFeatures featureMatrix classColumn outs = 0 := by
  simp only [pick]
  rw [pickScan_fallback ops col noOfSamples featureMatrix classColumn outs noOfFeatures.toNat
    (fun j hj hjo => h j (by omega) hjo)]
  rfl

/-- The entry of index `i ≥ 1` of an output is the pick of round `i`, 1-based,
and the entries before it are the selections made before that round. -/
theorem DISR_entry {D : Type} (ops : DoubleOps D) (col : Collaborators D)
    (k noOfSamples noOfFeatures : Int) (featureMatrix classColumn : List D) (i : Nat)
    (hi : 1 ≤ i) (hik : (i : Int) < k)
    (hseed : ∃ p : Nat, (p : Int) < noOfFeatures ∧
      ops.gt (classMIOf col noOfSamples featureMatrix classColumn p) ops.zero = true) :
    ∃ out, DISR ops col k noOfSamples noOfFeatures featureMatrix classColumn = .ok out ∧
      out.take i = (selectSeq ops col noOfSamples noOfFeatures featureMatrix classColumn
        (i - 1)).map (fun (s : Nat) => (s : Int) + 1) ∧
      out[i]? = some ((pick ops col noOfSamples noOfFeatures featureMatrix classColumn
        (selectSeq ops col noOfSamples noOfFeatures featureMatrix classColumn (i - 1)) : Nat)
          + 1 : Int) := by
  have hc := (seedIndex_nonneg_iff ops col noOfSamples noOfFeatures featureMatrix
    classColumn).mpr hseed
  rw [DISR_eq_selection]
  simp only [selection]
  rw [if_pos ⟨by omega, hc⟩]
  refine ⟨_, rfl, ?_, ?_⟩
  · obtain ⟨d, hd⟩ : ∃ d : Nat, (k - 1).toNat = (i - 1) + d := ⟨(k - 1).toNat - (i - 1), by omega⟩
    rw [← List.map_take, hd]
    have h := selectSeq_take ops col noOfSamples noOfFeatures featureMatrix classColumn (i - 1) d
    have hi' : i - 1 + 1 = i := by omega
    rw [hi'] at h
    rw [h]
  · obtain ⟨d, hd⟩ : ∃ d : Nat, (k - 1).toNat = (i - 1) + 1 + d :=
      ⟨(k - 1).toNat - i, by omega⟩
    have h := selectSeq_getElem ops col noOfSamples noOfFeatures featureMatrix classColumn
      (i - 1) d
    have hi' : i - 1 + 1 = i := by omega
    rw [hi'] at h
    rw [List.getElem?_map, hd, hi', h]
    rfl

theorem readAt_ok_bounds {α : Type} (a : List α) (i : Int) (v : α) (h : readAt a i = .ok v) :
    0 ≤ i ∧ i < a.length := by
  simp only [readAt] at h
  by_cases h0 : 0 ≤ i
  · rw [if_pos h0] at h
    rcases Nat.lt_or_ge i.toNat a.length with hl | hl
    · exact ⟨h0, by omega⟩
    · rw [List.getElem?_eq_none hl] at h
      cases h
  · rw [if_neg h0] at h
    cases h

theorem writeAt_ok_bounds {α : Type} (a b : List α) (i : Int) (v : α)
    (h : writeAt a i v = .ok b) : 0 ≤ i ∧ i < a.length := by
  simp only [writeAt] at h
  by_cases h0 : 0 ≤ i ∧ i.toNat < a.length
  · exact ⟨h0.1, by omega⟩
  · rw [if_neg h0] at h
    cases h

/-- The memory after the seed step and the first `r` rounds records the
selections `selectSeq r`. -/
theorem roundsPrefix_eq {D : Type} (ops : DoubleOps D) (col : Collaborators D)
    (noOfSamples : Int) (featureMatrix classColumn : List D) (N K : Nat) (r : Nat) (hr : r < K)
    (hc : 0 ≤ seedIndex ops col noOfSamples (N : Int) featureMatrix classColumn) :
    ∃ m, forRange (roundBody ops col noOfSamples (N : Int)
        ((List.range N).map (column featureMatrix noOfSamples)) classColumn) 1 r
        (seedMem ops col (K : Int) noOfSamples (N : Int) featureMatrix classColumn) = .ok m ∧
      SelOutOK N K (selectSeq ops col noOfSamples (N : Int) featureMatrix classColumn r)
        m.selectedFeatures m.outputFeatures ∧
      CacheOK ops col noOfSamples featureMatrix classColumn N (K * N)
        (selectSeq ops col noOfSamples (N : Int) featureMatrix classColumn r)
        m.featureMIMatrix := by
  have hlt := (seedIndex_lt ops col noOfSamples (N : Int) featureMatrix classColumn).2
  simp only [Int.toNat_natCast] at hlt
  have hN : 0 < N := by omega
  obtain ⟨h0a, h0b⟩ := seedMem_ok ops col noOfSamples featureMatrix classColumn N K (by omega) hc
  obtain ⟨m, hm, hso, hca⟩ := forRange_inv
    (roundBody ops col noOfSamples (N : Int)
      ((List.range N).map (column featureMatrix noOfSamples)) classColumn)
    (fun i m =>
      SelOutOK N K (selectSeq ops col noOfSamples (N : Int) featureMatrix classColumn (i - 1))
        m.selectedFeatures m.outputFeatures ∧
      CacheOK ops col noOfSamples featureMatrix classColumn N (K * N)
        (selectSeq ops col noOfSamples (N : Int) featureMatrix classColumn (i - 1))
        m.featureMIMatrix)
    r 1 (seedMem ops col (K : Int) noOfSamples (N : Int) featureMatrix classColumn)
    ⟨h0a, h0b⟩
    (fun i m hi1 hi2 hP => by
      obtain ⟨hso, hca⟩ := hP
      have hlen := selectSeq_length ops col noOfSamples (N : Int) featureMatrix classColumn (i - 1)
      have hlen' : (selectSeq ops col noOfSamples (N : Int) featureMatrix classColumn
          (i - 1)).length = i := by omega
      obtain ⟨m', hm', hso', hca'⟩ := roundBody_eq ops col noOfSamples featureMatrix classColumn
        N K _ m hN (by omega) hso hca
      rw [hlen'] at hm'
      refine ⟨m', hm', ?_⟩
      have hsel : selectSeq ops col noOfSamples (N : Int) featureMatrix classColumn (i + 1 - 1)
          = selectSeq ops col noOfSamples (N : Int) featureMatrix classColumn (i - 1) ++
            [pick ops col noOfSamples (N : Int) featureMatrix classColumn
              (selectSeq ops col noOfSamples (N : Int) featureMatrix classColumn (i - 1))] := by
        obtain ⟨r', rfl⟩ : ∃ r', i = r' + 1 := ⟨i - 1, by omega⟩
        simp only [Nat.add_sub_cancel, selectSeq]
      show SelOutOK N K (selectSeq ops col noOfSamples (N : Int) featureMatrix classColumn
          (i + 1 - 1)) m'.selectedFeatures m'.outputFeatures ∧
        CacheOK ops col noOfSamples featureMatrix classColumn N (K * N)
          (selectSeq ops col noOfSamples (N : Int) featureMatrix classColumn (i + 1 - 1))
          m'.featureMIMatrix
      rw [hsel]
      exact ⟨hso', hca'⟩)
  have hK2 : 1 + r - 1 = r := by omega
  rw [hK2] at hso hca
  exact ⟨m, hm, hso, hca⟩

/-- The memory after the seed step and the first `r` rounds, for the arrays
that `seedPhase` returned. -/
theorem rounds_state {D : Type} (ops : DoubleOps D) (col : Collaborators D)
    (k noOfSamples noOfFeatures : Int) (featureMatrix classColumn : List D)
    (feature2D : List (List D)) (sd : SeedState D) (m0 : Mem D)
    (h0 : seedPhase ops col k noOfSamples noOfFeatures featureMatrix classColumn
      = .ok (feature2D, sd, m0))
    (r : Nat) (hr : (r : Int) < k) :
    ∃ m, forRange (roundBody ops col noOfSamples noOfFeatures feature2D classColumn) 1 r m0
        = .ok m ∧
      SelOutOK noOfFeatures.toNat k.toNat
        (selectSeq ops col noOfSamples noOfFeatures featureMatrix classColumn r)
        m.selectedFeatures m.outputFeatures ∧
      CacheOK ops col noOfSamples featureMatrix classColumn noOfFeatures.toNat
        (k.toNat * noOfFeatures.toNat)
        (selectSeq ops col noOfSamples noOfFeatures featureMatrix classColumn r)
        m.featureMIMatrix := by
  by_cases hc : 1 ≤ k ∧ 0 ≤ seedIndex ops col noOfSamples noOfFeatures featureMatrix classColumn
  · have hlt := (seedIndex_lt ops col noOfSamples noOfFeatures featureMatrix classColumn).2
    rw [seedPhase_ok ops col _ _ _ _ _ hc.1 hc.2] at h0
    injection h0 with h0
    injection h0 with h1 h2
    injection h2 with h2 h3
    subst h1 h3
    obtain ⟨K, rfl⟩ := Int.eq_ofNat_of_zero_le (by omega : 0 ≤ k)
    obtain ⟨N, rfl⟩ := Int.eq_ofNat_of_zero_le (by omega : 0 ≤ noOfFeatures)
    simp only [Int.toNat_natCast]
    exact roundsPrefix_eq ops col noOfSamples featureMatrix classColumn N K r (by omega) hc.2
  · rw [seedPhase_error ops col _ _ _ _ _ hc] at h0
    cases h0

theorem selectSeq_nodup {D : Type} (ops : DoubleOps D) (col : Collaborators D)
    (noOfSamples noOfFeatures : Int) (featureMatrix classColumn : List D) (r : Nat)
    (h : ∀ i : Nat, 1 ≤ i → i ≤ r → ∃ j : Nat, (j : Int) < noOfFeatures ∧
      j ∉ selectSeq ops col noOfSamples noOfFeatures featureMatrix classColumn (i - 1) ∧
      ops.gt (totalScore ops col noOfSamples featureMatrix classColumn
        (selectSeq ops col noOfSamples noOfFeatures featureMatrix classColumn (i - 1)) j)
        ops.zero = true) :
    (selectSeq ops col noOfSamples noOfFeatures featureMatrix classColumn r).Nodup := by
  induction r with
  | zero => simp [selectSeq]
  | succ r ih =>
    simp only [selectSeq]
    rw [List.nodup_append]
    refine ⟨ih (fun i h1 h2 => h i h1 (by omega)), List.nodup_singleton _, ?_⟩
    have hp := pick_unselected ops col noOfSamples noOfFeatures featureMatrix classColumn
      (selectSeq ops col noOfSamples noOfFeatures featureMatrix classColumn r)
      (by simpa using h (r + 1) (by omega) (le_refl _))
    intro a ha hb
    simp only [List.mem_singleton] at hb
    subst hb
    exact hp ha

/-- C15. If some feature has `classMI > 0.0` and in every round `i` with `1 ≤ i < k`
some feature not yet selected (not in `selectSeq (i - 1)`, the selections made
before the round) has a total score greater than `0.0`, then `DISR` returns `k`
pairwise distinct values of `[1, noOfFeatures]`; and after the seed step and
after every round the features flagged in `selectedFeatures` are exactly the
features stored in `outputFeatures` so far. -/
theorem conditional_validity {D : Type} (ops : DoubleOps D) (col : Collaborators D)
    (k noOfSamples noOfFeatures : Int) (featureMatrix classColumn : List D)
    (hk : 1 ≤ k)
    (hseed : ∃ p : Nat, (p : Int) < noOfFeatures ∧
      ops.gt (classMIOf col noOfSamples featureMatrix classColumn p) ops.zero = true)
    (hrounds : ∀ i : Nat, 1 ≤ i → (i : Int) < k → ∃ j : Nat, (j : Int) < noOfFeatures ∧
      j ∉ selectSeq ops col noOfSamples noOfFeatures featureMatrix classColumn (i - 1) ∧
      ops.gt (totalScore ops col noOfSamples featureMatrix classColumn
        (selectSeq ops col noOfSamples noOfFeatures featureMatrix classColumn (i - 1)) j)
        ops.zero = true) :
    (∃ out, DISR ops col k noOfSamples noOfFeatures featureMatrix classColumn = .ok out ∧
      out.length = k.toNat ∧ out.Nodup ∧ ∀ v, v ∈ out → 1 ≤ v ∧ v ≤ noOfFeatures) ∧
    (∀ (feature2D : List (List D)) (sd : SeedState D) (m0 : Mem D),
      seedPhase ops col k noOfSamples noOfFeatures featureMatrix classColumn
        = .ok (feature2D, sd, m0) →
      ∀ r : Nat, (r : Int) < k →
        ∃ m, forRange (roundBody ops col noOfSamples noOfFeatures feature2D classColumn) 1 r m0
            = .ok m ∧
          ∀ j : Nat, (j : Int) < noOfFeatures →
            (m.selectedFeatures[j]? = some 1 ↔ (j : Int) ∈ m.outputFeatures.take (r + 1))) := by
  have hc := (seedIndex_nonneg_iff ops col noOfSamples noOfFeatures featureMatrix
    classColumn).mpr hseed
  constructor
  · have hsel : DISR ops col k noOfSamples noOfFeatures featureMatrix classColumn
        = .ok ((selectSeq ops col noOfSamples noOfFeatures featureMatrix classColumn
            (k - 1).toNat).map (fun (s : Nat) => (s : Int) + 1)) := by
      rw [DISR_eq_selection]
      simp only [selection]
      rw [if_pos ⟨hk, hc⟩]
    refine ⟨_, hsel, ?_, ?_, DISR_output_range ops col k noOfSamples noOfFeatures featureMatrix
      classColumn _ hsel⟩
    · rw [List.length_map, selectSeq_length]; omega
    · apply List.Nodup.map
      · intro a b hab
        simp only at hab
        omega
      · exact selectSeq_nodup ops col noOfSamples noOfFeatures featureMatrix classColumn _
          (fun i h1 h2 => hrounds i h1 (by omega))
  · intro feature2D sd m0 h0 r hr
    obtain ⟨m, hm, hso, -⟩ := rounds_state ops col k noOfSamples noOfFeatures featureMatrix
      classColumn feature2D sd m0 h0 r hr
    refine ⟨m, hm, ?_⟩
    obtain ⟨hsl, hsg, hol, hog, hlt, hlen⟩ := hso
    have hslen := selectSeq_length ops col noOfSamples noOfFeatures featureMatrix classColumn r
    have htake : m.outputFeatures.take (r + 1)
        = (selectSeq ops col noOfSamples noOfFeatures featureMatrix classColumn r).map
            (fun (s : Nat) => (s : Int)) := by
      apply List.ext_getElem?
      intro x
      rw [List.getElem?_take, List.getElem?_map]
      rcases Nat.lt_or_ge x (r + 1) with hx | hx
      · rw [if_pos hx]
        obtain ⟨sx, hsx⟩ : ∃ sx, (selectSeq ops col noOfSamples noOfFeatures featureMatrix
            classColumn r)[x]? = some sx := ⟨_, List.getElem?_eq_getElem (by omega)⟩
        rw [hog x sx hsx]
        simp only [hsx, Option.map_some']
      · rw [if_neg (by omega)]
        simp only [List.getElem?_eq_none (by omega : (selectSeq ops col noOfSamples
          noOfFeatures featureMatrix classColumn r).length ≤ x), Option.map_none']
    intro j hj
    rw [htake, hsg j (by omega)]
    constructor
    · intro h
      by_cases hmem : j ∈ selectSeq ops col noOfSamples noOfFeatures featureMatrix classColumn r
      · exact List.mem_map.mpr ⟨j, hmem, rfl⟩
      · rw [if_neg hmem] at h
        exact absurd h (by decide)
    · intro h
      obtain ⟨s, hs, hsj⟩ := List.mem_map.mp h
      have : s = j := by omega
      subst this
      rw [if_pos hs]

/-- C15, on an example: three features of four samples, `k = 3`; the run
returns `[2, 1, 3]`. -/
theorem conditional_validity_witness :
    DISR dblOps bitsCollab 3 4 3 (vec [0, 1, 0, 1, 0, 0, 1, 1, 0, 1, 1, 0]) (vec [0, 0, 1, 1])
      = .ok [2, 1, 3] ∧
    ∃ out, DISR dblOps bitsCollab 3 4 3 (vec [0, 1, 0, 1, 0, 0, 1, 1, 0, 1, 1, 0])
        (vec [0, 0, 1, 1]) = .ok out ∧
      out.length = (3 : Int).toNat ∧ out.Nodup ∧ ∀ v, v ∈ out → 1 ≤ v ∧ v ≤ 3 :=
  ⟨by decide,
   (conditional_validity dblOps bitsCollab 3 4 3 (vec [0, 1, 0, 1, 0, 0, 1, 1, 0, 1, 1, 0])
    (vec [0, 0, 1, 1]) (by decide) ⟨1, by decide, by decide⟩
    (fun i h1 h2 => by
      have hi : i = 1 ∨ i = 2 := by omega
      rcases hi with rfl | rfl
      · exact ⟨0, by decide, by decide, by decide⟩
      · exact ⟨2, by decide, by decide, by decide⟩)).1⟩

/-- C17. If in round `i` (`1 ≤ i < k`) no feature outside the selections made before
the round (`selectSeq (i - 1)`) has a total score greater than `0.0` — also when
every feature is already selected — the round stores feature 0 in
`outputFeatures[i]`, and the run returns 1 at position `i`. -/
theorem round_fallback {D : Type} (ops : DoubleOps D) (col : Collaborators D)
    (k noOfSamples noOfFeatures : Int) (featureMatrix classColumn : List D) (i : Nat)
    (hi : 1 ≤ i) (hik : (i : Int) < k)
    (hseed : ∃ p : Nat, (p : Int) < noOfFeatures ∧
      ops.gt (classMIOf col noOfSamples featureMatrix classColumn p) ops.zero = true)
    (hnone : ∀ j : Nat, (j : Int) < noOfFeatures →
      j ∉ selectSeq ops col noOfSamples noOfFeatures featureMatrix classColumn (i - 1) →
      ops.gt (totalScore ops col noOfSamples featureMatrix classColumn
        (selectSeq ops col noOfSamples noOfFeatures featureMatrix classColumn (i - 1)) j)
        ops.zero = false) :
    (∃ out, DISR ops col k noOfSamples noOfFeatures featureMatrix classColumn = .ok out ∧
      out.take i = (selectSeq ops col noOfSamples noOfFeatures featureMatrix classColumn
        (i - 1)).map (fun (s : Nat) => (s : Int) + 1) ∧
      out[i]? = some 1) ∧
    (∀ (feature2D : List (List D)) (sd : SeedState D) (m0 : Mem D),
      seedPhase ops col k noOfSamples noOfFeatures featureMatrix classColumn
        = .ok (feature2D, sd, m0) →
      ∃ m, forRange (roundBody ops col noOfSamples noOfFeatures feature2D classColumn) 1 i m0
          = .ok m ∧ m.outputFeatures[i]? = some 0 ∧ m.selectedFeatures[0]? = some 1) := by
  have hp := pick_fallback ops col noOfSamples noOfFeatures featureMatrix classColumn _ hnone
  constructor
  · obtain ⟨out, h1, h2, h3⟩ := DISR_entry ops col k noOfSamples noOfFeatures featureMatrix
      classColumn i hi hik hseed
    refine ⟨out, h1, h2, ?_⟩
    rw [h3, hp]
    rfl
  · intro feature2D sd m0 h0
    obtain ⟨m, hm, hso, -⟩ := rounds_state ops col k noOfSamples noOfFeatures featureMatrix
      classColumn feature2D sd m0 h0 i hik
    obtain ⟨hsl, hsg, hol, hog, hlt, hlen⟩ := hso
    have hget : (selectSeq ops col noOfSamples noOfFeatures featureMatrix classColumn i)[i]?
        = some 0 := by
      obtain ⟨r, rfl⟩ : ∃ r, i = r + 1 := ⟨i - 1, by omega⟩
      have := selectSeq_getElem ops col noOfSamples noOfFeatures featureMatrix classColumn r 0
      simp only [Nat.add_zero] at this
      rw [this]
      simp only [Nat.add_sub_cancel] at hp
      rw [hp]
    have h0mem := List.getElem?_mem hget
    have hN := hlt 0 h0mem
    refine ⟨m, hm, ?_, ?_⟩
    · have := hog i 0 hget
      simpa using this
    · rw [hsg 0 hN, if_pos h0mem]

/-- C17, on an example: `k = 2` and a single feature, already selected by the
seed step; round 1 stores feature 0 again and the run returns `[1, 1]`. -/
theorem round_fallback_witness :
    DISR dblOps bitsCollab 2 2 1 (vec [0, 1]) (vec [0, 1]) = .ok [1, 1] ∧
    ∃ out, DISR dblOps bitsCollab 2 2 1 (vec [0, 1]) (vec [0, 1]) = .ok out ∧
      out.take 1 = (selectSeq dblOps bitsCollab 2 1 (vec [0, 1]) (vec [0, 1]) (1 - 1)).map
        (fun (s : Nat) => (s : Int) + 1) ∧
      out[1]? = some 1 :=
  ⟨by decide,
   (round_fallback dblOps bitsCollab 2 2 1 (vec [0, 1]) (vec [0, 1]) 1 (by decide) (by decide)
    ⟨0, by decide, by decide⟩
    (fun j hj hjo => by
      have hj0 : j = 0 := by omega
      subst hj0
      exact absurd (by decide) hjo)).1⟩

/-! ### Scans under an ordering comparison -/

theorem seedScan_eq_bestScan {D : Type} (ops : DoubleOps D) (col : Collaborators D)
    (noOfSamples : Int) (featureMatrix classColumn : List D) (m : Nat) :
    seedScan ops col noOfSamples featureMatrix classColumn m
      = bestScan ops.gt (classMIOf col noOfSamples featureMatrix classColumn) (fun _ => true)
          (ops.zero, -1) m := by
  induction m with
  | zero => rfl
  | succ m ih => simp only [seedScan, bestScan, ih, true_and]

theorem pickScan_eq_bestScan {D : Type} (ops : DoubleOps D) (col : Collaborators D)
    (noOfSamples : Int) (featureMatrix classColumn : List D) (outs : List Nat) (m : Nat) :
    pickScan ops col noOfSamples featureMatrix classColumn outs m
      = bestScan ops.gt (totalScore ops col noOfSamples featureMatrix classColumn outs)
          (fun j => decide (j ∉ outs)) (ops.zero, 0) m := by
  induction m with
  | zero => rfl
  | succ m ih =>
    simp only [pickScan, bestScan, ih, decide_eq_true_eq]
    by_cases hmem : m ∈ outs
    · simp [hmem]
    · simp [hmem]

/-- A scan under a strict weak order ends on the first candidate of greatest
value, provided some candidate beats the initial value; else it keeps `init`. -/
theorem bestScan_spec {D : Type} (gt : D → D → Bool) (val : Nat → D) (cand : Nat → Bool)
    (init : D × Int) (S : D → Prop) (n : Nat)
    (hS0 : S init.1) (hSv : ∀ j, j < n → cand j = true → S (val j))
    (hirr : ∀ a, S a → gt a a = false)
    (htr : ∀ a b c, S a → S b → S c → gt a b = true → gt b c = true → gt a c = true)
    (hneg : ∀ a b c, S a → S b → S c → gt a b = false → gt b c = false → gt a c = false)
    (m : Nat) (hm : m ≤ n) :
    (bestScan gt val cand init m = init ∧
      ∀ j, j < m → cand j = true → gt (val j) init.1 = false) ∨
    ∃ w : Nat, w < m ∧ cand w = true ∧ bestScan gt val cand init m = (val w, (w : Int)) ∧
      gt (val w) init.1 = true ∧
      (∀ j, j < m → cand j = true → gt (val j) (val w) = false) ∧
      (∀ j, j < w → cand j = true → gt (val w) (val j) = true) := by
  have hasym : ∀ a b, S a → S b → gt a b = true → gt b a = false := by
    intro a b ha hb hab
    by_contra hba
    have hba' : gt b a = true := by simpa using hba
    have := htr a b a ha hb ha hab hba'
    rw [hirr a ha] at this
    exact absurd this (by decide)
  have hbeat : ∀ a b c, S a → S b → S c → gt a b = true → gt c b = false → gt a c = true := by
    intro a b c ha hb hc hab hcb
    by_contra hac
    have hac' : gt a c = false := by simpa using hac
    have := hneg a c b ha hc hb hac' hcb
    rw [hab] at this
    exact absurd this (by decide)
  induction m with
  | zero => exact Or.inl ⟨rfl, fun j hj => absurd hj (Nat.not_lt_zero j)⟩
  | succ m ih =>
    have ih' := ih (by omega)
    by_cases hc : cand m = true
    · have hSm := hSv m (by omega) hc
      rcases ih' with ⟨h1, h2⟩ | ⟨w, hw, hcw, h1, h2, h3, h4⟩
      · by_cases hgt : gt (val m) init.1 = true
        · right
          refine ⟨m, Nat.lt_succ_self m, hc, ?_, hgt, ?_, ?_⟩
          · simp only [bestScan, h1, hc, hgt, and_self, if_true]
          · intro j hj hcj
            rcases Nat.lt_or_ge j m with h | h
            · exact hneg _ _ _ (hSv j (by omega) hcj) hS0 hSm (h2 j h hcj)
                (hasym _ _ hSm hS0 hgt)
            · have : j = m := by omega
              subst this
              exact hirr _ hSm
          · intro j hj hcj
            exact hbeat _ _ _ hSm hS0 (hSv j (by omega) hcj) hgt (h2 j hj hcj)
        · left
          have hgt' : gt (val m) init.1 = false := by simpa using hgt
          refine ⟨?_, ?_⟩
          · simp only [bestScan, h1, hgt', and_false, if_false]
            simp
          · intro j hj hcj
            rcases Nat.lt_or_ge j m with h | h
            · exact h2 j h hcj
            · have : j = m := by omega
              subst this
              exact hgt'
      · have hSw := hSv w (by omega) hcw
        by_cases hgt : gt (val m) (val w) = true
        · right
          refine ⟨m, Nat.lt_succ_self m, hc, ?_, htr _ _ _ hSm hSw hS0 hgt h2, ?_, ?_⟩
          · simp only [bestScan, h1, hc, hgt, and_self, if_true]
          · intro j hj hcj
            rcases Nat.lt_or_ge j m with h | h
            · exact hneg _ _ _ (hSv j (by omega) hcj) hSw hSm (h3 j h hcj)
                (hasym _ _ hSm hSw hgt)
            · have : j = m := by omega
              subst this
              exact hirr _ hSm
          · intro j hj hcj
            exact hbeat _ _ _ hSm hSw (hSv j (by omega) hcj) hgt (h3 j hj hcj)
        · right
          have hgt' : gt (val m) (val w) = false := by simpa using hgt
          refine ⟨w, by omega, hcw, ?_, h2, ?_, h4⟩
          · simp only [bestScan, h1, hgt', and_false, if_false]
            simp
          · intro j hj hcj
            rcases Nat.lt_or_ge j m with h | h
            · exact h3 j h hcj
            · have : j = m := by omega
              subst this
              exact hgt'
    · have hstay : bestScan gt val cand init (m + 1) = bestScan gt val cand init m := by
        simp only [bestScan, hc, false_and, if_false]
        simp
      rw [hstay]
      rcases ih' with ⟨h1, h2⟩ | ⟨w, hw, hcw, h1, h2, h3, h4⟩
      · refine Or.inl ⟨h1, fun j hj hcj => ?_⟩
        rcases Nat.lt_or_ge j m with h | h
        · exact h2 j h hcj
        · have : j = m := by omega
          subst this
          exact absurd hcj hc
      · refine Or.inr ⟨w, by omega, hcw, h1, h2, fun j hj hcj => ?_, h4⟩
        rcases Nat.lt_or_ge j m with h | h
        · exact h3 j h hcj
        · have : j = m := by omega
          subst this
          exact absurd hcj hc

theorem seedScan_first_max {D : Type} (ops : DoubleOps D) (col : Collaborators D)
    (noOfSamples : Int) (featureMatrix classColumn : List D) (N : Nat)
    (hord : StrictWeakOn ops.gt (ops.zero ::
      (List.range N).map (classMIOf col noOfSamples featureMatrix classColumn))) :
    (seedScan ops col noOfSamples featureMatrix classColumn N = (ops.zero, -1) ∧
      ∀ p, p < N →
        ops.gt (classMIOf col noOfSamples featureMatrix classColumn p) ops.zero = false) ∨
    ∃ c : Nat, c < N ∧
      seedScan ops col noOfSamples featureMatrix classColumn N
        = (classMIOf col noOfSamples featureMatrix classColumn c, (c : Int)) ∧
      ops.gt (classMIOf col noOfSamples featureMatrix classColumn c) ops.zero = true ∧
      (∀ p, p < N → ops.gt (classMIOf col noOfSamples featureMatrix classColumn p)
        (classMIOf col noOfSamples featureMatrix classColumn c) = false) ∧
      (∀ p, p < c → ops.gt (classMIOf col noOfSamples featureMatrix classColumn c)
        (classMIOf col noOfSamples featureMatrix classColumn p) = true) := by
  obtain ⟨hirr, htr, hneg⟩ := hord
  have h := bestScan_spec ops.gt (classMIOf col noOfSamples featureMatrix classColumn)
    (fun _ => true) (ops.zero, -1)
    (fun a => a ∈ ops.zero :: (List.range N).map
      (classMIOf col noOfSamples featureMatrix classColumn)) N
    (List.mem_cons_self _ _)
    (fun j hj _ => List.mem_cons_of_mem _ (List.mem_map.mpr ⟨j, List.mem_range.mpr hj, rfl⟩))
    hirr (fun a b c ha hb hc => htr a ha b hb c hc) (fun a b c ha hb hc => hneg a ha b hb c hc)
    N (le_refl N)
  rw [← seedScan_eq_bestScan] at h
  rcases h with ⟨h1, h2⟩ | ⟨w, hw, -, h1, h2, h3, h4⟩
  · exact Or.inl ⟨h1, fun p hp => h2 p hp rfl⟩
  · exact Or.inr ⟨w, hw, h1, h2, fun p hp => h3 p hp rfl, fun p hp => h4 p hp rfl⟩

theorem pickScan_first_max {D : Type} (ops : DoubleOps D) (col : Collaborators D)
    (noOfSamples : Int) (featureMatrix classColumn : List D) (outs : List Nat) (N : Nat)
    (hord : StrictWeakOn ops.gt (ops.zero ::
      ((List.range N).filter (fun j => decide (j ∉ outs))).map
        (totalScore ops col noOfSamples featureMatrix classColumn outs)))
    (hpos : ∃ j, j < N ∧ j ∉ outs ∧
      ops.gt (totalScore ops col noOfSamples featureMatrix classColumn outs j) ops.zero = true) :
    ∃ w : Nat, w < N ∧ w ∉ outs ∧
      (pickScan ops col noOfSamples featureMatrix classColumn outs N).2 = (w : Int) ∧
      ops.gt (totalScore ops col noOfSamples featureMatrix classColumn outs w) ops.zero = true ∧
      (∀ j, j < N → j ∉ outs →
        ops.gt (totalScore ops col noOfSamples featureMatrix classColumn outs j)
          (totalScore ops col noOfSamples featureMatrix classColumn outs w) = false) ∧
      (∀ j, j < w → j ∉ outs →
        ops.gt (totalScore ops col noOfSamples featureMatrix classColumn outs w)
          (totalScore ops col noOfSamples featureMatrix classColumn outs j) = true) := by
  obtain ⟨hirr, htr, hneg⟩ := hord
  have h := bestScan_spec ops.gt (totalScore ops col noOfSamples featureMatrix classColumn outs)
    (fun j => decide (j ∉ outs)) (ops.zero, 0)
    (fun a => a ∈ ops.zero :: ((List.range N).filter (fun j => decide (j ∉ outs))).map
      (totalScore ops col noOfSamples featureMatrix classColumn outs)) N
    (List.mem_cons_self _ _)
    (fun j hj hc => List.mem_cons_of_mem _ (List.mem_map.mpr
      ⟨j, List.mem_filter.mpr ⟨List.mem_range.mpr hj, hc⟩, rfl⟩))
    hirr (fun a b c ha hb hc => htr a ha b hb c hc) (fun a b c ha hb hc => hneg a ha b hb c hc)
    N (le_refl N)
  rw [← pickScan_eq_bestScan] at h
  rcases h with ⟨-, h2⟩ | ⟨w, hw, hcw, h1, h2, h3, h4⟩
  · obtain ⟨j, hj, hjo, hgt⟩ := hpos
    have := h2 j hj (by simpa using hjo)
    rw [hgt] at this
    exact absurd this (by decide)
  · refine ⟨w, hw, by simpa using hcw, by rw [h1], h2,
      fun j hj hjo => h3 j hj (by simpa using hjo),
      fun j hj hjo => h4 j hj (by simpa using hjo)⟩

/-- C14. Let `outs = selectSeq (i - 1)` be the selections made before round `i`
(`1 ≤ i < k`) and `S j = totalScore outs j` the total score of feature `j`. If
`>` orders `0.0` and the scores of the unselected features, and some unselected
feature has a score greater than `0.0`, then the value at position `i` of the
output is `w + 1` for a feature `w` that was unselected before the round, that
no unselected feature beats, and that beats every unselected feature of lower
index: the lowest index among the unselected features of maximal score. -/
theorem conditional_greedy_optimality {D : Type} (ops : DoubleOps D) (col : Collaborators D)
    (k noOfSamples noOfFeatures : Int) (featureMatrix classColumn : List D) (i : Nat)
    (hi : 1 ≤ i) (hik : (i : Int) < k)
    (hseed : ∃ p : Nat, (p : Int) < noOfFeatures ∧
      ops.gt (classMIOf col noOfSamples featureMatrix classColumn p) ops.zero = true)
    (hord : StrictWeakOn ops.gt (ops.zero ::
      ((List.range noOfFeatures.toNat).filter (fun j => decide
        (j ∉ selectSeq ops col noOfSamples noOfFeatures featureMatrix classColumn (i - 1)))).map
        (totalScore ops col noOfSamples featureMatrix classColumn
          (selectSeq ops col noOfSamples noOfFeatures featureMatrix classColumn (i - 1)))))
    (hpos : ∃ j : Nat, (j : Int) < noOfFeatures ∧
      j ∉ selectSeq ops col noOfSamples noOfFeatures featureMatrix classColumn (i - 1) ∧
      ops.gt (totalScore ops col noOfSamples featureMatrix classColumn
        (selectSeq ops col noOfSamples noOfFeatures featureMatrix classColumn (i - 1)) j)
        ops.zero = true) :
    ∃ (out : List Int) (w : Nat),
      DISR ops col k noOfSamples noOfFeatures featureMatrix classColumn = .ok out ∧
      out.take i = (selectSeq ops col noOfSamples noOfFeatures featureMatrix classColumn
        (i - 1)).map (fun (s : Nat) => (s : Int) + 1) ∧
      out[i]? = some ((w : Int) + 1) ∧
      (w : Int) < noOfFeatures ∧
      w ∉ selectSeq ops col noOfSamples noOfFeatures featureMatrix classColumn (i - 1) ∧
      (∀ j : Nat, (j : Int) < noOfFeatures →
        j ∉ selectSeq ops col noOfSamples noOfFeatures featureMatrix classColumn (i - 1) →
        ops.gt (totalScore ops col noOfSamples featureMatrix classColumn
            (selectSeq ops col noOfSamples noOfFeatures featureMatrix classColumn (i - 1)) j)
          (totalScore ops col noOfSamples featureMatrix classColumn
            (selectSeq ops col noOfSamples noOfFeatures featureMatrix classColumn (i - 1)) w)
          = false) ∧
      (∀ j : Nat, j < w →
        j ∉ selectSeq ops col noOfSamples noOfFeatures featureMatrix classColumn (i - 1) →
        ops.gt (totalScore ops col noOfSamples featureMatrix classColumn
            (selectSeq ops col noOfSamples noOfFeatures featureMatrix classColumn (i - 1)) w)
          (totalScore ops col noOfSamples featureMatrix classColumn
            (selectSeq ops col noOfSamples noOfFeatures featureMatrix classColumn (i - 1)) j)
          = true) := by
  obtain ⟨out, h1, h2, h3⟩ := DISR_entry ops col k noOfSamples noOfFeatures featureMatrix
    classColumn i hi hik hseed
  obtain ⟨j, hj, hjo, hgt⟩ := hpos
  obtain ⟨w, hw, hwo, hpw, -, hmax, hfirst⟩ := pickScan_first_max ops col noOfSamples
    featureMatrix classColumn _ noOfFeatures.toNat hord ⟨j, by omega, hjo, hgt⟩
  refine ⟨out, w, h1, h2, ?_, by omega, hwo, fun j hj hjo => hmax j (by omega) hjo, hfirst⟩
  rw [h3]
  simp only [pick, hpw, Int.toNat_natCast]

/-- C14, on an example: three features of four samples; before round 1 feature 1
is selected, features 0 and 2 tie at the score 1/2, and the round stores
feature 0 (the run returns `[2, 1, 3]`). -/
theorem conditional_greedy_optimality_witness :
    DISR dblOps bitsCollab 3 4 3 (vec [0, 1, 0, 1, 0, 0, 1, 1, 0, 1, 1, 0]) (vec [0, 0, 1, 1])
      = .ok [2, 1, 3] ∧
    totalScore dblOps bitsCollab 4 (vec [0, 1, 0, 1, 0, 0, 1, 1, 0, 1, 1, 0]) (vec [0, 0, 1, 1])
      [1] 0 = Dbl.fin 1 2 ∧
    totalScore dblOps bitsCollab 4 (vec [0, 1, 0, 1, 0, 0, 1, 1, 0, 1, 1, 0]) (vec [0, 0, 1, 1])
      [1] 2 = Dbl.fin 1 2 ∧
    ∃ (out : List Int) (w : Nat),
      DISR dblOps bitsCollab 3 4 3 (vec [0, 1, 0, 1, 0, 0, 1, 1, 0, 1, 1, 0]) (vec [0, 0, 1, 1])
        = .ok out ∧
      out[1]? = some ((w : Int) + 1) ∧
      w ∉ selectSeq dblOps bitsCollab 4 3 (vec [0, 1, 0, 1, 0, 0, 1, 1, 0, 1, 1, 0])
        (vec [0, 0, 1, 1]) (1 - 1) := by
  refine ⟨by decide, by decide, by decide, ?_⟩
  obtain ⟨out, w, h1, -, h3, -, h5, -, -⟩ := conditional_greedy_optimality dblOps bitsCollab
    3 4 3 (vec [0, 1, 0, 1, 0, 0, 1, 1, 0, 1, 1, 0]) (vec [0, 0, 1, 1]) 1 (by decide)
    (by decide) ⟨1, by decide, by decide⟩ (by decide) ⟨0, by decide, by decide, by decide⟩
  exact ⟨out, w, h1, h3, h5⟩

/-- C11 (defect of the code). The round does not always store an unselected feature of
highest score. For a constant class column (`k = 2` of 2 features) no feature
is marked by the seed step and the run faults before round 1 can choose; and
when no unselected feature has a score above `0.0` the round keeps its initial
`currentHighestFeature = 0`: with `k = 2` and a single feature, round 1 stores
feature 0, which the seed step had selected, and the run returns `[1, 1]`. -/
theorem round_misses_unselected_best :
    DISR dblOps bitsCollab 2 2 2 (vec [0, 1, 1, 0]) (vec [7, 7]) = .error .outOfBounds ∧
    DISR dblOps bitsCollab 2 2 1 (vec [0, 1]) (vec [0, 1]) = .ok [1, 1] ∧
    selectSeq dblOps bitsCollab 2 1 (vec [0, 1]) (vec [0, 1]) 0 = [0] ∧
    pick dblOps bitsCollab 2 1 (vec [0, 1]) (vec [0, 1]) [0] = 0 := by
  decide

/-- C18 (defect of the code). For a constant class column no `classMI[i]` is greater
than `0.0` and the seed index is -1. The store `selectedFeatures[-1] = 1` of
line 107 is then outside the block: the run faults, for `k = 1` and for
`k = 2`, and for no `k` does it return an output whose first value is 0. The
value 0 is what lines 108 and 163-166 taken alone would leave in
`outputFeatures[0]`; it is reached only past the out-of-bounds store and is not
the 1-based index of any feature. -/
theorem seed_fallback_out_of_bounds :
    (∀ p, p < 2 → dblOps.gt (classMIOf bitsCollab 2 (vec [0, 1, 1, 0]) (vec [3, 3]) p)
      dblOps.zero = false) ∧
    seedIndex dblOps bitsCollab 2 2 (vec [0, 1, 1, 0]) (vec [3, 3]) = -1 ∧
    writeAt (List.replicate 2 (0 : Nat))
      (seedIndex dblOps bitsCollab 2 2 (vec [0, 1, 1, 0]) (vec [3, 3])) 1
      = .error .outOfBounds ∧
    (writeAt (List.replicate 1 (0 : Int)) 0
      (seedIndex dblOps bitsCollab 2 2 (vec [0, 1, 1, 0]) (vec [3, 3]))
      >>= finalize 1) = .ok [0] ∧
    DISR dblOps bitsCollab 1 2 2 (vec [0, 1, 1, 0]) (vec [3, 3]) = .error .outOfBounds ∧
    DISR dblOps bitsCollab 2 2 2 (vec [0, 1, 1, 0]) (vec [3, 3]) = .error .outOfBounds ∧
    ¬ ∃ k out, DISR dblOps bitsCollab k 2 2 (vec [0, 1, 1, 0]) (vec [3, 3]) = .ok out ∧
        out[0]? = some 0 := by
  refine ⟨by decide, by decide, by decide, by decide, by decide, by decide, ?_⟩
  rintro ⟨k, out, h, -⟩
  rw [DISR_eq_selection] at h
  simp only [selection] at h
  rw [if_neg (fun hc => absurd hc.2 (by decide))] at h
  cases h

/-- The seed step in general. The seed loop ends with
`maxMICounter = seedIndex`, which is -1 exactly when no feature has
`classMI > 0.0`; the checked run then faults at the store
`selectedFeatures[-1]`. Otherwise, when `>` orders `0.0` and the values of
`classMI`, the seed index is the lowest index whose `classMI` is maximal, and
for `k ≥ 1` the first value of the output is that index plus 1. -/
theorem seed_fallback {D : Type} (ops : DoubleOps D) (col : Collaborators D)
    (k noOfSamples noOfFeatures : Int) (featureMatrix classColumn : List D) :
    (∀ feature2D, initFeature2D featureMatrix noOfSamples noOfFeatures = .ok feature2D →
      ∃ s, seedLoop ops col noOfSamples noOfFeatures feature2D classColumn = .ok s ∧
        s.maxMICounter
          = seedIndex ops col noOfSamples noOfFeatures featureMatrix classColumn) ∧
    (seedIndex ops col noOfSamples noOfFeatures featureMatrix classColumn = -1 ↔
      ∀ p : Nat, (p : Int) < noOfFeatures →
        ops.gt (classMIOf col noOfSamples featureMatrix classColumn p) ops.zero = false) ∧
    (seedIndex ops col noOfSamples noOfFeatures featureMatrix classColumn = -1 →
      DISR ops col k noOfSamples noOfFeatures featureMatrix classColumn
        = .error .outOfBounds) ∧
    (StrictWeakOn ops.gt (ops.zero :: (List.range noOfFeatures.toNat).map
        (classMIOf col noOfSamples featureMatrix classColumn)) →
      seedIndex ops col noOfSamples noOfFeatures featureMatrix classColumn ≠ -1 →
      ∃ c : Nat, seedIndex ops col noOfSamples noOfFeatures featureMatrix classColumn = (c : Int) ∧
        (c : Int) < noOfFeatures ∧
        (∀ p : Nat, (p : Int) < noOfFeatures →
          ops.gt (classMIOf col noOfSamples featureMatrix classColumn p)
            (classMIOf col noOfSamples featureMatrix classColumn c) = false) ∧
        (∀ p : Nat, p < c →
          ops.gt (classMIOf col noOfSamples featureMatrix classColumn c)
            (classMIOf col noOfSamples featureMatrix classColumn p) = true) ∧
        (1 ≤ k → ∃ rest, DISR ops col k noOfSamples noOfFeatures featureMatrix classColumn
          = .ok (((c : Int) + 1) :: rest))) := by
  have hb := seedIndex_lt ops col noOfSamples noOfFeatures featureMatrix classColumn
  refine ⟨?_, ?_, ?_, ?_⟩
  · intro feature2D hf
    rw [initFeature2D_eq] at hf
    injection hf with hf
    subst hf
    exact ⟨_, seedLoop_eq ops col noOfSamples noOfFeatures featureMatrix classColumn, rfl⟩
  · have h := seedIndex_nonneg_iff ops col noOfSamples noOfFeatures featureMatrix classColumn
    constructor
    · intro hneg p hp
      by_contra hg
      have : 0 ≤ seedIndex ops col noOfSamples noOfFeatures featureMatrix classColumn :=
        h.mpr ⟨p, hp, by simpa using hg⟩
      omega
    · intro hall
      by_contra hne
      obtain ⟨p, hp, hg⟩ := h.mp (by omega)
      rw [hall p hp] at hg
      exact absurd hg (by decide)
  · intro hneg
    rw [DISR_eq_selection]
    simp only [selection]
    rw [if_neg (fun h => by omega)]
  · intro hord hne
    rcases seedScan_first_max ops col noOfSamples featureMatrix classColumn noOfFeatures.toNat
      hord with ⟨h1, -⟩ | ⟨c, hc, h1, -, hmax, hfirst⟩
    · exact absurd (by simp only [seedIndex, h1]) hne
    · have hsi : seedIndex ops col noOfSamples noOfFeatures featureMatrix classColumn
          = (c : Int) := by simp only [seedIndex, h1]
      refine ⟨c, hsi, by omega, fun p hp => hmax p (by omega), hfirst, fun hk => ?_⟩
      obtain ⟨rest, hrest⟩ := selectSeq_head ops col noOfSamples noOfFeatures featureMatrix
        classColumn (k - 1).toNat
      rw [hsi, Int.toNat_natCast] at hrest
      refine ⟨rest.map (fun (s : Nat) => (s : Int) + 1), ?_⟩
      rw [DISR_eq_selection]
      simp only [selection]
      rw [if_pos ⟨hk, by rw [hsi]; exact Int.natCast_nonneg c⟩, hrest]
      rfl

/-- The seed step on an example: three features of four samples with
`classMI = [0, 1, 0]`; the seed index is 1 and the first output is 2. -/
theorem seed_fallback_witness :
    seedIndex dblOps bitsCollab 4 3 (vec [0, 1, 0, 1, 0, 0, 1, 1, 0, 1, 1, 0]) (vec [0, 0, 1, 1])
      = 1 ∧
    ∃ c : Nat, seedIndex dblOps bitsCollab 4 3 (vec [0, 1, 0, 1, 0, 0, 1, 1, 0, 1, 1, 0])
        (vec [0, 0, 1, 1]) = (c : Int) ∧
      (c : Int) < 3 ∧
      (1 ≤ (3 : Int) → ∃ rest, DISR dblOps bitsCollab 3 4 3
        (vec [0, 1, 0, 1, 0, 0, 1, 1, 0, 1, 1, 0]) (vec [0, 0, 1, 1])
          = .ok (((c : Int) + 1) :: rest)) := by
  refine ⟨by decide, ?_⟩
  obtain ⟨c, h1, h2, -, -, h5⟩ := (seed_fallback dblOps bitsCollab 3 4 3
    (vec [0, 1, 0, 1, 0, 0, 1, 1, 0, 1, 1, 0]) (vec [0, 0, 1, 1])).2.2.2 (by decide) (by decide)
  exact ⟨c, h1, h2, h5⟩

/-! ### The recorded run -/

theorem stable_refl {D : Type} (ops : DoubleOps D) (ca : List D) : Stable ops ca ca :=
  fun _ _ h _ => h

theorem stable_trans {D : Type} (ops : DoubleOps D) (a b ca : List D)
    (h1 : Stable ops a b) (h2 : Stable ops b ca) : Stable ops a ca :=
  fun q v hq hv => h2 q v (h1 q v hq hv) hv

/-- One iteration of the innermost loop: it adds `R(x, j)` to the score, keeps
the cache consistent, and changes at most the cell `(x, j)`, only when that
cell tests as the mark. -/
theorem pairBody_step {D : Type} (ops : DoubleOps D) (col : Collaborators D)
    (noOfSamples : Int) (featureMatrix classColumn : List D) (N K : Nat)
    (outs : List Nat) (sel : List Nat) (out : List Int) (ca : List D) (sc : D) (j x : Nat)
    (hso : SelOutOK N K outs sel out) (hj : j < N) (hx : x < outs.length)
    (hc : CacheOK ops col noOfSamples featureMatrix classColumn N (K * N) outs ca) :
    ∃ cb sx cell, outs[x]? = some sx ∧ sx < N ∧ ca[x * N + j]? = some cell ∧
      readAt ca ((x : Int) * (N : Int) + (j : Int)) = .ok cell ∧
      pairBody ops col noOfSamples (N : Int)
          ((List.range N).map (column featureMatrix noOfSamples)) classColumn out j x
          { featureMIMatrix := ca, currentScore := sc }
        = .ok { featureMIMatrix := cb,
                currentScore := ops.add sc
                  (relevance ops col noOfSamples featureMatrix classColumn sx j) } ∧
      CacheOK ops col noOfSamples featureMatrix classColumn N (K * N) outs cb ∧
      Stable ops ca cb ∧
      cb[x * N + j]? = some (relevance ops col noOfSamples featureMatrix classColumn sx j) ∧
      (ops.eq cell ops.negOne = false → cb = ca) := by
  obtain ⟨hsl, hsg, hol, hog, hlt, hlen⟩ := hso
  obtain ⟨hfl, hfc⟩ := hc
  obtain ⟨sx, hsx⟩ : ∃ sx, outs[x]? = some sx := ⟨_, List.getElem?_eq_getElem hx⟩
  have hsxN : sx < N := hlt _ (List.getElem?_mem hsx)
  have hpos : (x : Int) * (N : Int) + (j : Int) = ((x * N + j : Nat) : Int) := by
    push_cast; rfl
  have hp : x * N + j < K * N := by
    have h1 : (x + 1) * N ≤ outs.length * N := Nat.mul_le_mul_right N hx
    have h2 : (x + 1) * N = x * N + N := by ring
    have h3 : outs.length * N ≤ K * N := Nat.mul_le_mul_right N hlen
    omega
  obtain ⟨hdiv, hmod⟩ := cell_index N x j hj
  obtain ⟨cell, hcell⟩ : ∃ cell, ca[x * N + j]? = some cell :=
    ⟨_, List.getElem?_eq_getElem (by omega)⟩
  have hread : readAt ca ((x : Int) * (N : Int) + (j : Int)) = .ok cell := by
    rw [hpos]; exact readAt_natCast _ _ _ hcell
  by_cases heq : ops.eq cell ops.negOne = true
  · refine ⟨ca.set (x * N + j) (relevance ops col noOfSamples featureMatrix classColumn sx j),
      sx, cell, hsx, hsxN, hcell, hread, ?_, ⟨by simp [hfl], ?_⟩, ?_,
      List.getElem?_set_self (by omega), fun h => by rw [heq] at h; exact absurd h (by decide)⟩
    · simp only [pairBody]
      rw [hpos, readAt_natCast _ _ _ hcell, bind_ok, if_pos heq,
        readAt_natCast _ x _ (hog x _ hsx), bind_ok,
        readAt_natCast _ _ _ (feature2D_get featureMatrix noOfSamples N _ hsxN), bind_ok,
        readAt_natCast _ j _ (feature2D_get featureMatrix noOfSamples N j hj), bind_ok,
        writeAt_natCast _ _ _ (by omega), bind_ok,
        readAt_natCast _ _ _ (List.getElem?_set_self (by omega)), bind_ok]
      rfl
    · intro p hpp
      by_cases hpe : x * N + j = p
      · subst hpe
        right
        refine ⟨sx, by rw [hdiv]; exact hsx, ?_⟩
        rw [List.getElem?_set_self (by omega), hmod]
      · simp only [List.getElem?_set_ne hpe]
        exact hfc p hpp
    · intro q v hq hv
      by_cases hpe : x * N + j = q
      · subst hpe
        rw [hcell] at hq
        injection hq with hq
        rw [hq, hv] at heq
        exact absurd heq (by decide)
      · rw [List.getElem?_set_ne hpe]
        exact hq
  · have hval : cell = relevance ops col noOfSamples featureMatrix classColumn sx j := by
      rcases hfc _ hp with h | ⟨sx', h1, h2⟩
      · rw [hcell] at h
        injection h with h
        rw [h, ops.eq_negOne] at heq
        exact absurd rfl heq
      · rw [hdiv, hsx] at h1
        injection h1 with h1
        rw [hcell, hmod] at h2
        injection h2 with h2
        rw [h2, h1]
    refine ⟨ca, sx, cell, hsx, hsxN, hcell, hread, ?_, ⟨hfl, hfc⟩, stable_refl ops ca,
      by rw [hcell, hval], fun _ => rfl⟩
    simp only [pairBody]
    rw [hpos, readAt_natCast _ _ _ hcell, bind_ok, if_neg heq, pure_bind_eq,
      readAt_natCast _ _ _ hcell, bind_ok, hval]
    rfl

theorem mem_computedCells {D : Type} (log : List (CacheEvent D)) (x j : Nat) :
    (x, j) ∈ computedCells log ↔
      ∃ e, e ∈ log ∧ e.computed = true ∧ e.row = x ∧ e.feature = j := by
  simp only [computedCells, List.mem_map, List.mem_filter, Prod.mk.injEq]
  constructor
  · rintro ⟨e, ⟨h1, h2⟩, h3, h4⟩
    exact ⟨e, h1, h2, h3, h4⟩
  · rintro ⟨e, h1, h2, h3, h4⟩
    exact ⟨e, ⟨h1, h2⟩, h3, h4⟩

theorem computedCells_append {D : Type} (log : List (CacheEvent D)) (e : CacheEvent D) :
    computedCells (log ++ [e])
      = computedCells log ++ (if e.computed = true then [(e.row, e.feature)] else []) := by
  simp only [computedCells, List.filter_append, List.map_append]
  by_cases h : e.computed = true
  · simp [h]
  · simp [h]

/-- The records stay consistent when one iteration of the innermost loop adds
its record. -/
theorem logOK_step {D : Type} (ops : DoubleOps D) (col : Collaborators D)
    (noOfSamples : Int) (featureMatrix classColumn : List D) (N K : Nat)
    (outs : List Nat) (fmm fmm' : List D) (log : List (CacheEvent D)) (x j sx : Nat) (cell : D)
    (hx : x < outs.length) (hK : outs.length < K) (hj : j < N)
    (hsxN : sx < N) (hcell : fmm[x * N + j]? = some cell)
    (hc' : CacheOK ops col noOfSamples featureMatrix classColumn N (K * N) outs fmm')
    (hst : Stable ops fmm fmm')
    (hnew : fmm'[x * N + j]?
      = some (relevance ops col noOfSamples featureMatrix classColumn sx j))
    (hsame : ops.eq cell ops.negOne = false → fmm' = fmm)
    (hlog : LogOK ops col noOfSamples featureMatrix classColumn N K outs fmm log) :
    LogOK ops col noOfSamples featureMatrix classColumn N K outs fmm'
      (log ++ [{ round := outs.length, row := x, feature := j,
                 computed := ops.eq cell ops.negOne, cache := fmm' }]) := by
  obtain ⟨h1, h2, h3⟩ := hlog
  refine ⟨?_, ?_, ?_⟩
  · intro e he
    rw [List.mem_append, List.mem_singleton] at he
    rcases he with he | he
    · exact ⟨(h1 e he).1, stable_trans ops _ _ _ (h1 e he).2 hst⟩
    · subst he
      refine ⟨⟨hx, le_refl _, hK, hj, hc'.1, fun q hq => ?_⟩, stable_refl ops _⟩
      rcases hc'.2 q hq with h | ⟨sx', ha, hb⟩
      · exact Or.inl h
      · refine Or.inr ⟨sx', ?_, ha, hb⟩
        rcases Nat.lt_or_ge (q / N) outs.length with hlt | hge
        · exact hlt
        · rw [List.getElem?_eq_none hge] at ha
          exact absurd ha (by simp)
  · rw [List.pairwise_append]
    refine ⟨h2, List.pairwise_singleton _ _, fun a ha b hb => ?_⟩
    rw [List.mem_singleton] at hb
    subst hb
    exact stable_trans ops _ _ _ (h1 a ha).2 hst
  · intro hR
    obtain ⟨hnd, hval⟩ := h3 hR
    rw [computedCells_append]
    by_cases hcomp : ops.eq cell ops.negOne = true
    · simp only [hcomp, if_true]
      constructor
      · rw [List.nodup_append]
        refine ⟨hnd, List.nodup_singleton _, ?_⟩
        intro a ha hb
        rw [List.mem_singleton] at hb
        subst hb
        obtain ⟨e, he, hec, her, hef⟩ := (mem_computedCells log x j).mp ha
        obtain ⟨v, hv1, hv2⟩ := hval e he hec
        rw [her, hef, hcell] at hv1
        injection hv1 with hv1
        rw [hv1, hv2] at hcomp
        exact absurd hcomp (by decide)
      · intro e he hec
        rw [List.mem_append, List.mem_singleton] at he
        rcases he with he | he
        · obtain ⟨v, hv1, hv2⟩ := hval e he hec
          exact ⟨v, hst _ _ hv1 hv2, hv2⟩
        · subst he
          exact ⟨_, hnew, hR sx j hsxN hj⟩
    · have hcomp' : ops.eq cell ops.negOne = false := by simpa using hcomp
      have hfm := hsame hcomp'
      subst hfm
      simp only [hcomp', Bool.false_eq_true, if_false, List.append_nil]
      refine ⟨hnd, fun e he hec => ?_⟩
      rw [List.mem_append, List.mem_singleton] at he
      rcases he with he | he
      · exact hval e he hec
      · subst he
        exact absurd hec (by simp [hcomp'])

theorem pairLoopLogged_inv {D : Type} (ops : DoubleOps D) (col : Collaborators D)
    (noOfSamples : Int) (featureMatrix classColumn : List D) (N K : Nat)
    (outs : List Nat) (sel : List Nat) (out : List Int) (fmm : List D)
    (log : List (CacheEvent D)) (j : Nat)
    (hso : SelOutOK N K outs sel out) (hK : outs.length < K) (hj : j < N)
    (hc : CacheOK ops col noOfSamples featureMatrix classColumn N (K * N) outs fmm)
    (hlog : LogOK ops col noOfSamples featureMatrix classColumn N K outs fmm log) :
    ∃ fmm' log', forRange
        (pairBodyLogged ops col noOfSamples (N : Int)
          ((List.range N).map (column featureMatrix noOfSamples)) classColumn out outs.length j)
        0 outs.length ({ featureMIMatrix := fmm, currentScore := ops.zero }, log)
      = .ok ({ featureMIMatrix := fmm',
               currentScore := totalScore ops col noOfSamples featureMatrix classColumn outs j },
             log') ∧
      CacheOK ops col noOfSamples featureMatrix classColumn N (K * N) outs fmm' ∧
      LogOK ops col noOfSamples featureMatrix classColumn N K outs fmm' log' ∧
      Stable ops fmm fmm' := by
  obtain ⟨s, hs, hcache, hscore, hlg, hstab⟩ := forRange_inv
    (pairBodyLogged ops col noOfSamples (N : Int)
      ((List.range N).map (column featureMatrix noOfSamples)) classColumn out outs.length j)
    (fun x s =>
      CacheOK ops col noOfSamples featureMatrix classColumn N (K * N) outs s.1.featureMIMatrix ∧
      s.1.currentScore
        = totalScore ops col noOfSamples featureMatrix classColumn (outs.take x) j ∧
      LogOK ops col noOfSamples featureMatrix classColumn N K outs s.1.featureMIMatrix s.2 ∧
      Stable ops fmm s.1.featureMIMatrix)
    outs.length 0 ({ featureMIMatrix := fmm, currentScore := ops.zero }, log)
    ⟨hc, by simp [totalScore], hlog, stable_refl ops fmm⟩
    (fun x s _ hx hP => by
      obtain ⟨⟨cfm, csc⟩, lg⟩ := s
      obtain ⟨hca, hsc, hlg, hstab⟩ := hP
      simp only at hca hsc hlg hstab
      obtain ⟨fmm', sx, cell, hsx, hsxN, hcell, hread, hbody, hca', hst, hnew, hsame⟩ :=
        pairBody_step ops col noOfSamples featureMatrix classColumn N K outs sel out cfm csc
          j x hso hj (by omega) hca
      refine ⟨({ featureMIMatrix := fmm',
                 currentScore := ops.add csc
                   (relevance ops col noOfSamples featureMatrix classColumn sx j) },
               lg ++ [{ round := outs.length, row := x, feature := j,
                        computed := ops.eq cell ops.negOne, cache := fmm' }]), ?_,
        hca', ?_, ?_, stable_trans ops _ _ _ hstab hst⟩
      · simp only [pairBodyLogged]
        rw [hread, bind_ok, hbody, bind_ok]
        rfl
      · show ops.add csc _ = _
        rw [totalScore_take_succ ops col noOfSamples featureMatrix classColumn outs j x _ hsx,
          hsc]
      · exact logOK_step ops col noOfSamples featureMatrix classColumn N K outs cfm fmm' lg
          x j sx cell (by omega) hK hj hsxN hcell hca' hst hnew hsame hlg)
  obtain ⟨⟨cfm, csc⟩, lg⟩ := s
  simp only [Nat.zero_add, List.take_length] at hscore hcache hlg hstab
  refine ⟨cfm, lg, ?_, hcache, hlg, hstab⟩
  rw [hs, hscore]

theorem featureLoopLogged_inv {D : Type} (ops : DoubleOps D) (col : Collaborators D)
    (noOfSamples : Int) (featureMatrix classColumn : List D) (N K : Nat)
    (outs : List Nat) (sel : List Nat) (out : List Int) (fmm : List D)
    (log : List (CacheEvent D))
    (hso : SelOutOK N K outs sel out) (hK : outs.length < K)
    (hc : CacheOK ops col noOfSamples featureMatrix classColumn N (K * N) outs fmm)
    (hlog : LogOK ops col noOfSamples featureMatrix classColumn N K outs fmm log) :
    ∃ fmm' log', forRange
        (featureBodyLogged ops col noOfSamples (N : Int)
          ((List.range N).map (column featureMatrix noOfSamples)) classColumn sel out outs.length)
        0 N ({ featureMIMatrix := fmm, score := ops.zero, currentHighestFeature := 0 }, log)
      = .ok ({ featureMIMatrix := fmm',
               score := (pickScan ops col noOfSamples featureMatrix classColumn outs N).1,
               currentHighestFeature :=
                 (pickScan ops col noOfSamples featureMatrix classColumn outs N).2 }, log') ∧
      CacheOK ops col noOfSamples featureMatrix classColumn N (K * N) outs fmm' ∧
      LogOK ops col noOfSamples featureMatrix classColumn N K outs fmm' log' := by
  obtain ⟨s, hs, hcache, hscan, hlg⟩ := forRange_inv
    (featureBodyLogged ops col noOfSamples (N : Int)
      ((List.range N).map (column featureMatrix noOfSamples)) classColumn sel out outs.length)
    (fun j s =>
      CacheOK ops col noOfSamples featureMatrix classColumn N (K * N) outs s.1.featureMIMatrix ∧
      (s.1.score, s.1.currentHighestFeature)
        = pickScan ops col noOfSamples featureMatrix classColumn outs j ∧
      LogOK ops col noOfSamples featureMatrix classColumn N K outs s.1.featureMIMatrix s.2)
    N 0 ({ featureMIMatrix := fmm, score := ops.zero, currentHighestFeature := 0 }, log)
    ⟨hc, rfl, hlog⟩
    (fun j s _ hj hP => by
      obtain ⟨⟨cfm, csc, chf⟩, lg⟩ := s
      obtain ⟨hca, hsc, hlg⟩ := hP
      simp only at hca hsc hlg
      have hj' : j < N := by omega
      have h1 : csc = (pickScan ops col noOfSamples featureMatrix classColumn outs j).1 := by
        rw [← hsc]
      simp only [featureBodyLogged]
      rw [readAt_natCast _ j _ (hso.2.1 j hj'), bind_ok]
      by_cases hmem : j ∈ outs
      · rw [if_pos hmem, if_neg (by decide)]
        refine ⟨_, rfl, hca, ?_, hlg⟩
        simp only [pickScan, if_pos hmem]
        exact hsc
      · rw [if_neg hmem, if_pos rfl]
        obtain ⟨fmm', log', hp, hca', hlg', -⟩ := pairLoopLogged_inv ops col noOfSamples
          featureMatrix classColumn N K outs sel out cfm lg j hso hK hj' hca hlg
        rw [hp, bind_ok]
        by_cases hgt : ops.gt (totalScore ops col noOfSamples featureMatrix classColumn outs j)
            csc = true
        · rw [if_pos hgt]
          refine ⟨_, rfl, hca', ?_, hlg'⟩
          rw [h1] at hgt
          simp only [pickScan, if_neg hmem, hgt, if_true]
        · rw [if_neg hgt]
          refine ⟨_, rfl, hca', ?_, hlg'⟩
          rw [h1] at hgt
          simp only [pickScan, if_neg hmem, hgt]
          simpa using hsc)
  obtain ⟨⟨cfm, csc, chf⟩, lg⟩ := s
  simp only [Nat.zero_add] at hscan hcache hlg
  refine ⟨cfm, lg, ?_, hcache, hlg⟩
  rw [hs]
  have h1 := congrArg Prod.fst hscan
  have h2 := congrArg Prod.snd hscan
  simp only at h1 h2
  rw [← h1, ← h2]

theorem logOK_snoc {D : Type} (ops : DoubleOps D) (col : Collaborators D)
    (noOfSamples : Int) (featureMatrix classColumn : List D) (N K : Nat)
    (outs : List Nat) (fmm : List D) (log : List (CacheEvent D)) (w : Nat)
    (h : LogOK ops col noOfSamples featureMatrix classColumn N K outs fmm log) :
    LogOK ops col noOfSamples featureMatrix classColumn N K (outs ++ [w]) fmm log := by
  obtain ⟨h1, h2, h3⟩ := h
  refine ⟨fun e he => ⟨?_, (h1 e he).2⟩, h2, h3⟩
  obtain ⟨ha, hb, hc, hd, he', hf⟩ := (h1 e he).1
  refine ⟨ha, by rw [List.length_append]; omega, hc, hd, he', fun q hq => ?_⟩
  rcases hf q hq with h | ⟨sx, hlt, hsx, hv⟩
  · exact Or.inl h
  · refine Or.inr ⟨sx, hlt, ?_, hv⟩
    rw [List.getElem?_append_left (by omega)]
    exact hsx

theorem roundBodyLogged_inv {D : Type} (ops : DoubleOps D) (col : Collaborators D)
    (noOfSamples : Int) (featureMatrix classColumn : List D) (N K : Nat)
    (outs : List Nat) (m : Mem D) (log : List (CacheEvent D)) (hN : 0 < N)
    (hK : outs.length < K)
    (hso : SelOutOK N K outs m.selectedFeatures m.outputFeatures)
    (hc : CacheOK ops col noOfSamples featureMatrix classColumn N (K * N) outs
      m.featureMIMatrix)
    (hlog : LogOK ops col noOfSamples featureMatrix classColumn N K outs m.featureMIMatrix log) :
    ∃ m' log', roundBodyLogged ops col noOfSamples (N : Int)
        ((List.range N).map (column featureMatrix noOfSamples)) classColumn outs.length (m, log)
      = .ok (m', log') ∧
      SelOutOK N K (outs ++ [pick ops col noOfSamples (N : Int) featureMatrix classColumn outs])
        m'.selectedFeatures m'.outputFeatures ∧
      CacheOK ops col noOfSamples featureMatrix classColumn N (K * N)
        (outs ++ [pick ops col noOfSamples (N : Int) featureMatrix classColumn outs])
        m'.featureMIMatrix ∧
      LogOK ops col noOfSamples featureMatrix classColumn N K
        (outs ++ [pick ops col noOfSamples (N : Int) featureMatrix classColumn outs])
        m'.featureMIMatrix log' := by
  obtain ⟨fmm', log', hf, hca, hlg⟩ := featureLoopLogged_inv ops col noOfSamples featureMatrix
    classColumn N K outs m.selectedFeatures m.outputFeatures m.featureMIMatrix log hso hK hc hlog
  obtain ⟨hpl, hpe⟩ := pick_lt ops col noOfSamples featureMatrix classColumn outs N hN
  simp only [roundBodyLogged, Int.toNat_natCast]
  rw [hf, bind_ok]
  simp only [hpe]
  rw [writeAt_natCast _ _ _ (by rw [hso.1]; exact hpl), bind_ok,
    writeAt_natCast _ _ _ (by rw [hso.2.2.1]; exact hK), bind_ok]
  exact ⟨_, _, rfl, selOutOK_snoc N K outs _ _ _ hso hpl hK,
    cacheOK_snoc ops col noOfSamples featureMatrix classColumn N (K * N) outs fmm' _ hca,
    logOK_snoc ops col noOfSamples featureMatrix classColumn N K outs fmm' log' _ hlg⟩

theorem roundsLogged_inv {D : Type} (ops : DoubleOps D) (col : Collaborators D)
    (noOfSamples : Int) (featureMatrix classColumn : List D) (N K : Nat) (hK : 1 ≤ K)
    (hc : 0 ≤ seedIndex ops col noOfSamples (N : Int) featureMatrix classColumn) :
    ∃ m log, forRange (roundBodyLogged ops col noOfSamples (N : Int)
        ((List.range N).map (column featureMatrix noOfSamples)) classColumn) 1 (K - 1)
        (seedMem ops col (K : Int) noOfSamples (N : Int) featureMatrix classColumn, [])
        = .ok (m, log) ∧
      m.outputFeatures
        = (selectSeq ops col noOfSamples (N : Int) featureMatrix classColumn (K - 1)).map
            (fun (s : Nat) => (s : Int)) ∧
      LogOK ops col noOfSamples featureMatrix classColumn N K
        (selectSeq ops col noOfSamples (N : Int) featureMatrix classColumn (K - 1))
        m.featureMIMatrix log := by
  have hlt := (seedIndex_lt ops col noOfSamples (N : Int) featureMatrix classColumn).2
  simp only [Int.toNat_natCast] at hlt
  have hN : 0 < N := by omega
  obtain ⟨h0a, h0b⟩ := seedMem_ok ops col noOfSamples featureMatrix classColumn N K hK hc
  obtain ⟨s, hs, hso, -, hlg⟩ := forRange_inv
    (roundBodyLogged ops col noOfSamples (N : Int)
      ((List.range N).map (column featureMatrix noOfSamples)) classColumn)
    (fun i s =>
      SelOutOK N K (selectSeq ops col noOfSamples (N : Int) featureMatrix classColumn (i - 1))
        s.1.selectedFeatures s.1.outputFeatures ∧
      CacheOK ops col noOfSamples featureMatrix classColumn N (K * N)
        (selectSeq ops col noOfSamples (N : Int) featureMatrix classColumn (i - 1))
        s.1.featureMIMatrix ∧
      LogOK ops col noOfSamples featureMatrix classColumn N K
        (selectSeq ops col noOfSamples (N : Int) featureMatrix classColumn (i - 1))
        s.1.featureMIMatrix s.2)
    (K - 1) 1 (seedMem ops col (K : Int) noOfSamples (N : Int) featureMatrix classColumn, [])
    ⟨h0a, h0b, ⟨fun e he => absurd he (List.not_mem_nil e), List.Pairwise.nil,
      fun _ => ⟨List.nodup_nil, fun e he => absurd he (List.not_mem_nil e)⟩⟩⟩
    (fun i s hi1 hi2 hP => by
      obtain ⟨m, lg⟩ := s
      obtain ⟨hso, hca, hlg⟩ := hP
      simp only at hso hca hlg
      have hlen := selectSeq_length ops col noOfSamples (N : Int) featureMatrix classColumn (i - 1)
      have hlen' : (selectSeq ops col noOfSamples (N : Int) featureMatrix classColumn
          (i - 1)).length = i := by omega
      obtain ⟨m', lg', hm', hso', hca', hlg'⟩ := roundBodyLogged_inv ops col noOfSamples
        featureMatrix classColumn N K _ m lg hN (by omega) hso hca hlg
      rw [hlen'] at hm'
      refine ⟨(m', lg'), hm', ?_⟩
      have hsel : selectSeq ops col noOfSamples (N : Int) featureMatrix classColumn (i + 1 - 1)
          = selectSeq ops col noOfSamples (N : Int) featureMatrix classColumn (i - 1) ++
            [pick ops col noOfSamples (N : Int) featureMatrix classColumn
              (selectSeq ops col noOfSamples (N : Int) featureMatrix classColumn (i - 1))] := by
        obtain ⟨r', rfl⟩ : ∃ r', i = r' + 1 := ⟨i - 1, by omega⟩
        simp only [Nat.add_sub_cancel, selectSeq]
      show SelOutOK N K (selectSeq ops col noOfSamples (N : Int) featureMatrix classColumn
          (i + 1 - 1)) m'.selectedFeatures m'.outputFeatures ∧
        CacheOK ops col noOfSamples featureMatrix classColumn N (K * N)
          (selectSeq ops col noOfSamples (N : Int) featureMatrix classColumn (i + 1 - 1))
          m'.featureMIMatrix ∧
        LogOK ops col noOfSamples featureMatrix classColumn N K
          (selectSeq ops col noOfSamples (N : Int) featureMatrix classColumn (i + 1 - 1))
          m'.featureMIMatrix lg'
      rw [hsel]
      exact ⟨hso', hca', hlg'⟩)
  obtain ⟨m, lg⟩ := s
  have hK2 : 1 + (K - 1) - 1 = K - 1 := by omega
  simp only [hK2] at hso hlg
  refine ⟨m, lg, hs, ?_, hlg⟩
  obtain ⟨-, -, hol, hog, -, -⟩ := hso
  have hlen := selectSeq_length ops col noOfSamples (N : Int) featureMatrix classColumn (K - 1)
  apply List.ext_getElem?
  intro x
  rw [List.getElem?_map]
  rcases Nat.lt_or_ge x K with hx | hx
  · obtain ⟨sx, hsx⟩ : ∃ sx, (selectSeq ops col noOfSamples (N : Int) featureMatrix classColumn
        (K - 1))[x]? = some sx := ⟨_, List.getElem?_eq_getElem (by omega)⟩
    rw [hog x sx hsx]
    simp only [hsx, Option.map_some']
  · rw [List.getElem?_eq_none (by omega)]
    simp only [List.getElem?_eq_none (by omega : (selectSeq ops col noOfSamples (N : Int)
      featureMatrix classColumn (K - 1)).length ≤ x), Option.map_none']

/-- The recorded run returns the output of `DISR`, and its records are
consistent with the selections. -/
theorem DISRLogged_spec {D : Type} (ops : DoubleOps D) (col : Collaborators D)
    (k noOfSamples noOfFeatures : Int) (featureMatrix classColumn : List D) :
    (Except.map Prod.fst
        (DISRLogged ops col k noOfSamples noOfFeatures featureMatrix classColumn)
      = DISR ops col k noOfSamples noOfFeatures featureMatrix classColumn) ∧
    ∀ out log, DISRLogged ops col k noOfSamples noOfFeatures featureMatrix classColumn
        = .ok (out, log) →
      1 ≤ k ∧ 0 ≤ seedIndex ops col noOfSamples noOfFeatures featureMatrix classColumn ∧
      out = (selectSeq ops col noOfSamples noOfFeatures featureMatrix classColumn
        (k - 1).toNat).map (fun (s : Nat) => (s : Int) + 1) ∧
      ∃ fmm, LogOK ops col noOfSamples featureMatrix classColumn noOfFeatures.toNat k.toNat
        (selectSeq ops col noOfSamples noOfFeatures featureMatrix classColumn (k - 1).toNat)
        fmm log := by
  by_cases h : 1 ≤ k ∧ 0 ≤ seedIndex ops col noOfSamples noOfFeatures featureMatrix classColumn
  · obtain ⟨hk, hc⟩ := h
    have hlt := (seedIndex_lt ops col noOfSamples noOfFeatures featureMatrix classColumn).2
    obtain ⟨K, rfl⟩ := Int.eq_ofNat_of_zero_le (by omega : 0 ≤ k)
    obtain ⟨N, rfl⟩ := Int.eq_ofNat_of_zero_le (by omega : 0 ≤ noOfFeatures)
    obtain ⟨m, log, hm, hout, hlg⟩ := roundsLogged_inv ops col noOfSamples featureMatrix
      classColumn N K (by omega) hc
    have hK1 : ((K : Int) - 1).toNat = K - 1 := by omega
    have hrun : DISRLogged ops col (K : Int) noOfSamples (N : Int) featureMatrix classColumn
        = .ok ((selectSeq ops col noOfSamples (N : Int) featureMatrix classColumn (K - 1)).map
            (fun (s : Nat) => (s : Int) + 1), log) := by
      simp only [DISRLogged, hK1]
      rw [seedPhase_ok ops col _ _ _ _ _ hk hc, bind_ok]
      simp only [Int.toNat_natCast]
      rw [hm, bind_ok]
      simp only []
      rw [hout, finalize_eq K _ (by rw [List.length_map, selectSeq_length]; omega), bind_ok]
      simp [List.map_map, Function.comp]
      rfl
    constructor
    · rw [hrun, DISR_eq_selection]
      simp only [selection, if_pos (And.intro hk hc), hK1]
      rfl
    · intro out log' hol
      rw [hrun] at hol
      injection hol with hol
      injection hol with h1 h2
      subst h1 h2
      refine ⟨hk, hc, ?_, ?_⟩
      · rw [hK1]
      · rw [hK1]
        simp only [Int.toNat_natCast]
        exact ⟨_, hlg⟩
  · have herr : DISRLogged ops col k noOfSamples noOfFeatures featureMatrix classColumn
        = .error .outOfBounds := by
      simp only [DISRLogged]
      rw [seedPhase_error ops col _ _ _ _ _ h]
      rfl
    constructor
    · rw [herr, DISR_eq_selection]
      simp only [selection, if_neg h]
      rfl
    · intro out log' hol
      rw [herr] at hol
      cases hol

/-- C12. After the initialisation of lines 87-90 every cell of the cache holds the
mark `-1`. The recorded run returns the output of `DISR`, and at every later
point of the run (after each iteration of the innermost loop, the only place
where the cache is written): every cell `(x, j)` holds the mark or, only in a
row `x` of a round completed before the current round, the value `R` of
`mergeArrays(feature selected in round x, feature j)`; and a cell that holds a
value other than the mark holds the same value at every later point. -/
theorem cache_invariant {D : Type} (ops : DoubleOps D) (col : Collaborators D)
    (k noOfSamples noOfFeatures : Int) (featureMatrix classColumn : List D) :
    initMatrix ops (k * noOfFeatures)
      = .ok (List.replicate (k * noOfFeatures).toNat ops.negOne) ∧
    Except.map Prod.fst
        (DISRLogged ops col k noOfSamples noOfFeatures featureMatrix classColumn)
      = DISR ops col k noOfSamples noOfFeatures featureMatrix classColumn ∧
    ∀ out log, DISRLogged ops col k noOfSamples noOfFeatures featureMatrix classColumn
        = .ok (out, log) →
      (∀ e, e ∈ log →
        e.row < e.round ∧ (e.round : Int) < k ∧ (e.feature : Int) < noOfFeatures ∧
        ∀ x j : Nat, (x : Int) < k → (j : Int) < noOfFeatures →
          e.cache[x * noOfFeatures.toNat + j]? = some ops.negOne ∨
          (x < e.round ∧ ∃ sx : Nat, out[x]? = some ((sx : Int) + 1) ∧
            e.cache[x * noOfFeatures.toNat + j]?
              = some (relevance ops col noOfSamples featureMatrix classColumn sx j))) ∧
      log.Pairwise (fun e e' => Stable ops e.cache e'.cache) := by
  refine ⟨initMatrix_eq ops _,
    (DISRLogged_spec ops col k noOfSamples noOfFeatures featureMatrix classColumn).1, ?_⟩
  intro out log hrun
  obtain ⟨hk, hc, hout, fmm, hlg, hpw, -⟩ :=
    (DISRLogged_spec ops col k noOfSamples noOfFeatures featureMatrix classColumn).2 out log hrun
  refine ⟨fun e he => ?_, hpw⟩
  obtain ⟨ha, -, hb, hd, -, hf⟩ := (hlg e he).1
  refine ⟨ha, by omega, by omega, fun x j hx hj => ?_⟩
  have hj' : j < noOfFeatures.toNat := by omega
  obtain ⟨hdiv, hmod⟩ := cell_index noOfFeatures.toNat x j hj'
  have hq : x * noOfFeatures.toNat + j < k.toNat * noOfFeatures.toNat := by
    have h1 : (x + 1) * noOfFeatures.toNat ≤ k.toNat * noOfFeatures.toNat :=
      Nat.mul_le_mul_right _ (by omega)
    have h2 : (x + 1) * noOfFeatures.toNat = x * noOfFeatures.toNat + noOfFeatures.toNat := by
      ring
    omega
  rcases hf _ hq with h | ⟨sx, hlt, hsx, hv⟩
  · exact Or.inl h
  · rw [hdiv] at hlt hsx
    rw [hmod] at hv
    refine Or.inr ⟨hlt, sx, ?_, hv⟩
    rw [hout, List.getElem?_map, hsx]
    rfl

/-- C12, on an example: three features of four samples, `k = 3`; the run makes
four iterations of the innermost loop and computes the cells `(0, 0)`, `(0, 2)`
and `(1, 2)`. -/
theorem cache_invariant_witness :
    ∃ out log, DISRLogged dblOps bitsCollab 3 4 3 (vec [0, 1, 0, 1, 0, 0, 1, 1, 0, 1, 1, 0])
        (vec [0, 0, 1, 1]) = .ok (out, log) ∧
      out = [2, 1, 3] ∧
      log.map (fun e => (e.round, e.row, e.feature, e.computed))
        = [(1, 0, 0, true), (1, 0, 2, true), (2, 0, 2, false), (2, 1, 2, true)] ∧
      (∀ e, e ∈ log → e.row < e.round ∧ (e.round : Int) < 3 ∧ (e.feature : Int) < 3 ∧
        ∀ x j : Nat, (x : Int) < 3 → (j : Int) < 3 →
          e.cache[x * (3 : Int).toNat + j]? = some dblOps.negOne ∨
          (x < e.round ∧ ∃ sx : Nat, out[x]? = some ((sx : Int) + 1) ∧
            e.cache[x * (3 : Int).toNat + j]?
              = some (relevance dblOps bitsCollab 4 (vec [0, 1, 0, 1, 0, 0, 1, 1, 0, 1, 1, 0])
                  (vec [0, 0, 1, 1]) sx j))) ∧
      log.Pairwise (fun e e' => Stable dblOps e.cache e'.cache) := by
  have hev : Except.map (fun p => (p.1,
        p.2.map (fun e => (e.round, e.row, e.feature, e.computed))))
      (DISRLogged dblOps bitsCollab 3 4 3 (vec [0, 1, 0, 1, 0, 0, 1, 1, 0, 1, 1, 0])
        (vec [0, 0, 1, 1]))
      = .ok ([2, 1, 3],
          [(1, 0, 0, true), (1, 0, 2, true), (2, 0, 2, false), (2, 1, 2, true)]) := by
    decide
  cases hrun : DISRLogged dblOps bitsCollab 3 4 3 (vec [0, 1, 0, 1, 0, 0, 1, 1, 0, 1, 1, 0])
      (vec [0, 0, 1, 1]) with
  | error e =>
    rw [hrun] at hev
    cases hev
  | ok p =>
    obtain ⟨out, log⟩ := p
    rw [hrun] at hev
    injection hev with hev
    injection hev with h1 h2
    have h := (cache_invariant dblOps bitsCollab 3 4 3 (vec [0, 1, 0, 1, 0, 0, 1, 1, 0, 1, 1, 0])
      (vec [0, 0, 1, 1])).2.2 out log hrun
    exact ⟨out, log, rfl, h1, h2, h.1, h.2⟩

/-- C13. When no value `R(x, j)` compares equal to the mark `-1` (mutual information
and joint entropy are not negative), the run computes each cell `(x, j)` of the
cache at most once: the cells computed, in the order of their computation,
are pairwise distinct, lie in rows `x < k` and columns `j < noOfFeatures`, and
are at most `k * noOfFeatures`. -/
theorem computed_at_most_once {D : Type} (ops : DoubleOps D) (col : Collaborators D)
    (k noOfSamples noOfFeatures : Int) (featureMatrix classColumn : List D)
    (hR : ∀ sx j : Nat, (sx : Int) < noOfFeatures → (j : Int) < noOfFeatures →
      ops.eq (relevance ops col noOfSamples featureMatrix classColumn sx j) ops.negOne = false) :
    Except.map Prod.fst
        (DISRLogged ops col k noOfSamples noOfFeatures featureMatrix classColumn)
      = DISR ops col k noOfSamples noOfFeatures featureMatrix classColumn ∧
    ∀ out log, DISRLogged ops col k noOfSamples noOfFeatures featureMatrix classColumn
        = .ok (out, log) →
      (computedCells log).Nodup ∧
      (∀ c, c ∈ computedCells log → (c.1 : Int) < k ∧ (c.2 : Int) < noOfFeatures) ∧
      ((computedCells log).length : Int) ≤ k * noOfFeatures := by
  refine ⟨(DISRLogged_spec ops col k noOfSamples noOfFeatures featureMatrix classColumn).1, ?_⟩
  intro out log hrun
  obtain ⟨hk, hc, -, fmm, hlg, -, h3⟩ :=
    (DISRLogged_spec ops col k noOfSamples noOfFeatures featureMatrix classColumn).2 out log hrun
  have hlt := (seedIndex_lt ops col noOfSamples noOfFeatures featureMatrix classColumn).2
  obtain ⟨hnd, -⟩ := h3 (fun sx j hsx hj => hR sx j (by omega) (by omega))
  have hmem : ∀ c, c ∈ computedCells log → c.1 < k.toNat ∧ c.2 < noOfFeatures.toNat := by
    rintro ⟨x, j⟩ hcm
    obtain ⟨e, he, -, her, hef⟩ := (mem_computedCells log x j).mp hcm
    obtain ⟨ha, -, hb, hd, -, -⟩ := (hlg e he).1
    simp only
    omega
  refine ⟨hnd, fun c hcm => by have := hmem c hcm; omega, ?_⟩
  have hsub : computedCells log
      ⊆ List.product (List.range k.toNat) (List.range noOfFeatures.toNat) := by
    rintro ⟨x, j⟩ hcm
    have := hmem _ hcm
    exact List.mem_product.mpr ⟨List.mem_range.mpr this.1, List.mem_range.mpr this.2⟩
  have hle := (List.subperm_of_subset hnd hsub).length_le
  have hlp : (List.product (List.range k.toNat) (List.range noOfFeatures.toNat)).length
      = k.toNat * noOfFeatures.toNat := by
    have := List.length_product (List.range k.toNat) (List.range noOfFeatures.toNat)
    rw [List.length_range, List.length_range] at this
    exact this
  rw [hlp] at hle
  have hcast : (k.toNat : Int) * (noOfFeatures.toNat : Int) = k * noOfFeatures := by
    rw [Int.toNat_of_nonneg (by omega), Int.toNat_of_nonneg (by omega)]
  rw [← hcast]
  exact_mod_cast hle

/-- C13, on an example: three features of four samples, `k = 3`; four iterations
of the innermost loop compute three cells, the fourth finds its cell cached. -/
theorem computed_at_most_once_witness :
    Except.map (fun p => computedCells p.2)
        (DISRLogged dblOps bitsCollab 3 4 3 (vec [0, 1, 0, 1, 0, 0, 1, 1, 0, 1, 1, 0])
          (vec [0, 0, 1, 1])) = .ok [(0, 0), (0, 2), (1, 2)] ∧
    ∀ out log, DISRLogged dblOps bitsCollab 3 4 3 (vec [0, 1, 0, 1, 0, 0, 1, 1, 0, 1, 1, 0])
        (vec [0, 0, 1, 1]) = .ok (out, log) →
      (computedCells log).Nodup ∧
      (∀ c, c ∈ computedCells log → (c.1 : Int) < 3 ∧ (c.2 : Int) < 3) ∧
      ((computedCells log).length : Int) ≤ 3 * 3 :=
  ⟨by decide,
   (computed_at_most_once dblOps bitsCollab 3 4 3 (vec [0, 1, 0, 1, 0, 0, 1, 1, 0, 1, 1, 0])
    (vec [0, 0, 1, 1]) (fun sx j hsx hj => by
      have h1 : sx < 3 := by omega
      have h2 : j < 3 := by omega
      interval_cases sx <;> interval_cases j <;> decide)).2⟩

/-- C16. If `k ≥ 1` and some feature has `classMI > 0.0`, every index the run uses
is in bounds. The seed index lies in `[0, noOfFeatures)`. The run returns
without a fault — every subscript of the model is checked (`readAt`,
`writeAt`), so no access to `classMI`, `selectedFeatures`, `feature2D`,
`featureMIMatrix` or `outputFeatures` is out of bounds — and all `k` entries of
`outputFeatures` are written. Every cache position `x*noOfFeatures + j` of an
iteration of the innermost loop lies in `[0, k*noOfFeatures)`. After the seed
step and after every round, the entries of `outputFeatures` that the
innermost loop reads back lie in `[0, noOfFeatures)`. -/
theorem index_safety {D : Type} (ops : DoubleOps D) (col : Collaborators D)
    (k noOfSamples noOfFeatures : Int) (featureMatrix classColumn : List D)
    (hk : 1 ≤ k)
    (hseed : ∃ p : Nat, (p : Int) < noOfFeatures ∧
      ops.gt (classMIOf col noOfSamples featureMatrix classColumn p) ops.zero = true) :
    (0 ≤ seedIndex ops col noOfSamples noOfFeatures featureMatrix classColumn ∧
      seedIndex ops col noOfSamples noOfFeatures featureMatrix classColumn < noOfFeatures) ∧
    (∃ out, DISR ops col k noOfSamples noOfFeatures featureMatrix classColumn = .ok out ∧
      out.length = k.toNat ∧ ∀ v, v ∈ out → 0 ≤ v - 1 ∧ v - 1 < noOfFeatures) ∧
    (∃ out log, DISRLogged ops col k noOfSamples noOfFeatures featureMatrix classColumn
        = .ok (out, log) ∧
      ∀ e, e ∈ log → (e.row : Int) < k ∧ (e.feature : Int) < noOfFeatures ∧
        0 ≤ (e.row : Int) * noOfFeatures + (e.feature : Int) ∧
        (e.row : Int) * noOfFeatures + (e.feature : Int) < k * noOfFeatures) ∧
    (∀ (feature2D : List (List D)) (sd : SeedState D) (m0 : Mem D),
      seedPhase ops col k noOfSamples noOfFeatures featureMatrix classColumn
        = .ok (feature2D, sd, m0) →
      ∀ r : Nat, (r : Int) < k →
        ∃ m, forRange (roundBody ops col noOfSamples noOfFeatures feature2D classColumn) 1 r m0
            = .ok m ∧
          m.outputFeatures.length = k.toNat ∧
          ∀ x : Nat, x ≤ r → ∃ s : Int, m.outputFeatures[x]? = some s ∧
            0 ≤ s ∧ s < noOfFeatures) := by
  have hc := (seedIndex_nonneg_iff ops col noOfSamples noOfFeatures featureMatrix
    classColumn).mpr hseed
  have hlt := (seedIndex_lt ops col noOfSamples noOfFeatures featureMatrix classColumn).2
  obtain ⟨out, hout⟩ := (DISR_ok_iff ops col k noOfSamples noOfFeatures featureMatrix
    classColumn).mpr ⟨hk, hseed⟩
  refine ⟨⟨hc, by omega⟩, ⟨out, hout, ?_, fun v hv => ?_⟩, ?_, ?_⟩
  · rw [DISR_eq_selection] at hout
    simp only [selection] at hout
    rw [if_pos ⟨hk, hc⟩] at hout
    injection hout with hout
    rw [← hout, List.length_map, selectSeq_length]
    omega
  · have := DISR_output_range ops col k noOfSamples noOfFeatures featureMatrix classColumn
      out hout v hv
    constructor <;> omega
  · have hspec := DISRLogged_spec ops col k noOfSamples noOfFeatures featureMatrix classColumn
    cases hrun : DISRLogged ops col k noOfSamples noOfFeatures featureMatrix classColumn with
    | error e =>
      have h1 := hspec.1
      rw [hrun, hout] at h1
      cases h1
    | ok p =>
      obtain ⟨out', log⟩ := p
      refine ⟨out', log, rfl, fun e he => ?_⟩
      obtain ⟨-, -, -, fmm, hlg, -, -⟩ := hspec.2 out' log hrun
      obtain ⟨ha, -, hb, hd, -, -⟩ := (hlg e he).1
      have h1 : (e.row : Int) + 1 ≤ k := by omega
      have h2 : (e.feature : Int) < noOfFeatures := by omega
      have h3 : (0 : Int) ≤ (e.row : Int) := Int.natCast_nonneg _
      have h4 : (0 : Int) ≤ (e.feature : Int) := Int.natCast_nonneg _
      have h5 : (0 : Int) ≤ noOfFeatures := by omega
      refine ⟨by omega, h2, by positivity, ?_⟩
      have h6 : ((e.row : Int) + 1) * noOfFeatures ≤ k * noOfFeatures :=
        mul_le_mul_of_nonneg_right h1 h5
      have h7 : ((e.row : Int) + 1) * noOfFeatures
          = (e.row : Int) * noOfFeatures + noOfFeatures := by ring
      omega
  · intro feature2D sd m0 h0 r hr
    obtain ⟨m, hm, hso, -⟩ := rounds_state ops col k noOfSamples noOfFeatures featureMatrix
      classColumn feature2D sd m0 h0 r hr
    obtain ⟨-, -, hol, hog, hltn, -⟩ := hso
    refine ⟨m, hm, hol, fun x hx => ?_⟩
    have hlen := selectSeq_length ops col noOfSamples noOfFeatures featureMatrix classColumn r
    obtain ⟨sx, hsx⟩ : ∃ sx, (selectSeq ops col noOfSamples noOfFeatures featureMatrix
        classColumn r)[x]? = some sx := ⟨_, List.getElem?_eq_getElem (by omega)⟩
    have := hltn sx (List.getElem?_mem hsx)
    exact ⟨(sx : Int), hog x sx hsx, Int.natCast_nonneg _, by omega⟩

/-- C16, on an example: `k = 5` rounds over three features (more rounds than
features). -/
theorem index_safety_witness :
    DISR dblOps bitsCollab 5 4 3 (vec [0, 1, 0, 1, 0, 0, 1, 1, 0, 1, 1, 0]) (vec [0, 0, 1, 1])
      = .ok [2, 1, 3, 1, 1] ∧
    (0 ≤ seedIndex dblOps bitsCollab 4 3 (vec [0, 1, 0, 1, 0, 0, 1, 1, 0, 1, 1, 0])
        (vec [0, 0, 1, 1]) ∧
      seedIndex dblOps bitsCollab 4 3 (vec [0, 1, 0, 1, 0, 0, 1, 1, 0, 1, 1, 0])
        (vec [0, 0, 1, 1]) < 3) ∧
    ∃ out log, DISRLogged dblOps bitsCollab 5 4 3 (vec [0, 1, 0, 1, 0, 0, 1, 1, 0, 1, 1, 0])
        (vec [0, 0, 1, 1]) = .ok (out, log) ∧
      ∀ e, e ∈ log → (e.row : Int) < 5 ∧ (e.feature : Int) < 3 ∧
        0 ≤ (e.row : Int) * 3 + (e.feature : Int) ∧
        (e.row : Int) * 3 + (e.feature : Int) < 5 * 3 :=
  ⟨by decide,
   (index_safety dblOps bitsCollab 5 4 3 (vec [0, 1, 0, 1, 0, 0, 1, 1, 0, 1, 1, 0])
    (vec [0, 0, 1, 1]) (by decide) ⟨1, by decide, by decide⟩).1,
   (index_safety dblOps bitsCollab 5 4 3 (vec [0, 1, 0, 1, 0, 0, 1, 1, 0, 1, 1, 0])
    (vec [0, 0, 1, 1]) (by decide) ⟨1, by decide, by decide⟩).2.2.1⟩

end FEAST
